import Mathlib

/-!
# gportage: version algebra, SAT encoder and resolver

A shallow embedding of the dependency-resolution core of `kolkov/gportage`
(`internal/pkg`, `internal/repo`, `internal/solver`) together with theorems about it.

Conventions of the embedding.

* A Go `string` is a Lean `String` (a sequence of Unicode scalar values, i.e. a Go string
  holding valid UTF-8); every string operation is defined on the character list.
* A Go `int` is a 64-bit two's-complement integer, modelled by `Int`; arithmetic that could
  leave the range is wrapped explicitly by `wrapInt`.
* A Go `map` is an association list with pairwise distinct keys.  The order in which a `range`
  loop visits a map is not specified by the language, so every function that ranges over a
  map takes a `MapOrder`, which chooses the order of the visit at each loop.
* A Go `(value, error)` result is an `Except Error value`; a nil pointer is `none`.
* The CDCL engine (`github.com/crillab/gophersat/solver`) is an external library: it is a
  parameter of type `Engine`, constrained where needed by `Engine.Sound` / `Engine.Decides`.
* Recursion whose depth is not bounded by the input (`collectDependencies` over an arbitrary
  repository) takes a recursion-depth bound and returns `none` when the bound is exhausted.
* The pattern of `parseDependencies` is a term of `Regex`, matched by a backtracking search
  that tries the alternatives in the order of preference of the `regexp` package
  (leftmost-first: greedy repetitions and optional parts take the longer match first).
-/

namespace Gportage

/-! ## Go runtime model -/

deriving instance DecidableEq for Except

/-- Order of iteration over Go maps.  `visit site entries` is the order in which the `range`
loop number `site` visits the entries of a map. -/
structure MapOrder where
  visit : Nat → {α : Type} → List α → List α

/-- A legal iteration visits every entry of the map exactly once. -/
def MapOrder.Valid (o : MapOrder) : Prop :=
  ∀ (site : Nat) (α : Type) (l : List α), (o.visit site l).Perm l

/-- Iteration in the order in which the entries were written. -/
def MapOrder.insertion : MapOrder := ⟨fun _ _ l => l⟩

/-- Iteration in the opposite order. -/
def MapOrder.reversed : MapOrder := ⟨fun _ _ l => l.reverse⟩

/-- Go map read `m[k]` with the `ok` flag: the value stored under `k`, if any. -/
def mapGet {κ ν : Type} [DecidableEq κ] (m : List (κ × ν)) (k : κ) : Option ν :=
  match m with
  | [] => none
  | (k', v) :: rest => if k' = k then some v else mapGet rest k

/-- Go map write `m[k] = v`: replaces the value of an existing key, otherwise adds the entry. -/
def mapSet {κ ν : Type} [DecidableEq κ] (m : List (κ × ν)) (k : κ) (v : ν) : List (κ × ν) :=
  match m with
  | [] => [(k, v)]
  | (k', v') :: rest => if k' = k then (k, v) :: rest else (k', v') :: mapSet rest k v

/-- The `strings.HasPrefix` function. -/
def HasPrefix (s pre : String) : Bool := pre.data.isPrefixOf s.data

/-- The `strings.TrimPrefix` function. -/
def TrimPrefix (s pre : String) : String :=
  if HasPrefix s pre then ⟨s.data.drop pre.data.length⟩ else s

/-- The `unicode.IsSpace` predicate: the Unicode White_Space property. -/
def isSpace (c : Char) : Bool :=
  let n := c.toNat
  (9 ≤ n && n ≤ 13) || n = 32 || n = 0x85 || n = 0xA0 || n = 0x1680 ||
  (0x2000 ≤ n && n ≤ 0x200A) || n = 0x2028 || n = 0x2029 || n = 0x202F ||
  n = 0x205F || n = 0x3000

/-- The `strings.TrimSpace` function: removes all leading and trailing white space. -/
def TrimSpace (s : String) : String :=
  ⟨((s.data.dropWhile isSpace).reverse.dropWhile isSpace).reverse⟩

/-- Pieces of a character list between the occurrences of `sep`. -/
def splitChars (sep : Char) : List Char → List (List Char)
  | [] => [[]]
  | c :: cs =>
    if c = sep then [] :: splitChars sep cs
    else
      match splitChars sep cs with
      | [] => [[c]]
      | p :: ps => (c :: p) :: ps

/-- The `strings.Split` function for a one-character separator. -/
def Split (s : String) (sep : Char) : List String :=
  (splitChars sep s.data).map String.mk

/-- The `strings.Compare` function: -1, 0 or +1 by lexicographic order. -/
def compareChars : List Char → List Char → Int
  | [], [] => 0
  | [], _ :: _ => -1
  | _ :: _, [] => 1
  | a :: as, b :: bs =>
    if a.toNat < b.toNat then -1
    else if b.toNat < a.toNat then 1
    else compareChars as bs

/-- The `strings.Compare` function on strings. -/
def Compare (a b : String) : Int := compareChars a.data b.data

/-- ASCII digit, the class `\d` of Go regular expressions. -/
def isDigit (c : Char) : Bool := decide (48 ≤ c.toNat) && decide (c.toNat ≤ 57)

/-- ASCII letter, the class `[a-zA-Z]`. -/
def isLetter (c : Char) : Bool :=
  (decide (97 ≤ c.toNat) && decide (c.toNat ≤ 122)) ||
  (decide (65 ≤ c.toNat) && decide (c.toNat ≤ 90))

/-- Largest value of a Go `int`. -/
def maxInt : Int := 2 ^ 63 - 1

/-- Two's-complement wrap-around of 64-bit `int` arithmetic. -/
def wrapInt (x : Int) : Int := (x + 2 ^ 63) % 2 ^ 64 - 2 ^ 63

/-- The least value of an `int` (`math.MinInt64`). -/
def minInt : Int := -2 ^ 63

/-- Go's unary minus on an `int`: the negation with two's-complement wrap-around.  The least
`int` is the only value whose negation leaves the range; it is its own wrapped negation. -/
def negInt (x : Int) : Int := if x = minInt then minInt else -x

/-- Number denoted by a run of decimal digits. -/
def decimalValue (ds : List Char) : Nat :=
  ds.foldl (fun acc c => acc * 10 + (c.toNat - 48)) 0

/-- The `strconv.Atoi` function: an optional sign followed by at least one decimal digit,
denoting a number that fits an `int`; every other string is an error (`none`). -/
def Atoi (s : String) : Option Int :=
  match s.data with
  | [] => none
  | c :: cs =>
    if c = '-' then
      if cs ≠ [] ∧ cs.all isDigit ∧ (decimalValue cs : Int) ≤ maxInt + 1 then
        some (-(decimalValue cs : Int)) else none
    else if c = '+' then
      if cs ≠ [] ∧ cs.all isDigit ∧ (decimalValue cs : Int) ≤ maxInt then
        some (decimalValue cs : Int) else none
    else
      if (c :: cs).all isDigit ∧ (decimalValue (c :: cs) : Int) ≤ maxInt then
        some (decimalValue (c :: cs) : Int) else none

/-! ## internal/pkg/constraint.go -/

/-- The Go type `ConstraintType` (an `int`). -/
abbrev ConstraintType := Int

/-- The constant `ConstraintTypeVersion` (iota 0). -/
def ConstraintTypeVersion : ConstraintType := 0

/-- The constant `ConstraintTypeSlot` (iota 1). -/
def ConstraintTypeSlot : ConstraintType := 1

/-- The constant `ConstraintTypeUseFlag` (iota 2). -/
def ConstraintTypeUseFlag : ConstraintType := 2

/-- The Go type `Status`. -/
inductive Status
  | StatusIndet
  | StatusSat
  | StatusUnsat
  deriving DecidableEq, Repr

/-- The Go type `VersionOperator` (an `int`). -/
abbrev VersionOperator := Int

/-- The constant `OpEqual` (iota 0). -/
def OpEqual : VersionOperator := 0

/-- The constant `OpGreater` (iota 1). -/
def OpGreater : VersionOperator := 1

/-- The constant `OpGreaterEqual` (iota 2). -/
def OpGreaterEqual : VersionOperator := 2

/-- The constant `OpLess` (iota 3). -/
def OpLess : VersionOperator := 3

/-- The constant `OpLessEqual` (iota 4). -/
def OpLessEqual : VersionOperator := 4

/-- The Go struct `VersionConstraint`. -/
structure VersionConstraint where
  Operator : VersionOperator
  Version : String
  deriving DecidableEq, Repr

/-- The Go struct `Constraint`; the field `Kind` is the Go field `Type` (a reserved word
here) and `Version` is a pointer, `none` when nil. -/
structure Constraint where
  Kind : ConstraintType
  Name : String
  Version : Option VersionConstraint := none
  Slot : String := ""
  Flag : String := ""
  Required : Bool := false
  Condition : String := ""
  deriving DecidableEq, Repr

/-- The Go function `NewVersionConstraint`. -/
def NewVersionConstraint (operator : VersionOperator) (version : String) :
    Option VersionConstraint :=
  some { Operator := operator, Version := version }

/-- One element of the `[]interface{}` built by `splitVersion`: an `int` or a `string`. -/
inductive Token
  | int (n : Int)
  | str (s : String)
  deriving DecidableEq, Repr

/-- Search loop of `FindAllString` for the expression `(\d+)|([a-zA-Z]+)`: at each position
the leftmost alternative that matches is taken, greedily; a character that starts no match
is skipped.  The first argument bounds the number of positions still to visit. -/
def findAllAux : Nat → List Char → List String
  | 0, _ => []
  | _ + 1, [] => []
  | n + 1, c :: cs =>
    if isDigit c then
      String.mk (c :: cs.takeWhile isDigit) :: findAllAux n (cs.dropWhile isDigit)
    else if isLetter c then
      String.mk (c :: cs.takeWhile isLetter) :: findAllAux n (cs.dropWhile isLetter)
    else findAllAux n cs

/-- The call `re.FindAllString(v, -1)` of `splitVersion`. -/
def FindAllString (v : String) : List String := findAllAux v.data.length v.data

/-- The closure `splitVersion` of `CompareVersions`. -/
def splitVersion (v : String) : List Token :=
  (FindAllString v).map fun part =>
    match Atoi part with
    | some num => Token.int num
    | none => Token.str part

/-- Component loop of `CompareVersions`: `some r` when the loop returns `r`,
`none` when it runs to its end. -/
def compareLoop : List Token → List Token → Option Int
  | Token.int a :: rest1, Token.int b :: rest2 =>
    if a ≠ b then some (wrapInt (a - b)) else compareLoop rest1 rest2
  | Token.int _ :: _, Token.str _ :: _ => some 1
  | Token.str a :: rest1, Token.str b :: rest2 =>
    if Compare a b ≠ 0 then some (Compare a b) else compareLoop rest1 rest2
  | Token.str _ :: _, Token.int _ :: _ => some (-1)
  | _, _ => none

/-- The Go function `CompareVersions`. -/
def CompareVersions (v1 v2 : String) : Int :=
  let parts1 := splitVersion v1
  let parts2 := splitVersion v2
  match compareLoop parts1 parts2 with
  | some r => r
  | none => (parts1.length : Int) - (parts2.length : Int)

/-- The Go method `(*VersionConstraint).Satisfies`. -/
def VersionConstraint.Satisfies (vc : Option VersionConstraint) (version : String) : Bool :=
  match vc with
  | none => true
  | some vc =>
    if vc.Operator = OpEqual then version = vc.Version
    else if vc.Operator = OpGreater then CompareVersions version vc.Version > 0
    else if vc.Operator = OpGreaterEqual then CompareVersions version vc.Version ≥ 0
    else if vc.Operator = OpLess then CompareVersions version vc.Version < 0
    else if vc.Operator = OpLessEqual then CompareVersions version vc.Version ≤ 0
    else true

/-- The map literal `operators` of `ParseVersionConstraint`. -/
def operators : List (String × VersionOperator) :=
  [("=", OpEqual), (">", OpGreater), (">=", OpGreaterEqual), ("<", OpLess), ("<=", OpLessEqual)]

/-- Search loop of `ParseVersionConstraint` over the visited entries of `operators`. -/
def parseLoop (s : String) : List (String × VersionOperator) → Option VersionConstraint
  | [] => none
  | (opStr, op) :: rest =>
    if HasPrefix s opStr then
      some { Operator := op, Version := TrimSpace (TrimPrefix s opStr) }
    else parseLoop s rest

/-- The Go function `ParseVersionConstraint`. -/
def ParseVersionConstraint (o : MapOrder) (s : String) :
    Except String (Option VersionConstraint) :=
  if s = "" then Except.ok none
  else
    match parseLoop s (o.visit 0 operators) with
    | some vc => Except.ok (some vc)
    | none => Except.ok (some { Operator := OpEqual, Version := s })

/-- The Go method `(*VersionConstraint).String`. -/
def VersionConstraint.String (vc : Option VersionConstraint) : String :=
  match vc with
  | none => "any"
  | some vc =>
    if vc.Operator = OpEqual then vc.Version
    else if vc.Operator = OpGreater then ">" ++ vc.Version
    else if vc.Operator = OpGreaterEqual then ">=" ++ vc.Version
    else if vc.Operator = OpLess then "<" ++ vc.Version
    else if vc.Operator = OpLessEqual then "<=" ++ vc.Version
    else "unknown"

/-! ## internal/pkg/package.go -/

/-- The Go struct `Slot`. -/
structure Slot where
  Name : String
  Subslot : String
  deriving DecidableEq, Repr

/-- The Go function `ParseSlot`. -/
def ParseSlot (slot : String) : Slot :=
  match Split slot '/' with
  | p0 :: p1 :: _ => { Name := p0, Subslot := p1 }
  | _ => { Name := slot, Subslot := "" }

/-- The Go struct `Package`. -/
structure Package where
  Name : String
  Version : String
  Slot : Slot
  UseFlags : List (String × Bool)
  Deps : List Constraint
  Provides : List Constraint
  deriving DecidableEq, Repr

/-- The Go function `NewPackage`. -/
def NewPackage (name version slotStr : String) : Package :=
  { Name := name, Version := version, Slot := ParseSlot slotStr,
    UseFlags := [], Deps := [], Provides := [] }

/-- The Go method `(*Package).AddDependency`. -/
def Package.AddDependency (p : Package) (constraint : Constraint) : Package :=
  { p with Deps := p.Deps ++ [constraint] }

/-- The Go method `(*Package).ConflictsWith`. -/
def Package.ConflictsWith (p other : Package) : Bool :=
  if p.Name = other.Name then false
  else decide (p.Slot.Name = other.Slot.Name) && decide (p.Slot.Subslot ≠ other.Slot.Subslot)

/-! ## Errors -/

/-- The error values the resolver core creates, one constructor per message format. -/
inductive Error
  /-- Message `package %s not found` (MockRepository) -/
  | packageNotFound (name : String)
  /-- Any error of another repository implementation -/
  | repository (msg : String)
  /-- Message `failed to load package %s: %w` (Resolve) -/
  | failedToLoad (name : String) (cause : Error)
  /-- Message `package %s not found in repository` (addSimpleConstraint) -/
  | notFoundInRepository (name : String)
  /-- Message `no package provides slot %s` (addSlotConstraint) -/
  | noProvider (slot : String)
  /-- Message `unsupported constraint type: %d` (AddConstraint) -/
  | unsupportedConstraintType (t : Int)
  /-- Message `no solution found` (Resolve) -/
  | noSolution
  /-- Message `solver timeout` (Solve) -/
  | solverTimeout
  deriving DecidableEq, Repr

/-! ## internal/repo -/

/-- The Go interface `Repository`. -/
structure Repository where
  LoadPackages : List String → Except Error (List Package)
  LoadPackage : String → Except Error Package

/-- The Go struct `MockRepository`. -/
structure MockRepository where
  packages : List (String × Package)

/-- The local variable `hello` of `NewMockRepository`. -/
def NewMockRepository.hello : Package :=
  (NewPackage "app-misc/hello" "2.10" "0").AddDependency
    { Kind := ConstraintTypeVersion, Name := "sys-libs/zlib",
      Version := NewVersionConstraint OpGreaterEqual "1.2.13" }

/-- The local variable `zlib` of `NewMockRepository`. -/
def NewMockRepository.zlib : Package := NewPackage "sys-libs/zlib" "1.2.13" "0"

/-- The local variable `conflict` of `NewMockRepository`. -/
def NewMockRepository.conflict : Package :=
  (NewPackage "conflict/example" "1.0" "0").AddDependency
    { Kind := ConstraintTypeVersion, Name := "sys-libs/zlib",
      Version := NewVersionConstraint OpLess "1.2.0" }

/-- The Go function `NewMockRepository`. -/
def NewMockRepository : MockRepository :=
  let packages := mapSet (mapSet [] "app-misc/hello" NewMockRepository.hello)
    "sys-libs/zlib" NewMockRepository.zlib
  { packages := mapSet packages "conflict/example" NewMockRepository.conflict }

/-- The Go method `(*MockRepository).LoadPackage`. -/
def MockRepository.LoadPackage (m : MockRepository) (name : String) : Except Error Package :=
  match mapGet m.packages name with
  | some pkg => Except.ok pkg
  | none => Except.error (Error.packageNotFound name)

/-- The Go method `(*MockRepository).LoadPackages`. -/
def MockRepository.LoadPackages (m : MockRepository) :
    List String → Except Error (List Package)
  | [] => Except.ok []
  | name :: names =>
    match mapGet m.packages name with
    | some pkg =>
      match MockRepository.LoadPackages m names with
      | Except.ok result => Except.ok (pkg :: result)
      | Except.error e => Except.error e
    | none => Except.error (Error.packageNotFound name)

/-- The Go method `(*MockRepository).AddPackage`. -/
def MockRepository.AddPackage (m : MockRepository) (p : Package) : MockRepository :=
  { packages := mapSet m.packages p.Name p }

/-- A `MockRepository` used through the `Repository` interface. -/
def MockRepository.toRepository (m : MockRepository) : Repository :=
  { LoadPackages := m.LoadPackages, LoadPackage := m.LoadPackage }

/-! ## internal/repo/portage.go -/

/-- Regular expressions of the fragment in which the pattern of `parseDependencies` is
written: a character class, a greedy repetition `+` of a class, concatenation, alternation,
a greedy optional part and a numbered capturing group. -/
inductive Regex
  | cls (p : Char → Bool)
  | plus (p : Char → Bool)
  | seq (a b : Regex)
  | alt (a b : Regex)
  | opt (a : Regex)
  | group (n : Nat) (a : Regex)

/-- Greedy repetition of a class, zero or more times, followed by the continuation `k`: the
longest run is tried first, then shorter ones. -/
def starRun {α : Type} (p : Char → Bool) : List Char → (List Char → Option α) → Option α
  | [], k => k []
  | c :: cs, k =>
    if p c then
      match starRun p cs k with
      | some x => some x
      | none => k (c :: cs)
    else k (c :: cs)

/-- Backtracking match of a regular expression at the head of the input, followed by the
continuation `k`; the alternatives are tried in the order of preference of the `regexp`
package (leftmost-first): the left branch of `|` before the right one, a present optional
part before an absent one, a longer repetition before a shorter one.  The second argument
of `k` holds the text of the capturing groups that took part in the match. -/
def Regex.run {α : Type} :
    Regex → List Char → List (Nat × List Char) →
      (List Char → List (Nat × List Char) → Option α) → Option α
  | Regex.cls _, [], _, _ => none
  | Regex.cls p, c :: cs, caps, k => if p c then k cs caps else none
  | Regex.plus _, [], _, _ => none
  | Regex.plus p, c :: cs, caps, k =>
    if p c then starRun p cs (fun rest => k rest caps) else none
  | Regex.seq a b, cs, caps, k => Regex.run a cs caps fun rest caps2 => Regex.run b rest caps2 k
  | Regex.alt a b, cs, caps, k =>
    match Regex.run a cs caps k with
    | some x => some x
    | none => Regex.run b cs caps k
  | Regex.opt a, cs, caps, k =>
    match Regex.run a cs caps k with
    | some x => some x
    | none => k cs caps
  | Regex.group n a, cs, caps, k =>
    Regex.run a cs caps fun rest caps2 =>
      k rest (mapSet caps2 n (cs.take (cs.length - rest.length)))

/-- The operator part `[<>]=?|=` of the pattern of `parseDependencies`. -/
def operatorPattern : Regex :=
  Regex.alt
    (Regex.seq (Regex.cls fun c => c == '<' || c == '>') (Regex.opt (Regex.cls fun c => c == '=')))
    (Regex.cls fun c => c == '=')

/-- The optional tail `([<>]=?|=)([^ ]+)` of the pattern of `parseDependencies`, the
operator as group 3 and the version as group 4. -/
def versionPattern : Regex :=
  Regex.seq (Regex.group 3 operatorPattern) (Regex.group 4 (Regex.plus fun c => c != ' '))

/-- The pattern of `parseDependencies`, with the optional `!` as group 1, the name `[^! ]+`
as group 2 and the optional tail of operator and version. -/
def depPattern : Regex :=
  Regex.seq (Regex.opt (Regex.group 1 (Regex.cls fun c => c == '!')))
    (Regex.seq (Regex.group 2 (Regex.plus fun c => c != '!' && c != ' '))
      (Regex.opt versionPattern))

/-- The first match of the pattern at the head of the input: the rest of the input after the
match, and the groups. -/
def matchHere (re : Regex) (cs : List Char) : Option (List Char × List (Nat × List Char)) :=
  re.run cs [] fun rest caps => some (rest, caps)

/-- The matches that `FindAllStringSubmatch` returns for a pattern with four groups that
matches no empty string: the leftmost match, then the matches of the rest of the input;
each match is the list of the whole text and of the four groups, an absent group being the
empty string.  The first argument bounds the number of steps. -/
def findAllSubmatch (re : Regex) : Nat → List Char → List (List String)
  | 0, _ => []
  | fuel + 1, cs =>
    match matchHere re cs with
    | some (rest, caps) =>
      if rest.length < cs.length then
        (String.mk (cs.take (cs.length - rest.length)) ::
          (List.range 4).map fun i => String.mk ((mapGet caps (i + 1)).getD [])) ::
          findAllSubmatch re fuel rest
      else []
    | none =>
      match cs with
      | [] => []
      | _ :: tail => findAllSubmatch re fuel tail

/-- The call `re.FindAllStringSubmatch(depString, -1)` of `parseDependencies`. -/
def FindAllStringSubmatch (depString : String) : List (List String) :=
  findAllSubmatch depPattern (depString.data.length + 1) depString.data

/-- The Go function `parseDependencies`. -/
def parseDependencies (depString : String) : List Constraint :=
  (FindAllStringSubmatch depString).foldl (fun deps m =>
    if m.length < 3 then deps
    else
      let name := m.getD 2 ""
      if name = "" then deps
      else if m.length > 4 ∧ m.getD 3 "" ≠ "" ∧ m.getD 4 "" ≠ "" then
        let op := m.getD 3 ""
        let version := m.getD 4 ""
        let versionConstraint : Option VersionConstraint :=
          if op = ">=" then NewVersionConstraint OpGreaterEqual version
          else if op = "<=" then NewVersionConstraint OpLessEqual version
          else if op = ">" then NewVersionConstraint OpGreater version
          else if op = "<" then NewVersionConstraint OpLess version
          else if op = "=" then NewVersionConstraint OpEqual version
          else none
        deps ++ [{ Kind := ConstraintTypeVersion, Name := name, Version := versionConstraint }]
      else deps ++ [{ Kind := ConstraintTypeVersion, Name := name }]) []

/-! ## The external CDCL engine (gophersat) -/

/-- Answer of the engine: `Sat` with the model returned by `Model()`, `Unsat` or `Indet`. -/
inductive Answer
  | Sat (model : List Bool)
  | Unsat
  | Indet
  deriving DecidableEq, Repr

/-- The engine, from `ParseSlice` to `Solve()` and `Model()`, as a function of the CNF. -/
abbrev Engine := List (List Int) → Answer

/-- Truth value of a literal under a model; variable `v` is `model[v-1]`. -/
def litTrue (model : List Bool) (lit : Int) : Bool :=
  if lit > 0 then model.getD (lit.natAbs - 1) false
  else if lit < 0 then !(model.getD (lit.natAbs - 1) false)
  else false

/-- A model satisfies a CNF when every clause has a true literal. -/
def satisfies (model : List Bool) (cnf : List (List Int)) : Bool :=
  cnf.all fun clause => clause.any (litTrue model)

/-- Number of variables of the problem `ParseSlice` builds: the largest variable named. -/
def nbVars (cnf : List (List Int)) : Nat :=
  (cnf.map fun clause => (clause.map Int.natAbs).foldl max 0).foldl max 0

/-- Contract of the engine on its answers: a model it returns has one entry per variable and
satisfies the CNF, and it answers `Unsat` only when no model does. -/
def Engine.Sound (e : Engine) : Prop :=
  ∀ cnf, match e cnf with
    | Answer.Sat model => model.length = nbVars cnf ∧ satisfies model cnf = true
    | Answer.Unsat => ∀ model : List Bool, satisfies model cnf = false
    | Answer.Indet => True

/-- An engine that always reaches a verdict. -/
def Engine.Decides (e : Engine) : Prop := ∀ cnf, e cnf ≠ Answer.Indet

/-- All assignments of `n` variables. -/
def allModels : Nat → List (List Bool)
  | 0 => [[]]
  | n + 1 => (allModels n).flatMap fun m => [false :: m, true :: m]

/-- A reference engine: exhaustive search over the assignments of the named variables. -/
def exhaustive : Engine := fun cnf =>
  match (allModels (nbVars cnf)).find? fun m => satisfies m cnf with
  | some m => Answer.Sat m
  | none => Answer.Unsat

/-! ## internal/solver/gophersat_adapter.go -/

/-- The Go struct `GophersatAdapter`.  A key of `addedClauses` is the `%v` rendering of the
sorted clause, which determines the sorted clause; it is represented by that clause. -/
structure GophersatAdapter where
  clauses : List (List Int)
  vars : List (String × Int)
  varNames : List (Int × String)
  packages : List (String × List Package)
  addedClauses : List (List Int)
  deriving DecidableEq, Repr

/-- The Go function `NewGophersatAdapter`. -/
def NewGophersatAdapter : GophersatAdapter :=
  { clauses := [], vars := [], varNames := [], packages := [], addedClauses := [] }

/-- The Go method `getVarID`: the new state and the returned id. -/
def GophersatAdapter.getVarID (g : GophersatAdapter) (key : String) : GophersatAdapter × Int :=
  match mapGet g.vars key with
  | some id => (g, id)
  | none =>
    let id : Int := (g.vars.length : Int) + 1
    ({ g with vars := mapSet g.vars key id, varNames := mapSet g.varNames id key }, id)

/-- The Go method `addClause`. -/
def GophersatAdapter.addClause (g : GophersatAdapter) (clause : List Int) : GophersatAdapter :=
  let sortedClause := clause.insertionSort (· ≤ ·)
  if sortedClause ∈ g.addedClauses then g
  else { g with clauses := g.clauses ++ [clause],
                addedClauses := g.addedClauses ++ [sortedClause] }

/-- The Go method `AddPackage`. -/
def GophersatAdapter.AddPackage (g : GophersatAdapter) (p : Package) : GophersatAdapter :=
  let key := p.Name ++ "@" ++ p.Version
  let g1 : GophersatAdapter :=
    match mapGet g.packages p.Name with
    | some _ => g
    | none => { g with packages := mapSet g.packages p.Name [] }
  let existing := (mapGet g1.packages p.Name).getD []
  if existing.any (fun q => q.Version = p.Version) then g1
  else
    let g2 := { g1 with packages := mapSet g1.packages p.Name (existing ++ [p]) }
    (g2.getVarID key).1

/-- The loop shared by `addSimpleConstraint` and `addVersionConstraint`: for each package `p`
of the list that passes `keep`, `varID := g.getVarID(p.Name + "@" + p.Version)` is appended
to the collected variables. -/
def collectVarIDs (keep : Package → Bool) :
    List Package → GophersatAdapter × List Int → GophersatAdapter × List Int
  | [], acc => acc
  | p :: rest, (g, vars) =>
    if keep p then
      let r := g.getVarID (p.Name ++ "@" ++ p.Version)
      collectVarIDs keep rest (r.1, vars ++ [r.2])
    else collectVarIDs keep rest (g, vars)

/-- The Go method `addSimpleConstraint`: the new state and the returned error. -/
def GophersatAdapter.addSimpleConstraint (g : GophersatAdapter) (name : String) :
    GophersatAdapter × Option Error :=
  match mapGet g.packages name with
  | some (v :: vs) =>
    let r := collectVarIDs (fun _ => true) (v :: vs) (g, [])
    (r.1.addClause r.2, none)
  | _ => (g, some (Error.notFoundInRepository name))

/-- The Go method `addVersionConstraint`. -/
def GophersatAdapter.addVersionConstraint (g : GophersatAdapter) (c : Constraint) :
    GophersatAdapter × Option Error :=
  match c.Version with
  | none => g.addSimpleConstraint c.Name
  | some vc =>
    let r := collectVarIDs (fun p => VersionConstraint.Satisfies (some vc) p.Version)
      ((mapGet g.packages c.Name).getD []) (g, [])
    if r.2.length = 0 then (r.1, none)
    else (r.1.addClause r.2, none)

/-- The Go function `exactlyOne`. -/
def exactlyOne (vars : List Int) : List (List Int) :=
  let rec pairs : List Int → List (List Int)
    | [] => []
    | v :: rest => rest.map (fun w => [negInt v, negInt w]) ++ pairs rest
  vars :: pairs vars

/-- The Go method `AddExactlyOneConstraint`. -/
def GophersatAdapter.AddExactlyOneConstraint (g : GophersatAdapter) (pkgName : String)
    (versions : List String) : GophersatAdapter :=
  let versionVars := versions.filterMap fun version => mapGet g.vars (pkgName ++ "@" ++ version)
  match versionVars with
  | [] => g
  | [v] => g.addClause [v]
  | _ => (exactlyOne versionVars).foldl (fun acc clause => acc.addClause clause) g

/-- The Go method `addSlotConstraint`; the map `packages` is visited at loop 3. -/
def GophersatAdapter.addSlotConstraint (g : GophersatAdapter) (o : MapOrder) (c : Constraint) :
    GophersatAdapter × Option Error :=
  let slotVars := (o.visit 3 g.packages).flatMap fun entry =>
    (entry.2.filter fun p => p.Slot.Name = c.Slot).map fun p =>
      (mapGet g.vars (p.Name ++ "@" ++ p.Version)).getD 0
  if slotVars.length = 0 then (g, some (Error.noProvider c.Slot))
  else (g.addClause slotVars, none)

/-- The Go method `addUseFlagConstraint`. -/
def GophersatAdapter.addUseFlagConstraint (g : GophersatAdapter) (c : Constraint) :
    GophersatAdapter × Option Error :=
  if c.Required then
    let (g', flagVar) := g.getVarID ("USE_" ++ c.Flag)
    (g'.addClause [flagVar], none)
  else (g, none)

/-- The Go method `AddConstraint`. -/
def GophersatAdapter.AddConstraint (g : GophersatAdapter) (o : MapOrder) (c : Constraint) :
    GophersatAdapter × Option Error :=
  if c.Kind = ConstraintTypeVersion then g.addVersionConstraint c
  else if c.Kind = ConstraintTypeSlot then g.addSlotConstraint o c
  else if c.Kind = ConstraintTypeUseFlag then g.addUseFlagConstraint c
  else (g, some (Error.unsupportedConstraintType c.Kind))

/-- Decoding loop of `Solve` over the visited entries of `vars`, for a table whose ids are
at least 1, as `getVarID` builds it; for an id below 1 the Go code fails on
`model[varID-1]`, so the statements about a table that is not built by `getVarID` assume
its ids to be at least 1. -/
def decode (model : List Bool) :
    List (String × Int) → List (String × String) → List (String × String)
  | [], solution => solution
  | (key, varID) :: rest, solution =>
    if varID ≤ (model.length : Int) ∧ model.getD (varID - 1).toNat false = true then
      match Split key '@' with
      | [p0, p1] => decode model rest (mapSet solution p0 p1)
      | _ => decode model rest solution
    else decode model rest solution

/-- The Go method `Solve`: status, solution map (empty when nil) and error; the map `vars`
is visited at loop 4. -/
def GophersatAdapter.Solve (g : GophersatAdapter) (engine : Engine) (o : MapOrder) :
    Status × List (String × String) × Option Error :=
  match engine g.clauses with
  | Answer.Sat model => (Status.StatusSat, decode model (o.visit 4 g.vars) [], none)
  | Answer.Unsat => (Status.StatusUnsat, [], none)
  | Answer.Indet => (Status.StatusIndet, [], some Error.solverTimeout)

/-- The Go method `GetPackageVersions`. -/
def GophersatAdapter.GetPackageVersions (g : GophersatAdapter) (name : String) : List String :=
  ((mapGet g.packages name).getD []).map fun p => p.Version

/-! ## internal/solver/resolver.go -/

/-- The Go function `contains`. -/
def contains (slice : List String) (item : String) : Bool :=
  match slice with
  | [] => false
  | s :: rest => if s = item then true else contains rest item

/-- The Go method `collectDependencies`: the map after the call and the returned error.  The
first argument bounds the depth of the recursion; `none` when it is exhausted. -/
def collectDependencies (r : Repository) :
    Nat → Package → List (String × Package) → Option (List (String × Package) × Option Error)
  | 0, _, _ => none
  | fuel + 1, pkg, allPackages =>
    match mapGet allPackages pkg.Name with
    | some _ => some (allPackages, none)
    | none =>
      let step := fun (acc : Option (List (String × Package))) (dep : Constraint) =>
        match acc with
        | none => none
        | some all =>
          match r.LoadPackage dep.Name with
          | Except.error _ => some all
          | Except.ok depPkg =>
            match collectDependencies r fuel depPkg all with
            | none => none
            | some (all', _) => some all'
      match pkg.Deps.foldl step (some (mapSet allPackages pkg.Name pkg)) with
      | none => none
      | some all => some (all, none)

/-- First loop of `Resolve` (loading and collecting the requested packages). -/
def collectAll (r : Repository) (fuel : Nat) :
    List String → List (String × Package) → Option (Except Error (List (String × Package)))
  | [], allPackages => some (Except.ok allPackages)
  | pkgName :: rest, allPackages =>
    match r.LoadPackage pkgName with
    | Except.error err => some (Except.error (Error.failedToLoad pkgName err))
    | Except.ok p =>
      match collectDependencies r fuel p allPackages with
      | none => none
      | some (all, _) => collectAll r fuel rest all

/-- What the constraint loop of `Resolve` writes to the log about a dependency. -/
inductive LogEvent
  /-- Line `Skipping unresolved dependency: %s` -/
  | skippingUnresolved (name : String)
  /-- Line `Warning: failed to add constraint: %v` -/
  | failedToAddConstraint (err : Error)
  deriving DecidableEq, Repr

/-- Inner loop of the constraint loop of `Resolve`, over the dependencies of one package. -/
def feedDeps (o : MapOrder) (allPackages : List (String × Package)) :
    List Constraint → GophersatAdapter × List LogEvent → GophersatAdapter × List LogEvent
  | [], acc => acc
  | dep :: rest, (adapter, log) =>
    match mapGet allPackages dep.Name with
    | none => feedDeps o allPackages rest (adapter, log ++ [LogEvent.skippingUnresolved dep.Name])
    | some _ =>
      match adapter.AddConstraint o dep with
      | (adapter', some err) =>
        feedDeps o allPackages rest (adapter', log ++ [LogEvent.failedToAddConstraint err])
      | (adapter', none) => feedDeps o allPackages rest (adapter', log)

/-- Constraint loop of `Resolve` over the visited entries of `allPackages`. -/
def feedConstraints (o : MapOrder) (packages : List String)
    (allPackages : List (String × Package)) :
    List (String × Package) → GophersatAdapter × List LogEvent → GophersatAdapter × List LogEvent
  | [], acc => acc
  | (_, p) :: rest, (adapter, log) =>
    let adapter1 :=
      if contains packages p.Name then
        (adapter.AddConstraint o
          { Kind := ConstraintTypeVersion, Name := p.Name,
            Version := NewVersionConstraint OpEqual p.Version }).1
      else adapter
    feedConstraints o packages allPackages rest (feedDeps o allPackages p.Deps (adapter1, log))

/-- The encoder state and the log after the registration loop (visit 1) and the constraint
loop (visit 2) of `Resolve`. -/
def encode (o : MapOrder) (packages : List String) (allPackages : List (String × Package)) :
    GophersatAdapter × List LogEvent :=
  let adapter := (o.visit 1 allPackages).foldl (fun g e => g.AddPackage e.2) NewGophersatAdapter
  feedConstraints o packages allPackages (o.visit 2 allPackages) (adapter, [])

/-- Result loop of `Resolve` over the visited entries of `solution`. -/
def buildResult (r : Repository) :
    List (String × String) → List (String × Package) → List (String × Package)
  | [], result => result
  | (name, _) :: rest, result =>
    match r.LoadPackage name with
    | Except.error _ => buildResult r rest result
    | Except.ok p => buildResult r rest (mapSet result name p)

/-- The Go method `(*PortageResolver).Resolve` for the resolver `NewResolver(r)`; `none` when
the recursion bound of `collectDependencies` is exhausted. -/
def Resolve (r : Repository) (engine : Engine) (o : MapOrder) (fuel : Nat)
    (packages : List String) : Option (Except Error (List (String × Package))) :=
  match collectAll r fuel packages [] with
  | none => none
  | some (Except.error err) => some (Except.error err)
  | some (Except.ok allPackages) =>
    let adapter := (encode o packages allPackages).1
    match adapter.Solve engine o with
    | (_, _, some err) => some (Except.error err)
    | (status, solution, none) =>
      if status ≠ Status.StatusSat then some (Except.error Error.noSolution)
      else some (Except.ok (buildResult r (o.visit 5 solution) []))

/-! ## Auxiliary definitions for the statements -/

/-- Lexicographic comparison of two lists by a three-way comparison of their elements, a
proper prefix being smaller: negative, zero or positive. -/
def lexBy {α : Type} (cmp : α → α → Int) : List α → List α → Int
  | [], [] => 0
  | [], _ :: _ => -1
  | _ :: _, [] => 1
  | a :: as, b :: bs => if cmp a b = 0 then lexBy cmp as bs else cmp a b

/-- Three-way comparison of two characters by code point. -/
def charCmp (a b : Char) : Int :=
  if a.toNat < b.toNat then -1 else if b.toNat < a.toNat then 1 else 0

/-- Three-way comparison of two tokens as the loop of `CompareVersions` decides it. -/
def tokCmp : Token → Token → Int
  | Token.int a, Token.int b => if a < b then -1 else if b < a then 1 else 0
  | Token.int _, Token.str _ => 1
  | Token.str _, Token.int _ => -1
  | Token.str a, Token.str b => Compare a b

/-- A three-way comparison that is a strict total order: zero exactly on equal arguments,
antisymmetric and transitive. -/
structure SignCmp {α : Type} (cmp : α → α → Int) : Prop where
  eq_zero : ∀ a b, cmp a b = 0 ↔ a = b
  swap : ∀ a b, cmp b a = -(cmp a b)
  trans : ∀ a b c, cmp a b < 0 → cmp b c < 0 → cmp a c < 0

/-- Two integers of the same sign. -/
def SameSign (x y : Int) : Prop := (x < 0 ↔ y < 0) ∧ (x = 0 ↔ y = 0) ∧ (0 < x ↔ 0 < y)

/-- An `int` token holds a value that `Atoi` can return for a run of digits. -/
def Token.InRange : Token → Prop
  | Token.int n => 0 ≤ n ∧ n ≤ maxInt
  | Token.str _ => True

/-- The comparison of `CompareVersions` on the token lists. -/
def compareTokens (parts1 parts2 : List Token) : Int :=
  match compareLoop parts1 parts2 with
  | some r => r
  | none => (parts1.length : Int) - (parts2.length : Int)

/-! ## The comparison rule as the specification words it -/

/-- Token list of a version in the words of the specification: every maximal run of digits
is an integer token that holds the number the run denotes, whatever its size, and every
maximal run of letters is a string token. -/
def specTokens (v : String) : List Token :=
  (FindAllString v).map fun part =>
    if part.data.all isDigit then Token.int (decimalValue part.data) else Token.str part

/-- Order of two tokens in the words of the specification: two integers compare
numerically, two string tokens lexicographically, and an integer is greater than a string
token. -/
def specTokenOrder : Token → Token → Int
  | Token.int a, Token.int b => Int.sign (a - b)
  | Token.str a, Token.str b => if a < b then -1 else if b < a then 1 else 0
  | Token.int _, Token.str _ => 1
  | Token.str _, Token.int _ => -1

/-- First index, within the common length, at which the two token lists differ. -/
def firstDifference (xs ys : List Token) : Option Nat :=
  (List.range (min xs.length ys.length)).find? fun i => decide (xs[i]? ≠ ys[i]?)

/-- Lexicographic comparison of two token lists in the words of the specification: the
tokens at the first differing index decide; if no index of the common prefix differs, the
list with more tokens is the greater. -/
def specCompare (xs ys : List Token) : Int :=
  match firstDifference xs ys with
  | some i =>
    match xs[i]?, ys[i]? with
    | some x, some y => specTokenOrder x y
    | _, _ => 0
  | none => Int.sign ((xs.length : Int) - (ys.length : Int))

/-! ## Invariants of the encoder used in the statements -/

/-- Every stored clause is non-empty and holds positive literals only. -/
def GophersatAdapter.Positive (g : GophersatAdapter) : Prop :=
  ∀ c ∈ g.clauses, c ≠ [] ∧ ∀ l ∈ c, 0 < l

/-- Consistency of an encoder state: clauses are positive, variable ids are positive, every
registered package has its variable and is listed under its own name, and every key of
`addedClauses` is the sorted form of a stored clause. -/
structure GophersatAdapter.Inv (g : GophersatAdapter) : Prop where
  positive : g.Positive
  ids : ∀ e ∈ g.vars, 0 < e.2
  keys : ∀ e ∈ g.packages, ∀ q ∈ e.2,
    q.Name = e.1 ∧ (mapGet g.vars (q.Name ++ "@" ++ q.Version)).isSome = true
  added : ∀ k ∈ g.addedClauses, ∃ c ∈ g.clauses, c.insertionSort (· ≤ ·) = k

/-- The second encoder state keeps the clauses, the variables and the packages of the first. -/
structure GophersatAdapter.Extends (g g' : GophersatAdapter) : Prop where
  clauses : ∀ c ∈ g.clauses, c ∈ g'.clauses
  vars : ∀ k id, mapGet g.vars k = some id → mapGet g'.vars k = some id
  packages : ∀ name l, mapGet g.packages name = some l →
    ∃ l', mapGet g'.packages name = some l' ∧ ∀ q ∈ l, q ∈ l'

/-- Some version `version` of the package `name` is registered. -/
def GophersatAdapter.Registered (g : GophersatAdapter) (name version : String) : Prop :=
  ∃ l, mapGet g.packages name = some l ∧ ∃ q ∈ l, q.Version = version

/-- A stored clause forces the variable of `name@version`: it is non-empty and each of its
literals is that variable. -/
def GophersatAdapter.Pinned (g : GophersatAdapter) (name version : String) : Prop :=
  ∃ c ∈ g.clauses, c ≠ [] ∧ ∀ l ∈ c, mapGet g.vars (name ++ "@" ++ version) = some l

/-- The string has no occurrence of the key separator `@`. -/
def noAt (s : String) : Prop := '@' ∉ s.data

/-! ## Scenario repositories -/

/-- Scenario S3: a repository that holds only `app-misc/hello`, whose one dependency names
`sys-libs/zlib` without a version. -/
def missingDepRepository : MockRepository :=
  MockRepository.AddPackage { packages := [] }
    ((NewPackage "app-misc/hello" "2.10" "0").AddDependency
      { Kind := ConstraintTypeVersion, Name := "sys-libs/zlib" })

/-- A repository that holds one package whose version string contains the character `@`. -/
def atVersionRepository : MockRepository :=
  MockRepository.AddPackage { packages := [] } (NewPackage "app-misc/tool" "1.0@beta" "0")

/-- A repository that holds only `app-misc/hello`, with a dependency of slot type on the
slot `9`, which no package provides. -/
def slotDepRepository : MockRepository :=
  MockRepository.AddPackage { packages := [] }
    ((NewPackage "app-misc/hello" "2.10" "0").AddDependency
      { Kind := ConstraintTypeSlot, Name := "app-misc/hello", Slot := "9" })

/-- A repository whose package `app-misc/hello` has two dependencies: first one of slot type
on the slot `9`, which no package provides, then `sys-libs/zlib >= 1.2.13`, which the
repository holds. -/
def slotThenVersionRepository : MockRepository :=
  MockRepository.AddPackage
    (MockRepository.AddPackage { packages := [] }
      (((NewPackage "app-misc/hello" "2.10" "0").AddDependency
        { Kind := ConstraintTypeSlot, Name := "app-misc/hello", Slot := "9" }).AddDependency
        { Kind := ConstraintTypeVersion, Name := "sys-libs/zlib",
          Version := NewVersionConstraint OpGreaterEqual "1.2.13" }))
    (NewPackage "sys-libs/zlib" "1.2.13" "0")

/-! ## The exactly-one encoding as the source loops write it -/

/-- Clauses of `exactlyOne` by index, as the two nested loops of the source produce them:
the clause `vars` itself, then `[-vars[i], -vars[j]]` for `i` from `0` and `j` from `i+1`,
the minus sign being that of Go. -/
def exactlyOneByIndex (vars : List Int) : List (List Int) :=
  vars :: (List.range vars.length).flatMap fun i =>
    (List.range' (i + 1) (vars.length - (i + 1))).map fun j =>
      [negInt (vars.getD i 0), negInt (vars.getD j 0)]

/-! ## Reachable encoder states and what the constraint encodings emit -/

/-- Encoder states reachable from `NewGophersatAdapter` by calls of `AddPackage`,
`AddConstraint` and `AddExactlyOneConstraint`, every map iteration being a legal one. -/
inductive GophersatAdapter.Reachable : GophersatAdapter → Prop
  | new : GophersatAdapter.Reachable NewGophersatAdapter
  | addPackage (g : GophersatAdapter) (p : Package) :
      GophersatAdapter.Reachable g → GophersatAdapter.Reachable (g.AddPackage p)
  | addConstraint (g : GophersatAdapter) (o : MapOrder) (c : Constraint) :
      o.Valid → GophersatAdapter.Reachable g →
      GophersatAdapter.Reachable (g.AddConstraint o c).1
  | addExactlyOne (g : GophersatAdapter) (pkgName : String) (versions : List String) :
      GophersatAdapter.Reachable g →
      GophersatAdapter.Reachable (g.AddExactlyOneConstraint pkgName versions)

/-- Well-formedness of the variable table and the clause store: the keys of `vars` are
pairwise distinct, their ids are 1, 2, ... in the order of allocation, `varNames` is `vars`
read backwards, every literal of a stored clause is non-zero and names an id of the table,
every registered package is listed under its name and has its variable, and `addedClauses`
holds exactly the sorted forms of the stored clauses. -/
structure GophersatAdapter.Wf (g : GophersatAdapter) : Prop where
  keysNodup : (g.vars.map Prod.fst).Nodup
  idsRange : g.vars.map Prod.snd = (List.range g.vars.length).map fun (i : Nat) => (i : Int) + 1
  names : g.varNames = g.vars.map fun e => (e.2, e.1)
  lits : ∀ c ∈ g.clauses, ∀ l ∈ c, l ≠ 0 ∧ ∃ k, mapGet g.vars k = some (l.natAbs : Int)
  pkgs : ∀ e ∈ g.packages, ∀ q ∈ e.2,
    q.Name = e.1 ∧ (mapGet g.vars (q.Name ++ "@" ++ q.Version)).isSome = true
  added : ∀ k, k ∈ g.addedClauses ↔ ∃ c ∈ g.clauses, c.insertionSort (· ≤ ·) = k

/-- Variable id that the table gives to the key `name@version` (0 when it has none). -/
def GophersatAdapter.varOf (g : GophersatAdapter) (name version : String) : Int :=
  (mapGet g.vars (name ++ "@" ++ version)).getD 0

/-- Clause of a version constraint in the words of the specification: the variables of the
registered versions of `name` that satisfy the constraint, in registration order (all
registered versions when the constraint is null). -/
def GophersatAdapter.versionClause (g : GophersatAdapter) (name : String)
    (vc : Option VersionConstraint) : List Int :=
  ((g.GetPackageVersions name).filter fun v => VersionConstraint.Satisfies vc v).map
    fun v => g.varOf name v

/-- Registered packages whose slot name is `slot`. -/
def GophersatAdapter.slotProviders (g : GophersatAdapter) (slot : String) : List Package :=
  g.packages.flatMap fun e => e.2.filter fun p => p.Slot.Name = slot

/-- An encoder state for the examples: the versions 1.2.11 and 1.2.13 of `sys-libs/zlib` are
registered and the exactly-one constraint over them is added. -/
def exampleEncoder : GophersatAdapter :=
  ((NewGophersatAdapter.AddPackage (NewPackage "sys-libs/zlib" "1.2.11" "0")).AddPackage
    (NewPackage "sys-libs/zlib" "1.2.13" "0")).AddExactlyOneConstraint "sys-libs/zlib"
    ["1.2.11", "1.2.13"]

/-! ## Clause store without duplicates -/

/-- The clause store holds no clause twice up to permutation, and `addedClauses` holds
exactly the sorted forms of the stored clauses. -/
structure GophersatAdapter.Dedup (g : GophersatAdapter) : Prop where
  pairwise : g.clauses.Pairwise fun a b => ¬ a.Perm b
  added : ∀ k, k ∈ g.addedClauses ↔ ∃ c ∈ g.clauses, c.insertionSort (· ≤ ·) = k

/-! ## Encoder states that `Resolve` reaches -/

/-- Encoder states reachable from `NewGophersatAdapter` by calls of `AddPackage` and
`AddConstraint` only, the encoder operations that `Resolve` invokes. -/
inductive GophersatAdapter.ResolveReachable : GophersatAdapter → Prop
  | new : GophersatAdapter.ResolveReachable NewGophersatAdapter
  | addPackage (g : GophersatAdapter) (p : Package) :
      GophersatAdapter.ResolveReachable g → GophersatAdapter.ResolveReachable (g.AddPackage p)
  | addConstraint (g : GophersatAdapter) (o : MapOrder) (c : Constraint) :
      o.Valid → GophersatAdapter.ResolveReachable g →
      GophersatAdapter.ResolveReachable (g.AddConstraint o c).1

/-! ## The dependency graph of a repository -/

/-- A dependency edge of the repository: the package that `a` loads has a dependency named
`b`, and the repository can load `b`. -/
def DepEdge (r : Repository) (a b : String) : Prop :=
  ∃ p d q, r.LoadPackage a = Except.ok p ∧ d ∈ p.Deps ∧ d.Name = b ∧
    r.LoadPackage b = Except.ok q

/-- Number of the listed names that are not yet keys of the map. -/
def unvisited (names : List String) (all : List (String × Package)) : Nat :=
  (names.filter fun n => (mapGet all n).isNone).length

/-- A repository with a dependency cycle: `app/a` depends on `app/b` and on `app/missing`,
which the repository does not hold, and `app/b` depends on `app/a`. -/
def cyclicRepository : MockRepository :=
  (MockRepository.AddPackage { packages := [] }
    (((NewPackage "app/a" "1" "0").AddDependency
      { Kind := ConstraintTypeVersion, Name := "app/b" }).AddDependency
      { Kind := ConstraintTypeVersion, Name := "app/missing" })).AddPackage
    ((NewPackage "app/b" "1" "0").AddDependency
      { Kind := ConstraintTypeVersion, Name := "app/a" })

/-! ## Lemmas: three-way comparisons -/

theorem lexBy_signCmp {α : Type} {cmp : α → α → Int} (h : SignCmp cmp) : SignCmp (lexBy cmp) := by
  have hrefl : ∀ a, cmp a a = 0 := fun a => (h.eq_zero a a).2 rfl
  refine ⟨?_, ?_, ?_⟩
  · intro a
    induction a with
    | nil => intro b; cases b <;> simp [lexBy]
    | cons x xs ih =>
      intro b
      cases b with
      | nil => simp [lexBy]
      | cons y ys =>
        by_cases hxy : cmp x y = 0
        · have := (h.eq_zero x y).1 hxy
          subst this
          simp [lexBy, hxy, ih ys]
        · have hne : x ≠ y := fun e => hxy ((h.eq_zero x y).2 e)
          simp [lexBy, hxy, hne]
  · intro a
    induction a with
    | nil => intro b; cases b <;> simp [lexBy]
    | cons x xs ih =>
      intro b
      cases b with
      | nil => simp [lexBy]
      | cons y ys =>
        have hs := h.swap x y
        by_cases hxy : cmp x y = 0
        · have hyx : cmp y x = 0 := by omega
          simp [lexBy, hxy, hyx, ih ys]
        · have hyx : cmp y x ≠ 0 := by omega
          simp [lexBy, hxy, hyx, hs]
  · intro a
    induction a with
    | nil =>
      intro b c h1 h2
      cases b <;> cases c <;> simp_all [lexBy]
    | cons x xs ih =>
      intro b c h1 h2
      cases b with
      | nil => simp [lexBy] at h1
      | cons y ys =>
        cases c with
        | nil =>
          simp only [lexBy] at h2
          omega
        | cons z zs =>
          by_cases hxy : cmp x y = 0
          · have := (h.eq_zero x y).1 hxy
            subst this
            by_cases hxz : cmp x z = 0
            · simp only [lexBy, hxy, hxz, if_true] at h1 h2 ⊢
              exact ih ys zs h1 h2
            · simp only [lexBy, hxy, hxz, if_true, if_false] at h1 h2 ⊢
              exact h2
          · by_cases hyz : cmp y z = 0
            · have := (h.eq_zero y z).1 hyz
              subst this
              simp only [lexBy, hxy, hyz, if_true, if_false] at h1 h2 ⊢
              exact h1
            · simp only [lexBy, hxy, hyz, if_false] at h1 h2
              have hxz := h.trans x y z h1 h2
              have hxz' : cmp x z ≠ 0 := by omega
              simp only [lexBy, hxz', if_false]
              exact hxz

theorem charCmp_signCmp : SignCmp charCmp := by
  refine ⟨?_, ?_, ?_⟩
  · intro a b
    constructor
    · intro h
      have : a.toNat = b.toNat := by
        unfold charCmp at h
        split_ifs at h <;> omega
      exact Char.ext (UInt32.ext (by simpa [Char.toNat, UInt32.toNat] using this))
    · rintro rfl
      simp [charCmp]
  · intro a b
    unfold charCmp
    split_ifs <;> omega
  · intro a b c
    unfold charCmp
    split_ifs <;> omega

theorem compareChars_eq_lexBy (a b : List Char) : compareChars a b = lexBy charCmp a b := by
  induction a generalizing b with
  | nil => cases b <;> simp [compareChars, lexBy]
  | cons x xs ih =>
    cases b with
    | nil => simp [compareChars, lexBy]
    | cons y ys =>
      rcases lt_trichotomy x.toNat y.toNat with hlt | heq | hgt
      · simp [compareChars, lexBy, charCmp, hlt]
      · simp [compareChars, lexBy, charCmp, heq, ih ys]
      · have h1 : ¬ x.toNat < y.toNat := by omega
        simp [compareChars, lexBy, charCmp, hgt, h1]

theorem Compare_signCmp : SignCmp Compare := by
  have h := lexBy_signCmp charCmp_signCmp
  refine ⟨?_, ?_, ?_⟩
  · intro a b
    unfold Compare
    rw [compareChars_eq_lexBy, h.eq_zero]
    exact ⟨fun e => String.ext e, fun e => by rw [e]⟩
  · intro a b
    unfold Compare
    rw [compareChars_eq_lexBy, compareChars_eq_lexBy]
    exact h.swap _ _
  · intro a b c
    unfold Compare
    rw [compareChars_eq_lexBy, compareChars_eq_lexBy, compareChars_eq_lexBy]
    exact h.trans _ _ _

theorem tokCmp_signCmp : SignCmp tokCmp := by
  have hC := Compare_signCmp
  refine ⟨?_, ?_, ?_⟩
  · intro a b
    cases a <;> cases b <;> simp only [tokCmp, Token.int.injEq, Token.str.injEq]
    · constructor
      · intro h; split_ifs at h <;> omega
      · rintro rfl; simp
    · simp
    · simp
    · exact hC.eq_zero _ _
  · intro a b
    cases a <;> cases b <;> simp only [tokCmp]
    all_goals first
      | exact hC.swap _ _
      | rfl
      | (split_ifs <;> omega)
  · intro a b c
    cases a <;> cases b <;> cases c <;> simp only [tokCmp]
    · split_ifs <;> omega
    all_goals first
      | exact hC.trans _ _ _
      | (intro h1 h2; omega)

/-! ## Lemmas: tokens of a version -/

theorem findAllAux_head (n : Nat) (cs : List Char) (part : String)
    (h : part ∈ findAllAux n cs) :
    ∃ c rest, part.data = c :: rest ∧ (isDigit c = true ∨ isLetter c = true) := by
  induction n generalizing cs with
  | zero => simp [findAllAux] at h
  | succ n ih =>
    cases cs with
    | nil => simp [findAllAux] at h
    | cons c cs =>
      simp only [findAllAux] at h
      split_ifs at h with hd hl
      · rcases List.mem_cons.1 h with rfl | h'
        · exact ⟨c, _, rfl, Or.inl hd⟩
        · exact ih _ h'
      · rcases List.mem_cons.1 h with rfl | h'
        · exact ⟨c, _, rfl, Or.inr hl⟩
        · exact ih _ h'
      · exact ih _ h

theorem Atoi_inRange (part : String) (num : Int) (c : Char) (rest : List Char)
    (hp : part.data = c :: rest) (hc : isDigit c = true ∨ isLetter c = true)
    (h : Atoi part = some num) : 0 ≤ num ∧ num ≤ maxInt := by
  have hm : c ≠ '-' := by
    rintro rfl
    revert hc
    decide
  have hpl : c ≠ '+' := by
    rintro rfl
    revert hc
    decide
  unfold Atoi at h
  rw [hp] at h
  simp only [hm, hpl, if_false] at h
  split_ifs at h with hcond
  cases h
  exact ⟨Int.natCast_nonneg _, hcond.2⟩

theorem splitVersion_inRange (v : String) : ∀ t ∈ splitVersion v, t.InRange := by
  intro t ht
  unfold splitVersion at ht
  rcases List.mem_map.1 ht with ⟨part, hpart, rfl⟩
  rcases findAllAux_head _ _ _ hpart with ⟨c, rest, hp, hc⟩
  cases hA : Atoi part with
  | none => simp [Token.InRange]
  | some num => simpa [Token.InRange] using Atoi_inRange part num c rest hp hc hA

theorem wrapInt_sub (a b : Int) (ha : 0 ≤ a ∧ a ≤ maxInt) (hb : 0 ≤ b ∧ b ≤ maxInt) :
    wrapInt (a - b) = a - b := by
  unfold wrapInt
  unfold maxInt at ha hb
  norm_num at ha hb ⊢
  omega

theorem Compare_range (a b : String) : Compare a b = -1 ∨ Compare a b = 0 ∨ Compare a b = 1 := by
  unfold Compare
  generalize a.data = x
  generalize b.data = y
  induction x generalizing y with
  | nil => cases y <;> simp [compareChars]
  | cons c cs ih =>
    cases y with
    | nil => simp [compareChars]
    | cons d ds =>
      simp only [compareChars]
      split_ifs
      · simp
      · simp
      · exact ih ds

theorem compareTokens_cons (x y : Token) (xs ys : List Token) :
    compareTokens (x :: xs) (y :: ys) =
      match x, y with
      | Token.int a, Token.int b => if a ≠ b then wrapInt (a - b) else compareTokens xs ys
      | Token.int _, Token.str _ => 1
      | Token.str a, Token.str b => if Compare a b ≠ 0 then Compare a b else compareTokens xs ys
      | Token.str _, Token.int _ => -1 := by
  cases x <;> cases y <;> simp only [compareTokens, compareLoop]
  · split_ifs
    · rfl
    · simp only [List.length_cons]
      push_cast
      split <;> first | rfl | omega
  · split_ifs
    · rfl
    · simp only [List.length_cons]
      push_cast
      split <;> first | rfl | omega

theorem sameSign_of {x y : Int} (h1 : x < 0 → y < 0) (h2 : x = 0 → y = 0)
    (h3 : 0 < x → 0 < y) : SameSign x y := by
  refine ⟨⟨h1, fun h => ?_⟩, ⟨h2, fun h => ?_⟩, ⟨h3, fun h => ?_⟩⟩
  · rcases lt_trichotomy x 0 with hx | hx | hx
    · exact hx
    · have := h2 hx; omega
    · have := h3 hx; omega
  · rcases lt_trichotomy x 0 with hx | hx | hx
    · have := h1 hx; omega
    · exact hx
    · have := h3 hx; omega
  · rcases lt_trichotomy x 0 with hx | hx | hx
    · have := h1 hx; omega
    · have := h2 hx; omega
    · exact hx

theorem compareTokens_sameSign (p1 p2 : List Token)
    (h1 : ∀ t ∈ p1, t.InRange) (h2 : ∀ t ∈ p2, t.InRange) :
    SameSign (compareTokens p1 p2) (lexBy tokCmp p1 p2) := by
  induction p1 generalizing p2 with
  | nil =>
    cases p2 with
    | nil => simp [compareTokens, compareLoop, lexBy, SameSign]
    | cons y ys =>
      simp only [compareTokens, compareLoop, lexBy, List.length_nil, List.length_cons]
      push_cast
      apply sameSign_of <;> intro h <;> omega
  | cons x xs ih =>
    cases p2 with
    | nil =>
      cases x <;>
        (simp only [compareTokens, compareLoop, lexBy, List.length_nil, List.length_cons]
         push_cast
         apply sameSign_of <;> intro h <;> omega)
    | cons y ys =>
      have ihh := ih ys (fun t ht => h1 t (List.mem_cons_of_mem _ ht))
        (fun t ht => h2 t (List.mem_cons_of_mem _ ht))
      have hx := h1 x (List.mem_cons_self _ _)
      have hy := h2 y (List.mem_cons_self _ _)
      rw [compareTokens_cons]
      cases x with
      | int a =>
        cases y with
        | int b =>
          simp only [Token.InRange] at hx hy
          simp only [lexBy, tokCmp]
          by_cases hab : a = b
          · subst hab
            simpa using ihh
          · rw [if_pos hab, wrapInt_sub a b hx hy]
            rcases lt_or_gt_of_ne hab with hlt | hgt
            · simp only [hlt, if_true]
              apply sameSign_of <;> intro h <;> omega
            · have hnl : ¬ a < b := by omega
              have hgt' : b < a := hgt
              simp only [hnl, hgt', if_true, if_false]
              apply sameSign_of <;> intro h <;> omega
        | str b => simp [lexBy, tokCmp, SameSign]
      | str a =>
        cases y with
        | int b => simp [lexBy, tokCmp, SameSign]
        | str b =>
          simp only [lexBy, tokCmp]
          by_cases hab : Compare a b = 0
          · simpa [hab] using ihh
          · simp only [hab, ne_eq, not_false_eq_true, if_true, if_false]
            apply sameSign_of <;> intro h <;> omega

theorem CompareVersions_sameSign (a b : String) :
    SameSign (CompareVersions a b) (lexBy tokCmp (splitVersion a) (splitVersion b)) :=
  compareTokens_sameSign _ _ (splitVersion_inRange a) (splitVersion_inRange b)

theorem SignCmp.trans_le {α : Type} {cmp : α → α → Int} (h : SignCmp cmp) (a b c : α)
    (hab : cmp a b ≤ 0) (hbc : cmp b c ≤ 0) :
    cmp a c ≤ 0 ∧ (cmp a b < 0 → cmp a c < 0) ∧ (cmp b c < 0 → cmp a c < 0) := by
  by_cases h1 : cmp a b = 0
  · have := (h.eq_zero a b).1 h1
    subst this
    exact ⟨hbc, fun hlt => by omega, fun hlt => hlt⟩
  · by_cases h2 : cmp b c = 0
    · have := (h.eq_zero b c).1 h2
      subst this
      exact ⟨hab, fun hlt => hlt, fun hlt => by omega⟩
    · have := h.trans a b c (by omega) (by omega)
      exact ⟨by omega, fun _ => this, fun _ => this⟩

theorem CompareVersions_self (v : String) : CompareVersions v v = 0 :=
  (CompareVersions_sameSign v v).2.1.2
    ((lexBy_signCmp tokCmp_signCmp).eq_zero (splitVersion v) (splitVersion v) |>.2 rfl)

/-! ## Version order (C6) -/

/-- C6: `CompareVersions` induces a total preorder on version strings: it is zero on equal
arguments, swapping the arguments swaps the sign, and it is transitive, strictly so when
either hypothesis is strict. -/
theorem CompareVersions_total_preorder (a b c : String) :
    CompareVersions a a = 0 ∧
    ((CompareVersions a b = 0 ∧ CompareVersions b a = 0) ∨
      (CompareVersions a b < 0 ∧ 0 < CompareVersions b a) ∨
      (0 < CompareVersions a b ∧ CompareVersions b a < 0)) ∧
    (CompareVersions a b ≤ 0 → CompareVersions b c ≤ 0 → CompareVersions a c ≤ 0) ∧
    (CompareVersions a b < 0 → CompareVersions b c ≤ 0 → CompareVersions a c < 0) ∧
    (CompareVersions a b ≤ 0 → CompareVersions b c < 0 → CompareVersions a c < 0) := by
  have hL := lexBy_signCmp tokCmp_signCmp
  obtain ⟨aa1, aa2, aa3⟩ := CompareVersions_sameSign a a
  obtain ⟨ab1, ab2, ab3⟩ := CompareVersions_sameSign a b
  obtain ⟨ba1, ba2, ba3⟩ := CompareVersions_sameSign b a
  obtain ⟨bc1, bc2, bc3⟩ := CompareVersions_sameSign b c
  obtain ⟨ac1, ac2, ac3⟩ := CompareVersions_sameSign a c
  have hrefl := (hL.eq_zero (splitVersion a) (splitVersion a)).2 rfl
  have hswap := hL.swap (splitVersion a) (splitVersion b)
  have htr := hL.trans_le (splitVersion a) (splitVersion b) (splitVersion c)
  refine ⟨aa2.2 hrefl, ?_, ?_, ?_, ?_⟩
  · rcases lt_trichotomy (CompareVersions a b) 0 with h | h | h
    · right; left
      exact ⟨h, ba3.2 (by have := ab1.1 h; omega)⟩
    · left
      exact ⟨h, ba2.2 (by have := ab2.1 h; omega)⟩
    · right; right
      exact ⟨h, ba1.2 (by have := ab3.1 h; omega)⟩
  · intro h1 h2
    have := (htr (by omega) (by omega)).1
    omega
  · intro h1 h2
    have := (htr (by omega) (by omega)).2.1 (ab1.1 h1)
    omega
  · intro h1 h2
    have := (htr (by omega) (by omega)).2.2 (bc1.1 h2)
    omega

/-- C6 at the versions 1.0, 1.0.0 and 1.2: the strict transitivity clause applies. -/
theorem CompareVersions_total_preorder_witness :
    CompareVersions "1.0" "1.0.0" < 0 ∧ CompareVersions "1.0.0" "1.2" ≤ 0 ∧
      CompareVersions "1.0" "1.2" < 0 :=
  ⟨by decide, by decide,
    (CompareVersions_total_preorder "1.0" "1.0.0" "1.2").2.2.2.1 (by decide) (by decide)⟩

/-! ## Version order against the specification's rule (C7) -/

theorem char_eq_of_toNat_eq {c d : Char} (h : c.toNat = d.toNat) : c = d :=
  (charCmp_signCmp.eq_zero c d).1 (by simp [charCmp, h])

theorem compareChars_neg_iff (x y : List Char) : compareChars x y < 0 ↔ x < y := by
  induction x generalizing y with
  | nil =>
    cases y with
    | nil =>
      simp only [compareChars]
      constructor
      · intro h; omega
      · intro h; cases h
    | cons d ds =>
      simp only [compareChars]
      exact ⟨fun _ => List.Lex.nil, fun _ => by omega⟩
  | cons c cs ih =>
    cases y with
    | nil =>
      simp only [compareChars]
      constructor
      · intro h; omega
      · intro h; cases h
    | cons d ds =>
      have hcd : c < d ↔ c.toNat < d.toNat := Iff.rfl
      simp only [compareChars]
      split_ifs with h1 h2
      · exact ⟨fun _ => List.Lex.rel (hcd.2 h1), fun _ => by omega⟩
      · constructor
        · intro h; omega
        · intro h
          cases h with
          | cons _ => omega
          | rel h' => exact absurd (hcd.1 h') h1
      · have hEq : c = d := char_eq_of_toNat_eq (by omega)
        subst hEq
        rw [ih ds]
        constructor
        · intro h
          exact List.Lex.cons h
        · intro h
          cases h with
          | cons h' => exact h'
          | rel h' => exact absurd (hcd.1 h') h1

theorem Compare_eq_spec (a b : String) :
    Compare a b = if a < b then -1 else if b < a then 1 else 0 := by
  have hab : Compare a b < 0 ↔ a < b := by
    rw [String.lt_iff_toList_lt]
    exact compareChars_neg_iff a.data b.data
  have hba : Compare b a < 0 ↔ b < a := by
    rw [String.lt_iff_toList_lt]
    exact compareChars_neg_iff b.data a.data
  have hsw := Compare_signCmp.swap a b
  rcases Compare_range a b with h | h | h
  · have : a < b := hab.1 (by omega)
    simp [this, h]
  · have h1 : ¬ a < b := fun e => by have := hab.2 e; omega
    have h2 : ¬ b < a := fun e => by have := hba.2 e; omega
    simp [h1, h2, h]
  · have h1 : ¬ a < b := fun e => by have := hab.2 e; omega
    have h2 : b < a := hba.1 (by omega)
    simp [h1, h2, h]

theorem specTokenOrder_eq (x y : Token) : specTokenOrder x y = Int.sign (tokCmp x y) := by
  cases x <;> cases y <;> simp only [specTokenOrder, tokCmp]
  · rename_i a b
    rcases lt_trichotomy a b with h | h | h
    · have h' : a - b < 0 := by omega
      simp [h, Int.sign_eq_neg_one_of_neg h']
    · subst h; simp
    · have h' : 0 < a - b := by omega
      have h2 : ¬ a < b := by omega
      simp [h, h2, Int.sign_eq_one_of_pos h']
  · simp
  · simp
  · rename_i a b
    rw [← Compare_eq_spec]
    rcases Compare_range a b with h | h | h <;> simp [h]

theorem firstDifference_cons (x y : Token) (xs ys : List Token) :
    firstDifference (x :: xs) (y :: ys) =
      if x ≠ y then some 0 else (firstDifference xs ys).map Nat.succ := by
  unfold firstDifference
  have hmin : min (x :: xs).length (y :: ys).length = min xs.length ys.length + 1 := by
    simp only [List.length_cons]
    omega
  rw [hmin, List.range_succ_eq_map, List.find?_cons]
  by_cases hxy : x = y
  · subst hxy
    simp only [List.getElem?_cons_zero, ne_eq, not_true_eq_false, decide_False, if_false]
    have hp : ((fun i => decide ((x :: xs)[i]? ≠ (x :: ys)[i]?)) ∘ Nat.succ) =
        (fun i => decide (xs[i]? ≠ ys[i]?)) := by
      funext i
      simp
    rw [List.find?_map, hp]
  · simp [hxy]

theorem specCompare_eq_lexBy (xs ys : List Token) :
    specCompare xs ys = Int.sign (lexBy tokCmp xs ys) := by
  induction xs generalizing ys with
  | nil =>
    cases ys with
    | nil => simp [specCompare, firstDifference, lexBy]
    | cons y ys =>
      simp only [specCompare, firstDifference, lexBy, List.length_nil, List.length_cons,
        Nat.zero_min, List.range_zero, List.find?_nil]
      apply Int.sign_eq_neg_one_of_neg
      push_cast
      omega
  | cons x xs ih =>
    cases ys with
    | nil =>
      simp only [specCompare, firstDifference, lexBy, List.length_nil, List.length_cons,
        Nat.min_zero, List.range_zero, List.find?_nil]
      apply Int.sign_eq_one_of_pos
      push_cast
      omega
    | cons y ys =>
      have hz := tokCmp_signCmp.eq_zero x y
      by_cases hxy : x = y
      · subst hxy
        have h0 : tokCmp x x = 0 := hz.2 rfl
        have ihh := ih ys
        unfold specCompare at ihh ⊢
        rw [firstDifference_cons]
        simp only [lexBy, h0, if_true, ne_eq, not_true_eq_false, if_false]
        rw [← ihh]
        cases hfd : firstDifference xs ys with
        | none =>
          simp only [Option.map_none', List.length_cons]
          push_cast
          congr 1
          omega
        | some i => simp
      · have h0 : tokCmp x y ≠ 0 := fun e => hxy (hz.1 e)
        unfold specCompare
        rw [firstDifference_cons]
        simp [lexBy, h0, hxy, specTokenOrder_eq]

theorem sign_eq_of_sameSign {x y : Int} (h : SameSign x y) : Int.sign x = Int.sign y := by
  obtain ⟨h1, h2, h3⟩ := h
  rcases lt_trichotomy x 0 with hx | hx | hx
  · rw [Int.sign_eq_neg_one_of_neg hx, Int.sign_eq_neg_one_of_neg (h1.1 hx)]
  · rw [hx, h2.1 hx]
  · rw [Int.sign_eq_one_of_pos hx, Int.sign_eq_one_of_pos (h3.1 hx)]

theorem splitVersion_eq_specTokens (v : String) (h : ∀ t ∈ specTokens v, t.InRange) :
    splitVersion v = specTokens v := by
  unfold splitVersion specTokens at *
  apply List.map_congr_left
  intro part hpart
  have ht := h _ (List.mem_map.2 ⟨part, hpart, rfl⟩)
  obtain ⟨c, rest, hp, hc⟩ := findAllAux_head _ _ _ hpart
  have hm : c ≠ '-' := by
    rintro rfl
    revert hc
    decide
  have hpl : c ≠ '+' := by
    rintro rfl
    revert hc
    decide
  by_cases hall : part.data.all isDigit = true
  · simp only [hall, if_true, Token.InRange] at ht
    rw [if_pos hall]
    rw [hp] at hall ht
    simp [Atoi, hp, hm, hpl, hall, ht.2]
  · rw [if_neg hall]
    rw [hp] at hall
    simp [Atoi, hp, hm, hpl, hall]

/-- C7: with the token lists of the specification (a run of digits is the integer it
denotes) the rule fails on runs of digits above the largest `int`: the code puts
9223372036854775808 below 1 and 99999999999999999999 above 100000000000000000000, against
the rule.  When every run of digits of both versions fits an `int`, the sign of
`CompareVersions a b` is the comparison of the token lists by the rule (first differing
index decides, integers numerically, strings lexicographically, an integer above a string;
otherwise the longer list is greater); so 1.2.10 > 1.2.3, 1.0 < 1.0.0 and
1.0_alpha1 < 1.0_beta1. -/
theorem CompareVersions_specTokens_rule :
    (CompareVersions "9223372036854775808" "1" = -1 ∧
      specCompare (specTokens "9223372036854775808") (specTokens "1") = 1) ∧
    (CompareVersions "99999999999999999999" "100000000000000000000" = 1 ∧
      specCompare (specTokens "99999999999999999999")
        (specTokens "100000000000000000000") = -1) ∧
    (∀ a b : String, (∀ t ∈ specTokens a, t.InRange) → (∀ t ∈ specTokens b, t.InRange) →
      Int.sign (CompareVersions a b) = specCompare (specTokens a) (specTokens b)) ∧
    0 < CompareVersions "1.2.10" "1.2.3" ∧
    CompareVersions "1.0" "1.0.0" < 0 ∧
    CompareVersions "1.0_alpha1" "1.0_beta1" < 0 := by
  refine ⟨⟨by decide, by decide⟩, ⟨by decide, by decide⟩, fun a b ha hb => ?_, by decide,
    by decide, by decide⟩
  rw [← splitVersion_eq_specTokens a ha, ← splitVersion_eq_specTokens b hb,
    specCompare_eq_lexBy]
  exact sign_eq_of_sameSign (CompareVersions_sameSign a b)

/-! ## Constraint satisfaction (C8) -/

/-- C8, as stated, fails for `OpEqual`: the versions 1.00 and 1.0 compare equal, yet 1.00 does
not satisfy the constraint `= 1.0`. -/
theorem Satisfies_OpEqual_counterexample :
    ¬ (VersionConstraint.Satisfies (some { Operator := OpEqual, Version := "1.0" }) "1.00" = true ↔
        CompareVersions "1.00" "1.0" = 0) := by
  decide

/-- C8, amended: for a non-null constraint, `Satisfies` holds iff the version is the very
string of the constraint (hence compares equal to it) for `OpEqual`, and iff
`CompareVersions` against the constraint's version is > 0, >= 0, < 0, <= 0 for `OpGreater`,
`OpGreaterEqual`, `OpLess`, `OpLessEqual`. -/
theorem Satisfies_iff (ver v : String) :
    (VersionConstraint.Satisfies (some { Operator := OpEqual, Version := ver }) v = true ↔
      v = ver) ∧
    (v = ver → CompareVersions v ver = 0) ∧
    (VersionConstraint.Satisfies (some { Operator := OpGreater, Version := ver }) v = true ↔
      0 < CompareVersions v ver) ∧
    (VersionConstraint.Satisfies (some { Operator := OpGreaterEqual, Version := ver }) v = true ↔
      0 ≤ CompareVersions v ver) ∧
    (VersionConstraint.Satisfies (some { Operator := OpLess, Version := ver }) v = true ↔
      CompareVersions v ver < 0) ∧
    (VersionConstraint.Satisfies (some { Operator := OpLessEqual, Version := ver }) v = true ↔
      CompareVersions v ver ≤ 0) := by
  refine ⟨?_, ?_, ?_, ?_, ?_, ?_⟩
  · simp [VersionConstraint.Satisfies]
  · rintro rfl
    exact CompareVersions_self v
  · simp [VersionConstraint.Satisfies, OpEqual, OpGreater]
  · simp [VersionConstraint.Satisfies, OpEqual, OpGreater, OpGreaterEqual]
  · simp [VersionConstraint.Satisfies, OpEqual, OpGreater, OpGreaterEqual, OpLess]
  · simp [VersionConstraint.Satisfies, OpEqual, OpGreater, OpGreaterEqual, OpLess, OpLessEqual]

/-- C8 amended, at the version 2.10 against the constraint version 2.10. -/
theorem Satisfies_iff_witness :
    "2.10" = "2.10" ∧ CompareVersions "2.10" "2.10" = 0 :=
  ⟨rfl, (Satisfies_iff "2.10" "2.10").2.1 rfl⟩

/-! ## Printing and parsing a version constraint (C9, C10) -/

theorem parseLoop_none (s : String) (l : List (String × VersionOperator))
    (h : ∀ e ∈ l, HasPrefix s e.1 = false) : parseLoop s l = none := by
  induction l with
  | nil => rfl
  | cons e rest ih =>
    obtain ⟨opStr, op⟩ := e
    have h1 : HasPrefix s opStr = false := h (opStr, op) (List.mem_cons_self _ _)
    simp only [parseLoop, h1]
    exact ih fun e he => h e (List.mem_cons_of_mem _ he)

theorem parseLoop_unique (s : String) (l : List (String × VersionOperator))
    (e : String × VersionOperator) (he : e ∈ l) (hm : HasPrefix s e.1 = true)
    (hu : ∀ e' ∈ l, HasPrefix s e'.1 = true → e' = e) :
    parseLoop s l = some { Operator := e.2, Version := TrimSpace (TrimPrefix s e.1) } := by
  induction l with
  | nil => cases he
  | cons x rest ih =>
    obtain ⟨opStr, op⟩ := x
    by_cases hx : HasPrefix s opStr = true
    · have := hu (opStr, op) (List.mem_cons_self _ _) hx
      subst this
      simp [parseLoop, hx]
    · have hne : e ≠ (opStr, op) := by
        rintro rfl
        exact hx hm
      have he' : e ∈ rest := by
        rcases List.mem_cons.1 he with h | h
        · exact absurd h hne
        · exact h
      simp only [parseLoop, hx]
      exact ih he' fun e' h' => hu e' (List.mem_cons_of_mem _ h')

theorem hasPrefix_cons (c : Char) (v pre : String) (d : Char) (ds : List Char)
    (hpre : pre.data = d :: ds) :
    HasPrefix (String.mk [c] ++ v) pre = (d == c && ds.isPrefixOf v.data) := by
  unfold HasPrefix
  rw [hpre]
  simp [List.isPrefixOf]

theorem hasPrefix_single (c : Char) (v : String) :
    HasPrefix (String.mk [c] ++ v) (String.mk [c]) = true := by
  simp [HasPrefix, List.isPrefixOf]

theorem trimPrefix_single (c : Char) (v : String) :
    TrimPrefix (String.mk [c] ++ v) (String.mk [c]) = v := by
  simp [TrimPrefix, hasPrefix_single]

theorem hasPrefix_two_of_one (v : String) (c d : Char)
    (h : HasPrefix v (String.mk [c]) = false) : HasPrefix v (String.mk [c, d]) = false := by
  unfold HasPrefix at h ⊢
  cases hv : v.data with
  | nil => simp [List.isPrefixOf]
  | cons x xs =>
    rw [hv] at h
    simp only [List.isPrefixOf, Bool.and_true, beq_eq_false_iff_ne, ne_eq] at h
    simp [List.isPrefixOf, h]

/-- C9, as stated, fails at the null constraint: it prints as `any`, which parses to the
equality constraint on the version `any`, not to the null constraint. -/
theorem ParseVersionConstraint_String_null_counterexample :
    ParseVersionConstraint MapOrder.insertion (VersionConstraint.String none) =
        Except.ok (some { Operator := OpEqual, Version := "any" }) ∧
      ParseVersionConstraint MapOrder.insertion (VersionConstraint.String none) ≠
        Except.ok none := by
  decide

/-- C9, amended: in every iteration order of the operator table, printing and parsing gives
back the constraint when it is an `OpEqual` constraint whose version is non-empty and does
not begin with `=`, `>` or `<`, and when it is an `OpGreater` or `OpLess` constraint whose
version has no leading or trailing white space and does not begin with `=`. -/
theorem ParseVersionConstraint_String_roundtrip (o : MapOrder) (ho : o.Valid) (v : String) :
    (v ≠ "" → HasPrefix v "=" = false → HasPrefix v ">" = false → HasPrefix v "<" = false →
      ParseVersionConstraint o (VersionConstraint.String (some { Operator := OpEqual, Version := v }))
        = Except.ok (some { Operator := OpEqual, Version := v })) ∧
    (TrimSpace v = v → HasPrefix v "=" = false →
      ParseVersionConstraint o (VersionConstraint.String (some { Operator := OpGreater, Version := v }))
        = Except.ok (some { Operator := OpGreater, Version := v })) ∧
    (TrimSpace v = v → HasPrefix v "=" = false →
      ParseVersionConstraint o (VersionConstraint.String (some { Operator := OpLess, Version := v }))
        = Except.ok (some { Operator := OpLess, Version := v })) := by
  have hmem : ∀ e, e ∈ o.visit 0 operators ↔ e ∈ operators := fun e => (ho 0 _ operators).mem_iff
  refine ⟨?_, ?_, ?_⟩
  · intro hne he hg hl
    have hge := hasPrefix_two_of_one v '>' '=' hg
    have hle := hasPrefix_two_of_one v '<' '=' hl
    have hnone : parseLoop v (o.visit 0 operators) = none := by
      apply parseLoop_none
      intro e hE
      have := (hmem e).1 hE
      simp only [operators, List.mem_cons, List.mem_singleton, List.not_mem_nil, or_false] at this
      rcases this with rfl | rfl | rfl | rfl | rfl
      · exact he
      · exact hg
      · exact hge
      · exact hl
      · exact hle
    simp [ParseVersionConstraint, VersionConstraint.String, hne, hnone]
  · intro ht he
    have hs : VersionConstraint.String (some { Operator := OpGreater, Version := v }) = ">" ++ v := by
      simp [VersionConstraint.String, OpGreater, OpEqual]
    have hne : (">" ++ v : String) ≠ "" := by
      intro h
      have := congrArg String.data h
      simp at this
    have hp : parseLoop (">" ++ v) (o.visit 0 operators) =
        some { Operator := OpGreater, Version := TrimSpace (TrimPrefix (">" ++ v) ">") } := by
      apply parseLoop_unique (">" ++ v) _ (">", OpGreater)
      · exact (hmem _).2 (by simp [operators])
      · exact hasPrefix_single '>' v
      · intro e hE hpre
        have := (hmem e).1 hE
        simp only [operators, List.mem_cons, List.mem_singleton, List.not_mem_nil, or_false] at this
        rcases this with rfl | rfl | rfl | rfl | rfl
        · rw [hasPrefix_cons '>' v "=" '=' [] rfl] at hpre
          simp at hpre
        · rfl
        · rw [hasPrefix_cons '>' v ">=" '>' ['='] rfl] at hpre
          unfold HasPrefix at he
          simp [he] at hpre
        · rw [hasPrefix_cons '>' v "<" '<' [] rfl] at hpre
          simp at hpre
        · rw [hasPrefix_cons '>' v "<=" '<' ['='] rfl] at hpre
          simp at hpre
    have htp : TrimPrefix (">" ++ v) ">" = v := trimPrefix_single '>' v
    rw [hs]
    simp [ParseVersionConstraint, hne, hp, htp, ht]
  · intro ht he
    have hs : VersionConstraint.String (some { Operator := OpLess, Version := v }) = "<" ++ v := by
      simp [VersionConstraint.String, OpGreater, OpEqual, OpLess, OpGreaterEqual]
    have hne : ("<" ++ v : String) ≠ "" := by
      intro h
      have := congrArg String.data h
      simp at this
    have hp : parseLoop ("<" ++ v) (o.visit 0 operators) =
        some { Operator := OpLess, Version := TrimSpace (TrimPrefix ("<" ++ v) "<") } := by
      apply parseLoop_unique ("<" ++ v) _ ("<", OpLess)
      · exact (hmem _).2 (by simp [operators])
      · exact hasPrefix_single '<' v
      · intro e hE hpre
        have := (hmem e).1 hE
        simp only [operators, List.mem_cons, List.mem_singleton, List.not_mem_nil, or_false] at this
        rcases this with rfl | rfl | rfl | rfl | rfl
        · rw [hasPrefix_cons '<' v "=" '=' [] rfl] at hpre
          simp at hpre
        · rw [hasPrefix_cons '<' v ">" '>' [] rfl] at hpre
          simp at hpre
        · rw [hasPrefix_cons '<' v ">=" '>' ['='] rfl] at hpre
          simp at hpre
        · rfl
        · rw [hasPrefix_cons '<' v "<=" '<' ['='] rfl] at hpre
          unfold HasPrefix at he
          simp [he] at hpre
    have htp : TrimPrefix ("<" ++ v) "<" = v := trimPrefix_single '<' v
    rw [hs]
    simp [ParseVersionConstraint, hne, hp, htp, ht]

theorem MapOrder.insertion_valid : MapOrder.insertion.Valid :=
  fun _ _ l => List.Perm.refl l

theorem MapOrder.reversed_valid : MapOrder.reversed.Valid :=
  fun _ _ l => List.reverse_perm l

/-- C9 amended, at the constraint `> 1.2.13` in insertion order. -/
theorem ParseVersionConstraint_String_roundtrip_witness :
    TrimSpace "1.2.13" = "1.2.13" ∧ HasPrefix "1.2.13" "=" = false ∧
      ParseVersionConstraint MapOrder.insertion
          (VersionConstraint.String (some { Operator := OpGreater, Version := "1.2.13" })) =
        Except.ok (some { Operator := OpGreater, Version := "1.2.13" }) :=
  ⟨by decide, by decide,
    (ParseVersionConstraint_String_roundtrip MapOrder.insertion MapOrder.insertion_valid
      "1.2.13").2.1 (by decide) (by decide)⟩

/-- C10: the code at the input `>=1.2.13`.  When the iteration over the operator table
reaches `>` before `>=` (as in insertion order) the result is `(OpGreater, "=1.2.13")`; only
when it reaches `>=` first (as in the reversed order) is it `(OpGreaterEqual, "1.2.13")`. -/
theorem ParseVersionConstraint_ge_order_dependent :
    ParseVersionConstraint MapOrder.insertion ">=1.2.13" =
        Except.ok (some { Operator := OpGreater, Version := "=1.2.13" }) ∧
      ParseVersionConstraint MapOrder.reversed ">=1.2.13" =
        Except.ok (some { Operator := OpGreaterEqual, Version := "1.2.13" }) := by
  decide

/-! ## Lemmas: Go maps -/

theorem mapGet_mapSet_self {κ ν : Type} [DecidableEq κ] (m : List (κ × ν)) (k : κ) (v : ν) :
    mapGet (mapSet m k v) k = some v := by
  induction m with
  | nil => simp [mapSet, mapGet]
  | cons e rest ih =>
    obtain ⟨k', v'⟩ := e
    by_cases h : k' = k
    · simp [mapSet, mapGet, h]
    · simp [mapSet, mapGet, h, ih]

theorem mapGet_mapSet_ne {κ ν : Type} [DecidableEq κ] (m : List (κ × ν)) (k k2 : κ) (v : ν)
    (hne : k2 ≠ k) : mapGet (mapSet m k v) k2 = mapGet m k2 := by
  induction m with
  | nil =>
    have : ¬ k = k2 := fun e => hne e.symm
    simp [mapSet, mapGet, this]
  | cons e rest ih =>
    obtain ⟨k', v'⟩ := e
    by_cases h : k' = k
    · subst h
      have : ¬ k' = k2 := fun e => hne e.symm
      simp [mapSet, mapGet, this]
    · by_cases h2 : k' = k2
      · subst h2
        simp [mapSet, mapGet, h]
      · simp [mapSet, mapGet, h, h2, ih]

theorem mapGet_mem {κ ν : Type} [DecidableEq κ] (m : List (κ × ν)) (k : κ) (v : ν)
    (h : mapGet m k = some v) : (k, v) ∈ m := by
  induction m with
  | nil => simp [mapGet] at h
  | cons e rest ih =>
    obtain ⟨k', v'⟩ := e
    by_cases hk : k' = k
    · simp only [mapGet, hk, if_true, Option.some.injEq] at h
      subst hk
      subst h
      exact List.mem_cons_self _ _
    · simp only [mapGet, hk, if_false] at h
      exact List.mem_cons_of_mem _ (ih h)

theorem mapGet_isSome_of_mem {κ ν : Type} [DecidableEq κ] (m : List (κ × ν)) (k : κ) (v : ν)
    (h : (k, v) ∈ m) : (mapGet m k).isSome = true := by
  induction m with
  | nil => cases h
  | cons e rest ih =>
    obtain ⟨k', v'⟩ := e
    by_cases hk : k' = k
    · simp [mapGet, hk]
    · rcases List.mem_cons.1 h with h' | h'
      · cases h'
        exact absurd rfl hk
      · simp [mapGet, hk, ih h']

theorem mem_mapSet {κ ν : Type} [DecidableEq κ] (m : List (κ × ν)) (k : κ) (v : ν)
    (e : κ × ν) (h : e ∈ mapSet m k v) : e ∈ m ∨ e = (k, v) := by
  induction m with
  | nil =>
    simp only [mapSet, List.mem_singleton] at h
    exact Or.inr h
  | cons x rest ih =>
    obtain ⟨k', v'⟩ := x
    by_cases hk : k' = k
    · simp only [mapSet, hk, if_true] at h
      rcases List.mem_cons.1 h with h' | h'
      · exact Or.inr h'
      · exact Or.inl (List.mem_cons_of_mem _ h')
    · simp only [mapSet, hk, if_false] at h
      rcases List.mem_cons.1 h with h' | h'
      · exact Or.inl (h' ▸ List.mem_cons_self _ _)
      · rcases ih h' with h2 | h2
        · exact Or.inl (List.mem_cons_of_mem _ h2)
        · exact Or.inr h2

theorem mapGet_mapSet_isSome {κ ν : Type} [DecidableEq κ] (m : List (κ × ν)) (k k2 : κ) (v : ν)
    (h : (mapGet m k2).isSome = true) : (mapGet (mapSet m k v) k2).isSome = true := by
  by_cases hk : k2 = k
  · subst hk
    simp [mapGet_mapSet_self]
  · rw [mapGet_mapSet_ne m k k2 v hk]
    exact h

/-! ## Lemmas: the encoder keeps its invariant -/

theorem GophersatAdapter.Extends.refl_extends (g : GophersatAdapter) : g.Extends g :=
  ⟨fun _ h => h, fun _ _ h => h, fun _ l h => ⟨l, h, fun _ hq => hq⟩⟩

theorem GophersatAdapter.Extends.trans_extends {g1 g2 g3 : GophersatAdapter}
    (h12 : g1.Extends g2) (h23 : g2.Extends g3) : g1.Extends g3 := by
  refine ⟨fun c h => h23.clauses c (h12.clauses c h),
    fun k id h => h23.vars k id (h12.vars k id h), ?_⟩
  intro name l h
  obtain ⟨l2, h2, hs2⟩ := h12.packages name l h
  obtain ⟨l3, h3, hs3⟩ := h23.packages name l2 h2
  exact ⟨l3, h3, fun q hq => hs3 q (hs2 q hq)⟩

theorem getVarID_fields (g : GophersatAdapter) (key : String) :
    (g.getVarID key).1.clauses = g.clauses ∧ (g.getVarID key).1.packages = g.packages ∧
      (g.getVarID key).1.addedClauses = g.addedClauses := by
  unfold GophersatAdapter.getVarID
  cases mapGet g.vars key <;> simp

theorem getVarID_spec (g : GophersatAdapter) (key : String) :
    mapGet (g.getVarID key).1.vars key = some (g.getVarID key).2 := by
  unfold GophersatAdapter.getVarID
  cases h : mapGet g.vars key with
  | none => simp [mapGet_mapSet_self]
  | some id => simp [h]

theorem getVarID_vars (g : GophersatAdapter) (key k : String) (id : Int)
    (h : mapGet g.vars k = some id) : mapGet (g.getVarID key).1.vars k = some id := by
  unfold GophersatAdapter.getVarID
  cases hk : mapGet g.vars key with
  | none =>
    have hne : k ≠ key := by
      rintro rfl
      rw [hk] at h
      cases h
    simp [mapGet_mapSet_ne _ _ _ _ hne, h]
  | some id' => simp [h]

theorem getVarID_extends (g : GophersatAdapter) (key : String) :
    g.Extends (g.getVarID key).1 := by
  obtain ⟨hc, hp, _⟩ := getVarID_fields g key
  refine ⟨fun c h => by rw [hc]; exact h, fun k id h => getVarID_vars g key k id h, ?_⟩
  intro name l h
  exact ⟨l, by rw [hp]; exact h, fun _ hq => hq⟩

theorem getVarID_pos (g : GophersatAdapter) (key : String) (hg : ∀ e ∈ g.vars, 0 < e.2) :
    (∀ e ∈ (g.getVarID key).1.vars, 0 < e.2) ∧ 0 < (g.getVarID key).2 := by
  unfold GophersatAdapter.getVarID
  cases h : mapGet g.vars key with
  | some id =>
    exact ⟨hg, hg (key, id) (mapGet_mem _ _ _ h)⟩
  | none =>
    have hpos : (0 : Int) < (g.vars.length : Int) + 1 := by omega
    refine ⟨?_, hpos⟩
    intro e he
    rcases mem_mapSet _ _ _ _ he with h1 | h1
    · exact hg e h1
    · rw [h1]
      exact hpos

theorem getVarID_inv (g : GophersatAdapter) (key : String) (hg : g.Inv) :
    (g.getVarID key).1.Inv := by
  obtain ⟨hc, hp, ha⟩ := getVarID_fields g key
  refine ⟨?_, (getVarID_pos g key hg.ids).1, ?_, ?_⟩
  · intro c h
    rw [hc] at h
    exact hg.positive c h
  · intro e he q hq
    rw [hp] at he
    obtain ⟨h1, h2⟩ := hg.keys e he q hq
    refine ⟨h1, ?_⟩
    cases h3 : mapGet g.vars (q.Name ++ "@" ++ q.Version) with
    | none => rw [h3] at h2; cases h2
    | some id => rw [getVarID_vars g key _ id h3]; rfl
  · intro k hk
    rw [ha] at hk
    rw [hc]
    exact hg.added k hk

theorem addClause_fields (g : GophersatAdapter) (clause : List Int) :
    (g.addClause clause).vars = g.vars ∧ (g.addClause clause).packages = g.packages := by
  unfold GophersatAdapter.addClause
  simp only
  split_ifs <;> simp

theorem addClause_extends (g : GophersatAdapter) (clause : List Int) :
    g.Extends (g.addClause clause) := by
  obtain ⟨hv, hp⟩ := addClause_fields g clause
  refine ⟨?_, fun k id h => by rw [hv]; exact h, fun name l h => ⟨l, by rw [hp]; exact h, fun _ hq => hq⟩⟩
  intro c h
  unfold GophersatAdapter.addClause
  simp only
  split_ifs
  · exact h
  · exact List.mem_append_left _ h

theorem addClause_inv (g : GophersatAdapter) (clause : List Int) (hg : g.Inv)
    (hne : clause ≠ []) (hpos : ∀ l ∈ clause, 0 < l) : (g.addClause clause).Inv := by
  obtain ⟨hv, hp⟩ := addClause_fields g clause
  refine ⟨?_, by rw [hv]; exact hg.ids, ?_, ?_⟩
  · intro c h
    unfold GophersatAdapter.addClause at h
    simp only at h
    split_ifs at h
    · exact hg.positive c h
    · rcases List.mem_append.1 h with h1 | h1
      · exact hg.positive c h1
      · rw [List.mem_singleton.1 h1]
        exact ⟨hne, hpos⟩
  · rw [hv, hp]
    exact hg.keys
  · intro k hk
    unfold GophersatAdapter.addClause at hk ⊢
    simp only at hk ⊢
    split_ifs at hk ⊢
    · exact hg.added k hk
    · rcases List.mem_append.1 hk with h1 | h1
      · obtain ⟨c, hc, hs⟩ := hg.added k h1
        exact ⟨c, List.mem_append_left _ hc, hs⟩
      · rw [List.mem_singleton.1 h1]
        exact ⟨clause, List.mem_append_right _ (List.mem_singleton.2 rfl), rfl⟩

theorem addClause_stored (g : GophersatAdapter) (clause : List Int) (hg : g.Inv) :
    ∃ c ∈ (g.addClause clause).clauses, ∀ l ∈ c, l ∈ clause := by
  unfold GophersatAdapter.addClause
  simp only
  split_ifs with h
  · obtain ⟨c, hc, hs⟩ := hg.added _ h
    refine ⟨c, hc, fun l hl => ?_⟩
    have h1 : l ∈ c.insertionSort (· ≤ ·) := (List.perm_insertionSort _ c).mem_iff.2 hl
    rw [hs] at h1
    exact (List.perm_insertionSort _ clause).mem_iff.1 h1
  · exact ⟨clause, List.mem_append_right _ (List.mem_singleton.2 rfl), fun _ hl => hl⟩

theorem GophersatAdapter.Registered.mono_registered {g g' : GophersatAdapter} {name version : String}
    (h : g.Registered name version) (he : g.Extends g') : g'.Registered name version := by
  obtain ⟨l, hl, q, hq, hv⟩ := h
  obtain ⟨l', hl', hs⟩ := he.packages name l hl
  exact ⟨l', hl', q, hs q hq, hv⟩

theorem GophersatAdapter.Pinned.mono_pinned {g g' : GophersatAdapter} {name version : String}
    (h : g.Pinned name version) (he : g.Extends g') : g'.Pinned name version := by
  obtain ⟨c, hc, hne, hl⟩ := h
  exact ⟨c, he.clauses c hc, hne, fun l h' => he.vars _ _ (hl l h')⟩

theorem collectVarIDs_spec (keep : Package → Bool) (l : List Package) (g : GophersatAdapter)
    (vs : List Int) (hg : g.Inv) (hvs : ∀ v ∈ vs, 0 < v) :
    (collectVarIDs keep l (g, vs)).1.Inv ∧ g.Extends (collectVarIDs keep l (g, vs)).1 ∧
    (collectVarIDs keep l (g, vs)).1.packages = g.packages ∧
    (∀ v ∈ (collectVarIDs keep l (g, vs)).2, 0 < v) ∧
    (∀ v ∈ (collectVarIDs keep l (g, vs)).2, v ∈ vs ∨ ∃ q ∈ l, keep q = true ∧
      mapGet (collectVarIDs keep l (g, vs)).1.vars (q.Name ++ "@" ++ q.Version) = some v) ∧
    ((vs ≠ [] ∨ ∃ q ∈ l, keep q = true) → (collectVarIDs keep l (g, vs)).2 ≠ []) := by
  induction l generalizing g vs with
  | nil =>
    refine ⟨hg, GophersatAdapter.Extends.refl_extends g, rfl, hvs, fun v hv => Or.inl hv, ?_⟩
    rintro (h | ⟨q, hq, _⟩)
    · exact h
    · cases hq
  | cons p rest ih =>
    by_cases hk : keep p = true
    · simp only [collectVarIDs, hk, if_true]
      have hinv := getVarID_inv g (p.Name ++ "@" ++ p.Version) hg
      have hpos := (getVarID_pos g (p.Name ++ "@" ++ p.Version) hg.ids).2
      have hext := getVarID_extends g (p.Name ++ "@" ++ p.Version)
      have hvs' : ∀ v ∈ vs ++ [(g.getVarID (p.Name ++ "@" ++ p.Version)).2], 0 < v := by
        intro v hv
        rcases List.mem_append.1 hv with h | h
        · exact hvs v h
        · rw [List.mem_singleton.1 h]
          exact hpos
      obtain ⟨i1, i2, i3, i4, i5, i6⟩ := ih (g.getVarID (p.Name ++ "@" ++ p.Version)).1
        (vs ++ [(g.getVarID (p.Name ++ "@" ++ p.Version)).2]) hinv hvs'
      refine ⟨i1, hext.trans_extends i2, ?_, i4, ?_, ?_⟩
      · rw [i3]
        exact (getVarID_fields g _).2.1
      · intro v hv
        rcases i5 v hv with h | ⟨q, hq, hkq, hm⟩
        · rcases List.mem_append.1 h with h' | h'
          · exact Or.inl h'
          · right
            refine ⟨p, List.mem_cons_self _ _, hk, ?_⟩
            rw [List.mem_singleton.1 h']
            exact i2.vars _ _ (getVarID_spec g _)
        · exact Or.inr ⟨q, List.mem_cons_of_mem _ hq, hkq, hm⟩
      · intro _
        exact i6 (Or.inl (by simp))
    · simp only [collectVarIDs, hk]
      obtain ⟨i1, i2, i3, i4, i5, i6⟩ := ih g vs hg hvs
      refine ⟨i1, i2, i3, i4, ?_, ?_⟩
      · intro v hv
        rcases i5 v hv with h | ⟨q, hq, hkq, hm⟩
        · exact Or.inl h
        · exact Or.inr ⟨q, List.mem_cons_of_mem _ hq, hkq, hm⟩
      · rintro (h | ⟨q, hq, hkq⟩)
        · exact i6 (Or.inl h)
        · rcases List.mem_cons.1 hq with h' | h'
          · rw [h'] at hkq
            exact absurd hkq hk
          · exact i6 (Or.inr ⟨q, h', hkq⟩)

theorem addSimpleConstraint_inv (g : GophersatAdapter) (name : String) (hg : g.Inv) :
    (g.addSimpleConstraint name).1.Inv ∧ g.Extends (g.addSimpleConstraint name).1 ∧
      (g.addSimpleConstraint name).1.packages = g.packages := by
  unfold GophersatAdapter.addSimpleConstraint
  split
  · rename_i v vs _
    obtain ⟨i1, i2, i3, i4, _, i6⟩ :=
      collectVarIDs_spec (fun _ => true) (v :: vs) g [] hg (fun _ h => by cases h)
    have hne := i6 (Or.inr ⟨v, List.mem_cons_self _ _, rfl⟩)
    exact ⟨addClause_inv _ _ i1 hne i4, i2.trans_extends (addClause_extends _ _),
      by rw [(addClause_fields _ _).2, i3]⟩
  · exact ⟨hg, GophersatAdapter.Extends.refl_extends g, rfl⟩

theorem addVersionConstraint_inv (g : GophersatAdapter) (c : Constraint) (hg : g.Inv) :
    (g.addVersionConstraint c).1.Inv ∧ g.Extends (g.addVersionConstraint c).1 ∧
      (g.addVersionConstraint c).1.packages = g.packages := by
  unfold GophersatAdapter.addVersionConstraint
  split
  · exact addSimpleConstraint_inv g c.Name hg
  · rename_i vc _
    obtain ⟨i1, i2, i3, i4, _, _⟩ :=
      collectVarIDs_spec (fun p => VersionConstraint.Satisfies (some vc) p.Version)
        ((mapGet g.packages c.Name).getD []) g [] hg (fun _ h => by cases h)
    simp only
    split_ifs with h0
    · exact ⟨i1, i2, i3⟩
    · have hne : (collectVarIDs (fun p => VersionConstraint.Satisfies (some vc) p.Version)
          ((mapGet g.packages c.Name).getD []) (g, [])).2 ≠ [] := by
        intro h
        rw [h] at h0
        exact h0 rfl
      exact ⟨addClause_inv _ _ i1 hne i4, i2.trans_extends (addClause_extends _ _),
        by rw [(addClause_fields _ _).2, i3]⟩

theorem addVersionConstraint_pins (g : GophersatAdapter) (name version : String) (hg : g.Inv)
    (hr : g.Registered name version) :
    (g.addVersionConstraint
      { Kind := ConstraintTypeVersion, Name := name,
        Version := NewVersionConstraint OpEqual version }).1.Pinned name version := by
  obtain ⟨l, hl, q0, hq0, hv0⟩ := hr
  have hmem := mapGet_mem _ _ _ hl
  unfold GophersatAdapter.addVersionConstraint NewVersionConstraint
  simp only [hl, Option.getD_some]
  obtain ⟨i1, i2, i3, i4, i5, i6⟩ :=
    collectVarIDs_spec (fun p => VersionConstraint.Satisfies
      (some { Operator := OpEqual, Version := version }) p.Version) l g [] hg
      (fun _ h => by cases h)
  have hkeep : ∀ q : Package, VersionConstraint.Satisfies
      (some { Operator := OpEqual, Version := version }) q.Version = true ↔ q.Version = version := by
    intro q
    simp [VersionConstraint.Satisfies]
  have hne := i6 (Or.inr ⟨q0, hq0, (hkeep q0).2 hv0⟩)
  have h0 : ¬ (collectVarIDs (fun p => VersionConstraint.Satisfies
      (some { Operator := OpEqual, Version := version }) p.Version) l (g, [])).2.length = 0 := by
    intro h
    exact hne (List.length_eq_zero.1 h)
  rw [if_neg h0]
  have hinv := addClause_inv _ _ i1 hne i4
  obtain ⟨c, hc, hsub⟩ := addClause_stored _ (collectVarIDs (fun p => VersionConstraint.Satisfies
      (some { Operator := OpEqual, Version := version }) p.Version) l (g, [])).2 i1
  refine ⟨c, hc, (hinv.positive c hc).1, ?_⟩
  intro lit hlit
  rw [(addClause_fields _ _).1]
  rcases i5 lit (hsub lit hlit) with h | ⟨q, hq, hkq, hm⟩
  · cases h
  · have hname : q.Name = name := (hg.keys (name, l) hmem q hq).1
    have hver : q.Version = version := (hkeep q).1 hkq
    rw [hname, hver] at hm
    exact hm

theorem NewGophersatAdapter_inv : NewGophersatAdapter.Inv :=
  ⟨fun _ h => (by cases h), fun _ h => (by cases h), fun _ h => (by cases h),
    fun _ h => (by cases h)⟩

theorem addPackage_register (g1 : GophersatAdapter) (p : Package) (l : List Package)
    (hg : g1.Inv) (hl : mapGet g1.packages p.Name = some l) :
    (({ g1 with packages := mapSet g1.packages p.Name (l ++ [p]) } : GophersatAdapter).getVarID
        (p.Name ++ "@" ++ p.Version)).1.Inv ∧
      g1.Extends (({ g1 with packages := mapSet g1.packages p.Name (l ++ [p]) } :
        GophersatAdapter).getVarID (p.Name ++ "@" ++ p.Version)).1 ∧
      (({ g1 with packages := mapSet g1.packages p.Name (l ++ [p]) } : GophersatAdapter).getVarID
        (p.Name ++ "@" ++ p.Version)).1.Registered p.Name p.Version := by
  generalize hg2 : ({ g1 with packages := mapSet g1.packages p.Name (l ++ [p]) } :
    GophersatAdapter) = g2
  have hc2 : g2.clauses = g1.clauses := by rw [← hg2]
  have hv2 : g2.vars = g1.vars := by rw [← hg2]
  have ha2 : g2.addedClauses = g1.addedClauses := by rw [← hg2]
  have hp2 : g2.packages = mapSet g1.packages p.Name (l ++ [p]) := by rw [← hg2]
  obtain ⟨fc, fp, fa⟩ := getVarID_fields g2 (p.Name ++ "@" ++ p.Version)
  have hvars : ∀ k id, mapGet g1.vars k = some id →
      mapGet (g2.getVarID (p.Name ++ "@" ++ p.Version)).1.vars k = some id := by
    intro k id h
    exact getVarID_vars g2 _ k id (by rw [hv2]; exact h)
  refine ⟨⟨?_, ?_, ?_, ?_⟩, ⟨?_, hvars, ?_⟩, ?_⟩
  · intro c h
    rw [fc, hc2] at h
    exact hg.positive c h
  · exact (getVarID_pos g2 _ (by rw [hv2]; exact hg.ids)).1
  · intro e he q hq
    rw [fp, hp2] at he
    have hold : ∀ e' ∈ g1.packages, ∀ q' ∈ e'.2, q'.Name = e'.1 ∧
        (mapGet (g2.getVarID (p.Name ++ "@" ++ p.Version)).1.vars
          (q'.Name ++ "@" ++ q'.Version)).isSome = true := by
      intro e' he' q' hq'
      obtain ⟨h1, h2⟩ := hg.keys e' he' q' hq'
      refine ⟨h1, ?_⟩
      cases h3 : mapGet g1.vars (q'.Name ++ "@" ++ q'.Version) with
      | none => rw [h3] at h2; cases h2
      | some id => rw [hvars _ id h3]; rfl
    rcases mem_mapSet _ _ _ _ he with h | h
    · exact hold e h q hq
    · rw [h] at hq ⊢
      rcases List.mem_append.1 hq with h' | h'
      · exact hold (p.Name, l) (mapGet_mem _ _ _ hl) q h'
      · rw [List.mem_singleton.1 h']
        exact ⟨rfl, by rw [getVarID_spec]; rfl⟩
  · intro k hk
    rw [fa, ha2] at hk
    rw [fc, hc2]
    exact hg.added k hk
  · intro c h
    rw [fc, hc2]
    exact h
  · intro name l' h
    rw [fp, hp2]
    by_cases hn : name = p.Name
    · subst hn
      rw [hl] at h
      cases h
      exact ⟨l ++ [p], mapGet_mapSet_self _ _ _, fun q hq => List.mem_append_left _ hq⟩
    · exact ⟨l', by rw [mapGet_mapSet_ne _ _ _ _ hn]; exact h, fun _ hq => hq⟩
  · refine ⟨l ++ [p], by rw [fp, hp2]; exact mapGet_mapSet_self _ _ _, p, ?_, rfl⟩
    exact List.mem_append_right _ (List.mem_singleton.2 rfl)

theorem AddPackage_inv (g : GophersatAdapter) (p : Package) (hg : g.Inv) :
    (g.AddPackage p).Inv ∧ g.Extends (g.AddPackage p) ∧
      (g.AddPackage p).Registered p.Name p.Version := by
  unfold GophersatAdapter.AddPackage
  cases h : mapGet g.packages p.Name with
  | some l =>
    simp only [h, Option.getD_some]
    split_ifs with hany
    · refine ⟨hg, GophersatAdapter.Extends.refl_extends g, l, h, ?_⟩
      obtain ⟨q, hq, hv⟩ := List.any_eq_true.1 hany
      exact ⟨q, hq, by simpa using hv⟩
    · exact addPackage_register g p l hg h
  | none =>
    have hg1 : ({ g with packages := mapSet g.packages p.Name [] } : GophersatAdapter).Inv := by
      refine ⟨hg.positive, hg.ids, ?_, hg.added⟩
      intro e he q hq
      rcases mem_mapSet _ _ _ _ he with h1 | h1
      · exact hg.keys e h1 q hq
      · rw [h1] at hq
        cases hq
    have hl1 : mapGet ({ g with packages := mapSet g.packages p.Name [] } :
        GophersatAdapter).packages p.Name = some [] := mapGet_mapSet_self _ _ _
    have hext : g.Extends ({ g with packages := mapSet g.packages p.Name [] } :
        GophersatAdapter) := by
      refine ⟨fun _ hc => hc, fun _ _ hv => hv, ?_⟩
      intro name l' hl'
      have hn : name ≠ p.Name := by
        rintro rfl
        rw [h] at hl'
        cases hl'
      exact ⟨l', by simp only; rw [mapGet_mapSet_ne _ _ _ _ hn]; exact hl', fun _ hq => hq⟩
    simp only [hl1, Option.getD_some, List.any_nil, Bool.false_eq_true, if_false]
    obtain ⟨i1, i2, i3⟩ := addPackage_register _ p [] hg1 hl1
    exact ⟨i1, hext.trans_extends i2, i3⟩

theorem addSlotConstraint_inv (g : GophersatAdapter) (o : MapOrder) (c : Constraint)
    (ho : o.Valid) (hg : g.Inv) :
    (g.addSlotConstraint o c).1.Inv ∧ g.Extends (g.addSlotConstraint o c).1 ∧
      (g.addSlotConstraint o c).1.packages = g.packages := by
  unfold GophersatAdapter.addSlotConstraint
  simp only
  split_ifs with h0
  · exact ⟨hg, GophersatAdapter.Extends.refl_extends g, rfl⟩
  · refine ⟨addClause_inv _ _ hg ?_ ?_, addClause_extends _ _, (addClause_fields _ _).2⟩
    · intro h
      rw [h] at h0
      exact h0 rfl
    · intro v hv
      simp only [List.mem_flatMap, List.mem_map, List.mem_filter] at hv
      obtain ⟨entry, he, q, ⟨hq, _⟩, hval⟩ := hv
      have he' : entry ∈ g.packages := (ho 3 _ g.packages).mem_iff.1 he
      obtain ⟨_, hsome⟩ := hg.keys entry he' q hq
      cases hm : mapGet g.vars (q.Name ++ "@" ++ q.Version) with
      | none => rw [hm] at hsome; cases hsome
      | some id =>
        rw [hm] at hval
        rw [← hval]
        exact hg.ids _ (mapGet_mem _ _ _ hm)

theorem addUseFlagConstraint_inv (g : GophersatAdapter) (c : Constraint) (hg : g.Inv) :
    (g.addUseFlagConstraint c).1.Inv ∧ g.Extends (g.addUseFlagConstraint c).1 ∧
      (g.addUseFlagConstraint c).1.packages = g.packages := by
  unfold GophersatAdapter.addUseFlagConstraint
  split_ifs
  · have hinv := getVarID_inv g ("USE_" ++ c.Flag) hg
    have hpos := (getVarID_pos g ("USE_" ++ c.Flag) hg.ids).2
    refine ⟨addClause_inv _ _ hinv (by simp) ?_,
      (getVarID_extends g _).trans_extends (addClause_extends _ _), ?_⟩
    · intro l hl
      rw [List.mem_singleton.1 hl]
      exact hpos
    · rw [(addClause_fields _ _).2]
      exact (getVarID_fields g _).2.1
  · exact ⟨hg, GophersatAdapter.Extends.refl_extends g, rfl⟩

theorem AddConstraint_inv (g : GophersatAdapter) (o : MapOrder) (c : Constraint)
    (ho : o.Valid) (hg : g.Inv) :
    (g.AddConstraint o c).1.Inv ∧ g.Extends (g.AddConstraint o c).1 ∧
      (g.AddConstraint o c).1.packages = g.packages := by
  unfold GophersatAdapter.AddConstraint
  split_ifs
  · exact addVersionConstraint_inv g c hg
  · exact addSlotConstraint_inv g o c ho hg
  · exact addUseFlagConstraint_inv g c hg
  · exact ⟨hg, GophersatAdapter.Extends.refl_extends g, rfl⟩

theorem feedDeps_inv (o : MapOrder) (ho : o.Valid) (allPackages : List (String × Package))
    (deps : List Constraint) (g : GophersatAdapter) (log : List LogEvent) (hg : g.Inv) :
    (feedDeps o allPackages deps (g, log)).1.Inv ∧
      g.Extends (feedDeps o allPackages deps (g, log)).1 := by
  induction deps generalizing g log with
  | nil => exact ⟨hg, GophersatAdapter.Extends.refl_extends g⟩
  | cons dep rest ih =>
    simp only [feedDeps]
    split
    · exact ih g _ hg
    · obtain ⟨i1, i2, _⟩ := AddConstraint_inv g o dep ho hg
      split
      · rename_i adapter' err heq
        have h1 : (g.AddConstraint o dep).1 = adapter' := by rw [heq]
        rw [h1] at i1 i2
        obtain ⟨j1, j2⟩ := ih adapter' _ i1
        exact ⟨j1, i2.trans_extends j2⟩
      · rename_i adapter' heq
        have h1 : (g.AddConstraint o dep).1 = adapter' := by rw [heq]
        rw [h1] at i1 i2
        obtain ⟨j1, j2⟩ := ih adapter' _ i1
        exact ⟨j1, i2.trans_extends j2⟩

theorem feedConstraints_spec (o : MapOrder) (ho : o.Valid) (packages : List String)
    (allPackages l : List (String × Package)) (g : GophersatAdapter) (log : List LogEvent)
    (hg : g.Inv) :
    (feedConstraints o packages allPackages l (g, log)).1.Inv ∧
      g.Extends (feedConstraints o packages allPackages l (g, log)).1 ∧
      ∀ e ∈ l, contains packages e.2.Name = true → g.Registered e.2.Name e.2.Version →
        (feedConstraints o packages allPackages l (g, log)).1.Pinned e.2.Name e.2.Version := by
  induction l generalizing g log with
  | nil => exact ⟨hg, GophersatAdapter.Extends.refl_extends g, fun _ h => by cases h⟩
  | cons x rest ih =>
    obtain ⟨k, p⟩ := x
    simp only [feedConstraints]
    by_cases hc : contains packages p.Name = true
    · simp only [hc, if_true]
      obtain ⟨a1, a2, _⟩ := AddConstraint_inv g o
        { Kind := ConstraintTypeVersion, Name := p.Name,
          Version := NewVersionConstraint OpEqual p.Version } ho hg
      obtain ⟨b1, b2⟩ := feedDeps_inv o ho allPackages p.Deps _ log a1
      obtain ⟨c1, c2, c3⟩ := ih _ _ b1
      refine ⟨c1, a2.trans_extends (b2.trans_extends c2), ?_⟩
      intro e he hce hre
      rcases List.mem_cons.1 he with h | h
      · subst h
        have hpin : (g.AddConstraint o
            { Kind := ConstraintTypeVersion, Name := p.Name,
              Version := NewVersionConstraint OpEqual p.Version }).1.Pinned p.Name p.Version := by
          have := addVersionConstraint_pins g p.Name p.Version hg hre
          simpa [GophersatAdapter.AddConstraint] using this
        exact hpin.mono_pinned (b2.trans_extends c2)
      · exact c3 e h hce (hre.mono_registered (a2.trans_extends b2))
    · simp only [hc]
      obtain ⟨b1, b2⟩ := feedDeps_inv o ho allPackages p.Deps g log hg
      obtain ⟨c1, c2, c3⟩ := ih _ _ b1
      refine ⟨c1, b2.trans_extends c2, ?_⟩
      intro e he hce hre
      rcases List.mem_cons.1 he with h | h
      · subst h
        exact absurd hce hc
      · exact c3 e h hce (hre.mono_registered b2)

theorem register_spec (l : List (String × Package)) (g : GophersatAdapter) (hg : g.Inv) :
    (l.foldl (fun g e => g.AddPackage e.2) g).Inv ∧
      g.Extends (l.foldl (fun g e => g.AddPackage e.2) g) ∧
      ∀ e ∈ l, (l.foldl (fun g e => g.AddPackage e.2) g).Registered e.2.Name e.2.Version := by
  induction l generalizing g with
  | nil => exact ⟨hg, GophersatAdapter.Extends.refl_extends g, fun _ h => by cases h⟩
  | cons x rest ih =>
    simp only [List.foldl_cons]
    obtain ⟨a1, a2, a3⟩ := AddPackage_inv g x.2 hg
    obtain ⟨b1, b2, b3⟩ := ih _ a1
    refine ⟨b1, a2.trans_extends b2, ?_⟩
    intro e he
    rcases List.mem_cons.1 he with h | h
    · subst h
      exact a3.mono_registered b2
    · exact b3 e h

theorem encode_spec (o : MapOrder) (ho : o.Valid) (packages : List String)
    (allPackages : List (String × Package)) :
    (encode o packages allPackages).1.Inv ∧
      ∀ e ∈ allPackages, contains packages e.2.Name = true →
        (encode o packages allPackages).1.Pinned e.2.Name e.2.Version := by
  unfold encode
  obtain ⟨a1, _, a3⟩ := register_spec (o.visit 1 allPackages) _ NewGophersatAdapter_inv
  obtain ⟨b1, _, b3⟩ := feedConstraints_spec o ho packages allPackages (o.visit 2 allPackages)
    _ [] a1
  refine ⟨b1, ?_⟩
  intro e he hc
  have h1 : e ∈ o.visit 1 allPackages := (ho 1 _ allPackages).mem_iff.2 he
  have h2 : e ∈ o.visit 2 allPackages := (ho 2 _ allPackages).mem_iff.2 he
  exact b3 e h2 hc (a3 e h1)

/-! ## Lemmas: a positive CNF is satisfiable -/

theorem natAbs_le_foldl_max (l : List Nat) (a : Nat) :
    a ≤ l.foldl max a ∧ ∀ x ∈ l, x ≤ l.foldl max a := by
  induction l generalizing a with
  | nil => exact ⟨Nat.le_refl a, fun _ h => by cases h⟩
  | cons y rest ih =>
    simp only [List.foldl_cons]
    obtain ⟨h1, h2⟩ := ih (max a y)
    refine ⟨Nat.le_trans (Nat.le_max_left a y) h1, ?_⟩
    intro x hx
    rcases List.mem_cons.1 hx with h | h
    · subst h
      exact Nat.le_trans (Nat.le_max_right a x) h1
    · exact h2 x h

theorem natAbs_le_nbVars (cnf : List (List Int)) (c : List Int) (hc : c ∈ cnf) (l : Int)
    (hl : l ∈ c) : l.natAbs ≤ nbVars cnf := by
  unfold nbVars
  have h1 : l.natAbs ≤ (c.map Int.natAbs).foldl max 0 :=
    (natAbs_le_foldl_max (c.map Int.natAbs) 0).2 _ (List.mem_map.2 ⟨l, hl, rfl⟩)
  have h2 : (c.map Int.natAbs).foldl max 0 ≤
      (cnf.map fun clause => (clause.map Int.natAbs).foldl max 0).foldl max 0 :=
    (natAbs_le_foldl_max _ 0).2 _ (List.mem_map.2 ⟨c, hc, rfl⟩)
  exact Nat.le_trans h1 h2

theorem positive_satisfiable (cnf : List (List Int))
    (h : ∀ c ∈ cnf, c ≠ [] ∧ ∀ l ∈ c, 0 < l) :
    satisfies (List.replicate (nbVars cnf) true) cnf = true := by
  unfold satisfies
  rw [List.all_eq_true]
  intro c hc
  obtain ⟨hne, hpos⟩ := h c hc
  rw [List.any_eq_true]
  cases c with
  | nil => exact absurd rfl hne
  | cons l rest =>
    refine ⟨l, List.mem_cons_self _ _, ?_⟩
    have hl := hpos l (List.mem_cons_self _ _)
    have hle := natAbs_le_nbVars cnf _ hc l (List.mem_cons_self _ _)
    have hlt : l.natAbs - 1 < nbVars cnf := by omega
    simp only [litTrue, hl, if_true]
    rw [List.getD_eq_getElem?_getD, List.getElem?_replicate]
    simp [hlt]

theorem sound_not_unsat (engine : Engine) (he : engine.Sound) (cnf : List (List Int))
    (h : ∀ c ∈ cnf, c ≠ [] ∧ ∀ l ∈ c, 0 < l) : engine cnf ≠ Answer.Unsat := by
  intro hu
  have hs := he cnf
  rw [hu] at hs
  have := hs (List.replicate (nbVars cnf) true)
  rw [positive_satisfiable cnf h] at this
  cases this

/-! ## Lemmas: decoding the model and building the result -/

theorem splitChars_noSep (sep : Char) (cs : List Char) (h : sep ∉ cs) :
    splitChars sep cs = [cs] := by
  induction cs with
  | nil => rfl
  | cons c rest ih =>
    have hc : c ≠ sep := fun e => h (e ▸ List.mem_cons_self _ _)
    have hr : sep ∉ rest := fun e => h (List.mem_cons_of_mem _ e)
    simp [splitChars, hc, ih hr]

theorem splitChars_append (sep : Char) (a b : List Char) (h : sep ∉ a) :
    splitChars sep (a ++ sep :: b) = a :: splitChars sep b := by
  induction a with
  | nil => simp [splitChars]
  | cons c rest ih =>
    have hc : c ≠ sep := fun e => h (e ▸ List.mem_cons_self _ _)
    have hr : sep ∉ rest := fun e => h (List.mem_cons_of_mem _ e)
    simp [splitChars, hc, ih hr]

theorem Split_key (n v : String) (hn : noAt n) (hv : noAt v) :
    Split (n ++ "@" ++ v) '@' = [n, v] := by
  unfold Split
  have hd : (n ++ "@" ++ v).data = n.data ++ '@' :: v.data := by simp
  rw [hd, splitChars_append '@' _ _ hn, splitChars_noSep '@' _ hv]
  rfl

theorem decode_keeps (model : List Bool) (l : List (String × Int))
    (solution : List (String × String)) (n : String)
    (h : (mapGet solution n).isSome = true) :
    (mapGet (decode model l solution) n).isSome = true := by
  induction l generalizing solution with
  | nil => exact h
  | cons e rest ih =>
    obtain ⟨key, varID⟩ := e
    simp only [decode]
    split_ifs
    · split
      · exact ih _ (mapGet_mapSet_isSome _ _ _ _ h)
      · exact ih _ h
    · exact ih _ h

theorem decode_adds (model : List Bool) (l : List (String × Int))
    (solution : List (String × String)) (key n v : String) (id : Int)
    (hmem : (key, id) ∈ l)
    (htrue : id ≤ (model.length : Int) ∧ model.getD (id - 1).toNat false = true)
    (hsplit : Split key '@' = [n, v]) :
    (mapGet (decode model l solution) n).isSome = true := by
  induction l generalizing solution with
  | nil => cases hmem
  | cons e rest ih =>
    obtain ⟨key', varID⟩ := e
    rcases List.mem_cons.1 hmem with h | h
    · cases h
      simp only [decode, htrue, and_self, if_true, hsplit]
      exact decode_keeps _ _ _ _ (by rw [mapGet_mapSet_self]; rfl)
    · simp only [decode]
      split_ifs
      · split
        · exact ih _ h
        · exact ih _ h
      · exact ih _ h

theorem buildResult_keeps (r : Repository) (l : List (String × String))
    (result : List (String × Package)) (n : String) (p : Package)
    (hload : r.LoadPackage n = Except.ok p) (h : mapGet result n = some p) :
    mapGet (buildResult r l result) n = some p := by
  induction l generalizing result with
  | nil => exact h
  | cons e rest ih =>
    obtain ⟨name, x⟩ := e
    simp only [buildResult]
    split
    · exact ih _ h
    · rename_i q hq
      apply ih
      by_cases hn : n = name
      · subst hn
        rw [hload] at hq
        cases hq
        exact mapGet_mapSet_self _ _ _
      · rw [mapGet_mapSet_ne _ _ _ _ hn]
        exact h

theorem buildResult_adds (r : Repository) (l : List (String × String))
    (result : List (String × Package)) (n x : String) (p : Package)
    (hload : r.LoadPackage n = Except.ok p) (hmem : (n, x) ∈ l) :
    mapGet (buildResult r l result) n = some p := by
  induction l generalizing result with
  | nil => cases hmem
  | cons e rest ih =>
    obtain ⟨name, y⟩ := e
    rcases List.mem_cons.1 hmem with h | h
    · cases h
      simp only [buildResult, hload]
      exact buildResult_keeps r rest _ n p hload (mapGet_mapSet_self _ _ _)
    · simp only [buildResult]
      split
      · exact ih _ h
      · exact ih _ h

theorem contains_of_mem (slice : List String) (item : String) (h : item ∈ slice) :
    contains slice item = true := by
  induction slice with
  | nil => cases h
  | cons s rest ih =>
    by_cases hs : s = item
    · simp [contains, hs]
    · rcases List.mem_cons.1 h with h' | h'
      · exact absurd h'.symm hs
      · simp [contains, hs, ih h']

/-! ## Lemmas: collecting the dependency graph -/

theorem collect_fold_none (f : Option (List (String × Package)) → Constraint →
    Option (List (String × Package))) (hf : ∀ d, f none d = none) (deps : List Constraint) :
    deps.foldl f none = none := by
  induction deps with
  | nil => rfl
  | cons d rest ih => simp only [List.foldl_cons, hf, ih]

theorem collectDependencies_spec (r : Repository)
    (hname : ∀ n p, r.LoadPackage n = Except.ok p → p.Name = n) (fuel : Nat) :
    ∀ (pkg : Package) (all : List (String × Package))
      (res : List (String × Package) × Option Error),
      (∀ k p, mapGet all k = some p → r.LoadPackage k = Except.ok p) →
      r.LoadPackage pkg.Name = Except.ok pkg →
      collectDependencies r fuel pkg all = some res →
      (∀ k p, mapGet res.1 k = some p → r.LoadPackage k = Except.ok p) ∧
      (∀ k p, mapGet all k = some p → mapGet res.1 k = some p) ∧
      mapGet res.1 pkg.Name = some pkg ∧ res.2 = none := by
  induction fuel with
  | zero =>
    intro pkg all res _ _ h
    simp [collectDependencies] at h
  | succ fuel ih =>
    intro pkg all res hall hpkg h
    simp only [collectDependencies] at h
    cases hget : mapGet all pkg.Name with
    | some q =>
      rw [hget] at h
      simp only [Option.some.injEq] at h
      subst h
      have := hall _ _ hget
      rw [hpkg] at this
      cases this
      exact ⟨hall, fun _ _ hk => hk, hget, rfl⟩
    | none =>
      rw [hget] at h
      simp only at h
      -- the loop over the dependencies keeps every entry and adds only loaded packages
      have hloop : ∀ (deps : List Constraint) (a b : List (String × Package)),
          (∀ k p, mapGet a k = some p → r.LoadPackage k = Except.ok p) →
          deps.foldl (fun (acc : Option (List (String × Package))) (dep : Constraint) =>
            match acc with
            | none => none
            | some all =>
              match r.LoadPackage dep.Name with
              | Except.error _ => some all
              | Except.ok depPkg =>
                match collectDependencies r fuel depPkg all with
                | none => none
                | some (all', _) => some all') (some a) = some b →
          (∀ k p, mapGet b k = some p → r.LoadPackage k = Except.ok p) ∧
            (∀ k p, mapGet a k = some p → mapGet b k = some p) := by
        intro deps
        induction deps with
        | nil =>
          intro a b ha hb
          simp only [List.foldl_nil, Option.some.injEq] at hb
          subst hb
          exact ⟨ha, fun _ _ hk => hk⟩
        | cons dep rest ihd =>
          intro a b ha hb
          simp only [List.foldl_cons] at hb
          cases hld : r.LoadPackage dep.Name with
          | error e =>
            rw [hld] at hb
            exact ihd a b ha hb
          | ok depPkg =>
            rw [hld] at hb
            simp only at hb
            cases hcd : collectDependencies r fuel depPkg a with
            | none =>
              rw [hcd] at hb
              rw [collect_fold_none _ (fun _ => rfl)] at hb
              cases hb
            | some res' =>
              rw [hcd] at hb
              obtain ⟨a', e'⟩ := res'
              have hdn : depPkg.Name = dep.Name := hname _ _ hld
              obtain ⟨i1, i2, _, _⟩ := ih depPkg a (a', e') ha (by rw [hdn]; exact hld) hcd
              obtain ⟨j1, j2⟩ := ihd a' b i1 hb
              exact ⟨j1, fun k p hk => j2 k p (i2 k p hk)⟩
      have hset : ∀ k p, mapGet (mapSet all pkg.Name pkg) k = some p →
          r.LoadPackage k = Except.ok p := by
        intro k p hk
        by_cases hkn : k = pkg.Name
        · subst hkn
          rw [mapGet_mapSet_self] at hk
          cases hk
          exact hpkg
        · rw [mapGet_mapSet_ne _ _ _ _ hkn] at hk
          exact hall k p hk
      split at h
      · cases h
      · rename_i b hb
        simp only [Option.some.injEq] at h
        subst h
        obtain ⟨j1, j2⟩ := hloop pkg.Deps _ b hset hb
        refine ⟨j1, ?_, j2 _ _ (mapGet_mapSet_self _ _ _), rfl⟩
        intro k p hk
        apply j2
        have hkn : k ≠ pkg.Name := by
          rintro rfl
          rw [hget] at hk
          cases hk
        rw [mapGet_mapSet_ne _ _ _ _ hkn]
        exact hk

theorem collectAll_spec (r : Repository)
    (hname : ∀ n p, r.LoadPackage n = Except.ok p → p.Name = n) (fuel : Nat)
    (names : List String) :
    ∀ (all res : List (String × Package)),
      (∀ k p, mapGet all k = some p → r.LoadPackage k = Except.ok p) →
      collectAll r fuel names all = some (Except.ok res) →
      (∀ k p, mapGet res k = some p → r.LoadPackage k = Except.ok p) ∧
      (∀ k p, mapGet all k = some p → mapGet res k = some p) ∧
      ∀ n ∈ names, ∃ p, r.LoadPackage n = Except.ok p ∧ mapGet res n = some p := by
  induction names with
  | nil =>
    intro all res hall h
    simp only [collectAll, Option.some.injEq, Except.ok.injEq] at h
    subst h
    exact ⟨hall, fun _ _ hk => hk, fun _ hn => by cases hn⟩
  | cons name rest ih =>
    intro all res hall h
    simp only [collectAll] at h
    cases hld : r.LoadPackage name with
    | error e =>
      rw [hld] at h
      cases h
    | ok p =>
      rw [hld] at h
      simp only at h
      cases hcd : collectDependencies r fuel p all with
      | none =>
        rw [hcd] at h
        cases h
      | some res' =>
        rw [hcd] at h
        obtain ⟨a', e'⟩ := res'
        have hpn : p.Name = name := hname _ _ hld
        obtain ⟨i1, i2, i3, _⟩ := collectDependencies_spec r hname fuel p all (a', e') hall
          (by rw [hpn]; exact hld) hcd
        obtain ⟨j1, j2, j3⟩ := ih a' res i1 h
        refine ⟨j1, fun k q hk => j2 k q (i2 k q hk), ?_⟩
        intro n hn
        rcases List.mem_cons.1 hn with h' | h'
        · subst h'
          refine ⟨p, hld, j2 _ _ ?_⟩
          rw [← hpn]
          exact i3
        · exact j3 n h'

/-! ## Lemmas: the reference engine -/

theorem allModels_length (n : Nat) : ∀ m ∈ allModels n, m.length = n := by
  induction n with
  | zero =>
    intro m hm
    simp only [allModels, List.mem_singleton] at hm
    rw [hm]
    rfl
  | succ n ih =>
    intro m hm
    simp only [allModels, List.mem_flatMap, List.mem_cons, List.mem_singleton,
      List.not_mem_nil, or_false] at hm
    obtain ⟨m', hm', h | h⟩ := hm <;> simp [h, ih m' hm']

theorem mem_allModels (n : Nat) : ∀ m : List Bool, m.length = n → m ∈ allModels n := by
  induction n with
  | zero =>
    intro m hm
    simp [allModels, List.length_eq_zero.1 hm]
  | succ n ih =>
    intro m hm
    cases m with
    | nil => cases hm
    | cons b rest =>
      simp only [allModels, List.mem_flatMap, List.mem_cons, List.mem_singleton,
        List.not_mem_nil, or_false]
      refine ⟨rest, ih rest (by simpa using hm), ?_⟩
      cases b <;> simp

theorem litTrue_restrict (model : List Bool) (n : Nat) (lit : Int) (h : lit.natAbs ≤ n) :
    litTrue ((List.range n).map fun i => model.getD i false) lit = litTrue model lit := by
  unfold litTrue
  by_cases h0 : lit = 0
  · simp [h0]
  · have hlt : lit.natAbs - 1 < n := by omega
    have hget : ((List.range n).map fun i => model.getD i false).getD (lit.natAbs - 1) false =
        model.getD (lit.natAbs - 1) false := by
      rw [List.getD_eq_getElem?_getD, List.getElem?_map, List.getElem?_range hlt]
      rfl
    rw [hget]

theorem satisfies_restrict (model : List Bool) (cnf : List (List Int)) :
    satisfies ((List.range (nbVars cnf)).map fun i => model.getD i false) cnf =
      satisfies model cnf := by
  have hany : ∀ c ∈ cnf,
      c.any (litTrue ((List.range (nbVars cnf)).map fun i => model.getD i false)) =
        c.any (litTrue model) := by
    intro c hc
    rw [Bool.eq_iff_iff, List.any_eq_true, List.any_eq_true]
    constructor
    · rintro ⟨l, hl, ht⟩
      exact ⟨l, hl, by rw [← litTrue_restrict model _ l (natAbs_le_nbVars cnf c hc l hl)]; exact ht⟩
    · rintro ⟨l, hl, ht⟩
      exact ⟨l, hl, by rw [litTrue_restrict model _ l (natAbs_le_nbVars cnf c hc l hl)]; exact ht⟩
  unfold satisfies
  rw [Bool.eq_iff_iff, List.all_eq_true, List.all_eq_true]
  constructor
  · intro h c hc
    rw [← hany c hc]
    exact h c hc
  · intro h c hc
    rw [hany c hc]
    exact h c hc

theorem exhaustive_sound : Engine.Sound exhaustive := by
  intro cnf
  unfold exhaustive
  cases hf : (allModels (nbVars cnf)).find? fun m => satisfies m cnf with
  | some m =>
    exact ⟨allModels_length _ m (List.mem_of_find?_eq_some hf), by
      simpa using List.find?_some hf⟩
  | none =>
    intro model
    have hall := List.find?_eq_none.1 hf
    have hmem := mem_allModels (nbVars cnf)
      ((List.range (nbVars cnf)).map fun i => model.getD i false) (by simp)
    have := hall _ hmem
    rw [satisfies_restrict] at this
    simpa using this

theorem exhaustive_decides : Engine.Decides exhaustive := by
  intro cnf
  unfold exhaustive
  split <;> simp

/-! ## Lemmas: the whole resolution -/

theorem perm_pair {α : Type} [DecidableEq α] {l : List α} {a b : α} (h : l.Perm [a, b]) :
    l = [a, b] ∨ l = [b, a] := by
  have hlen := h.length_eq
  match l, hlen with
  | [x, y], _ =>
    have hx : x ∈ [a, b] := h.mem_iff.1 (List.mem_cons_self _ _)
    have hy : y ∈ [a, b] := h.mem_iff.1 (List.mem_cons_of_mem _ (List.mem_cons_self _ _))
    have ha : a ∈ [x, y] := h.mem_iff.2 (List.mem_cons_self _ _)
    have hb : b ∈ [x, y] := h.mem_iff.2 (List.mem_cons_of_mem _ (List.mem_cons_self _ _))
    simp only [List.mem_cons, List.mem_singleton, List.not_mem_nil, or_false] at hx hy ha hb
    by_cases hab : a = b
    · subst hab
      rcases hx with rfl | rfl <;> rcases hy with rfl | rfl <;> simp
    · rcases hx with rfl | rfl
      · rcases hy with rfl | rfl
        · rcases hb with rfl | rfl <;> exact absurd rfl hab
        · exact Or.inl rfl
      · rcases hy with rfl | rfl
        · exact Or.inr rfl
        · rcases ha with rfl | rfl <;> exact absurd rfl hab

theorem mock_names (m : MockRepository) (hm : ∀ e ∈ m.packages, e.2.Name = e.1) :
    ∀ n p, m.toRepository.LoadPackage n = Except.ok p → p.Name = n := by
  intro n p h
  simp only [MockRepository.toRepository, MockRepository.LoadPackage] at h
  cases hg : mapGet m.packages n with
  | none => rw [hg] at h; cases h
  | some q =>
    rw [hg] at h
    cases h
    exact hm _ (mapGet_mem _ _ _ hg)

theorem Resolve_sat_of_collected (r : Repository) (engine : Engine) (o : MapOrder) (fuel : Nat)
    (packages : List String) (all : List (String × Package)) (ho : o.Valid)
    (he : engine.Sound) (hd : engine.Decides)
    (hall : collectAll r fuel packages [] = some (Except.ok all)) :
    ∃ model, engine (encode o packages all).1.clauses = Answer.Sat model ∧
      Resolve r engine o fuel packages = some (Except.ok (buildResult r
        (o.visit 5 (decode model (o.visit 4 (encode o packages all).1.vars) [])) [])) := by
  have hpos := (encode_spec o ho packages all).1.positive
  cases hans : engine (encode o packages all).1.clauses with
  | Unsat => exact absurd hans (sound_not_unsat engine he _ hpos)
  | Indet => exact absurd hans (hd _)
  | Sat model =>
    refine ⟨model, rfl, ?_⟩
    simp [Resolve, hall, GophersatAdapter.Solve, hans]

theorem Resolve_error_cases (r : Repository) (engine : Engine) (o : MapOrder) (fuel : Nat)
    (packages : List String) (ho : o.Valid) (he : engine.Sound) (err : Error)
    (h : Resolve r engine o fuel packages = some (Except.error err)) :
    (∃ name cause, err = Error.failedToLoad name cause) ∨ err = Error.solverTimeout := by
  unfold Resolve at h
  cases hall : collectAll r fuel packages [] with
  | none => rw [hall] at h; cases h
  | some res =>
    rw [hall] at h
    cases res with
    | error e =>
      simp only [Option.some.injEq, Except.error.injEq] at h
      subst h
      left
      -- collectAll fails only at a failed load of a requested package
      clear he ho
      generalize ([] : List (String × Package)) = a at hall
      induction packages generalizing a with
      | nil => simp [collectAll] at hall
      | cons n rest ih =>
        simp only [collectAll] at hall
        split at hall
        · simp only [Option.some.injEq, Except.error.injEq] at hall
          exact ⟨_, _, hall.symm⟩
        · split at hall
          · cases hall
          · exact ih _ hall
    | ok all =>
      simp only at h
      have hpos := (encode_spec o ho packages all).1.positive
      cases hans : engine (encode o packages all).1.clauses with
      | Unsat => exact absurd hans (sound_not_unsat engine he _ hpos)
      | Indet =>
        simp only [GophersatAdapter.Solve, hans, Option.some.injEq, Except.error.injEq] at h
        exact Or.inr h.symm
      | Sat model =>
        simp [GophersatAdapter.Solve, hans] at h

/-! ## Orchestrator completeness (C2) -/

/-- C2, as stated, fails when the collected version contains `@`: the repository holds
`app-misc/tool` with version `1.0@beta`; `Resolve` succeeds (the solver reports Sat) and
returns the empty map, so the requested name is not a key of it. -/
theorem Resolve_requested_counterexample :
    (∀ n p, atVersionRepository.toRepository.LoadPackage n = Except.ok p → p.Name = n) ∧
      exhaustive (encode MapOrder.insertion ["app-misc/tool"]
        atVersionRepository.packages).1.clauses = Answer.Sat [true] ∧
      Resolve atVersionRepository.toRepository exhaustive MapOrder.insertion 1
        ["app-misc/tool"] = some (Except.ok []) := by
  refine ⟨mock_names _ ?_, by decide, by decide⟩
  decide

/-- C2, amended: for a repository whose `LoadPackage` returns a package named as requested,
if `Resolve` succeeds then every requested name that, like its collected version, contains
no `@` is a key of the returned map, and the package mapped to it has exactly the version
that was collected and pinned for that name. -/
theorem Resolve_returns_requested (r : Repository) (engine : Engine) (o : MapOrder)
    (fuel : Nat) (packages : List String) (result : List (String × Package))
    (hname : ∀ n p, r.LoadPackage n = Except.ok p → p.Name = n)
    (ho : o.Valid) (he : engine.Sound)
    (hres : Resolve r engine o fuel packages = some (Except.ok result))
    (n : String) (hn : n ∈ packages)
    (hat : ∀ p, r.LoadPackage n = Except.ok p → noAt n ∧ noAt p.Version) :
    ∃ all p q, collectAll r fuel packages [] = some (Except.ok all) ∧
      mapGet all n = some p ∧ (encode o packages all).1.Pinned n p.Version ∧
      mapGet result n = some q ∧ q.Version = p.Version := by
  unfold Resolve at hres
  cases hall : collectAll r fuel packages [] with
  | none => rw [hall] at hres; cases hres
  | some res =>
    rw [hall] at hres
    cases res with
    | error e => cases hres
    | ok all =>
      simp only at hres
      obtain ⟨_, _, hreq⟩ := collectAll_spec r hname fuel packages [] all
        (fun _ _ h => by simp [mapGet] at h) hall
      obtain ⟨p, hload, hget⟩ := hreq n hn
      have hpn : p.Name = n := hname n p hload
      obtain ⟨hnoN, hnoV⟩ := hat p hload
      obtain ⟨hinv, hpins⟩ := encode_spec o ho packages all
      have hpin : (encode o packages all).1.Pinned n p.Version := by
        have := hpins (n, p) (mapGet_mem _ _ _ hget)
          (by simpa [hpn] using contains_of_mem packages n hn)
        simpa [hpn] using this
      cases hans : engine (encode o packages all).1.clauses with
      | Unsat => simp [GophersatAdapter.Solve, hans] at hres
      | Indet => simp [GophersatAdapter.Solve, hans] at hres
      | Sat model =>
        simp only [GophersatAdapter.Solve, hans, ne_eq, not_true_eq_false, if_false,
          Option.some.injEq, Except.ok.injEq] at hres
        have hsound := he (encode o packages all).1.clauses
        rw [hans] at hsound
        obtain ⟨c, hc, hne, hlits⟩ := hpin
        have hsat := List.all_eq_true.1 hsound.2 c hc
        obtain ⟨lit, hlit, htrue⟩ := List.any_eq_true.1 hsat
        have hvar := hlits lit hlit
        have hmemv := mapGet_mem _ _ _ hvar
        have hpos : 0 < lit := hinv.ids _ hmemv
        have hidx : model.getD (lit.natAbs - 1) false = true := by
          simpa [litTrue, hpos] using htrue
        have hlen : lit.natAbs - 1 < model.length := by
          by_contra hge
          rw [List.getD_eq_getElem?_getD, List.getElem?_eq_none (by omega)] at hidx
          simp at hidx
        have hcond : lit ≤ (model.length : Int) ∧
            model.getD (lit - 1).toNat false = true := by
          have h1 : (lit - 1).toNat = lit.natAbs - 1 := by omega
          rw [h1]
          exact ⟨by omega, hidx⟩
        have hsol := decode_adds model (o.visit 4 (encode o packages all).1.vars) []
          (n ++ "@" ++ p.Version) n p.Version lit
          ((ho 4 _ _).mem_iff.2 hmemv) hcond (Split_key n p.Version hnoN hnoV)
        cases hx : mapGet (decode model (o.visit 4 (encode o packages all).1.vars) []) n with
        | none => rw [hx] at hsol; cases hsol
        | some x =>
          have hmems := (ho 5 _ _).mem_iff.2 (mapGet_mem _ _ _ hx)
          have hfin := buildResult_adds r _ [] n x p hload hmems
          rw [hres] at hfin
          exact ⟨all, p, p, rfl, hget, ⟨c, hc, hne, hlits⟩, hfin, rfl⟩

/-- C2 amended, at the mock repository and the request `app-misc/hello`. -/
theorem Resolve_returns_requested_witness :
    ∃ all p q, collectAll NewMockRepository.toRepository 2 ["app-misc/hello"] [] =
        some (Except.ok all) ∧
      mapGet all "app-misc/hello" = some p ∧
      (encode MapOrder.insertion ["app-misc/hello"] all).1.Pinned "app-misc/hello" p.Version ∧
      mapGet (NewMockRepository.packages.take 2) "app-misc/hello" = some q ∧
      q.Version = p.Version :=
  Resolve_returns_requested NewMockRepository.toRepository exhaustive MapOrder.insertion 2
    ["app-misc/hello"] (NewMockRepository.packages.take 2)
    (mock_names _ (by decide)) MapOrder.insertion_valid exhaustive_sound (by decide)
    "app-misc/hello" (List.mem_singleton.2 rfl)
    (fun p h => by
      have h2 : NewMockRepository.toRepository.LoadPackage "app-misc/hello" =
          Except.ok NewMockRepository.hello := by decide
      rw [h2] at h
      cases h
      exact ⟨by unfold noAt; decide, by unfold noAt; decide⟩)

/-! ## Scenario S1: the request `app-misc/hello` on the mock repository (C3) -/

theorem collectAll_hello (fuel : Nat) :
    collectAll NewMockRepository.toRepository (fuel + 2) ["app-misc/hello"] [] =
      some (Except.ok [("app-misc/hello", NewMockRepository.hello),
        ("sys-libs/zlib", NewMockRepository.zlib)]) := by
  rfl

theorem encode_hello (o : MapOrder) (ho : o.Valid) :
    ((encode o ["app-misc/hello"] [("app-misc/hello", NewMockRepository.hello),
        ("sys-libs/zlib", NewMockRepository.zlib)]).1.vars =
          [("app-misc/hello@2.10", 1), ("sys-libs/zlib@1.2.13", 2)] ∧
      (encode o ["app-misc/hello"] [("app-misc/hello", NewMockRepository.hello),
        ("sys-libs/zlib", NewMockRepository.zlib)]).1.clauses = [[1], [2]]) ∨
    ((encode o ["app-misc/hello"] [("app-misc/hello", NewMockRepository.hello),
        ("sys-libs/zlib", NewMockRepository.zlib)]).1.vars =
          [("sys-libs/zlib@1.2.13", 1), ("app-misc/hello@2.10", 2)] ∧
      (encode o ["app-misc/hello"] [("app-misc/hello", NewMockRepository.hello),
        ("sys-libs/zlib", NewMockRepository.zlib)]).1.clauses = [[2], [1]]) := by
  unfold encode
  rcases perm_pair (ho 1 _ [("app-misc/hello", NewMockRepository.hello),
      ("sys-libs/zlib", NewMockRepository.zlib)]) with h1 | h1 <;>
    rcases perm_pair (ho 2 _ [("app-misc/hello", NewMockRepository.hello),
      ("sys-libs/zlib", NewMockRepository.zlib)]) with h2 | h2 <;>
    rw [h1, h2]
  · exact Or.inl ⟨rfl, rfl⟩
  · exact Or.inl ⟨rfl, rfl⟩
  · exact Or.inr ⟨rfl, rfl⟩
  · exact Or.inr ⟨rfl, rfl⟩

theorem model_two (model : List Bool) (h : model.length = 2)
    (h1 : litTrue model 1 = true) (h2 : litTrue model 2 = true) : model = [true, true] := by
  match model, h with
  | [a, b], _ =>
    simp [litTrue] at h1 h2
    rw [h1, h2]

/-- C3: on the mock repository the request `app-misc/hello` yields a satisfiable CNF every
model of which sets the variables of `app-misc/hello@2.10` and `sys-libs/zlib@1.2.13` true,
and, for every iteration order and every sound engine that reaches a verdict, `Resolve`
returns exactly the two entries `app-misc/hello` (2.10) and `sys-libs/zlib` (1.2.13). -/
theorem Resolve_hello (engine : Engine) (o : MapOrder) (fuel : Nat) (ho : o.Valid)
    (he : engine.Sound) (hd : engine.Decides) :
    ∃ all h z result,
      collectAll NewMockRepository.toRepository (fuel + 2) ["app-misc/hello"] [] =
        some (Except.ok all) ∧
      mapGet (encode o ["app-misc/hello"] all).1.vars "app-misc/hello@2.10" = some h ∧
      mapGet (encode o ["app-misc/hello"] all).1.vars "sys-libs/zlib@1.2.13" = some z ∧
      (∃ m, satisfies m (encode o ["app-misc/hello"] all).1.clauses = true) ∧
      (∀ m, satisfies m (encode o ["app-misc/hello"] all).1.clauses = true →
        litTrue m h = true ∧ litTrue m z = true) ∧
      Resolve NewMockRepository.toRepository engine o (fuel + 2) ["app-misc/hello"] =
        some (Except.ok result) ∧
      result.Perm [("app-misc/hello", NewMockRepository.hello),
        ("sys-libs/zlib", NewMockRepository.zlib)] ∧
      NewMockRepository.hello.Version = "2.10" ∧ NewMockRepository.zlib.Version = "1.2.13" := by
  have hall := collectAll_hello fuel
  obtain ⟨model, hans, hR⟩ := Resolve_sat_of_collected NewMockRepository.toRepository engine o
    (fuel + 2) ["app-misc/hello"] _ ho he hd hall
  have hsound := he (encode o ["app-misc/hello"] [("app-misc/hello", NewMockRepository.hello),
    ("sys-libs/zlib", NewMockRepository.zlib)]).1.clauses
  rw [hans] at hsound
  obtain ⟨hlen, hsat⟩ := hsound
  rcases encode_hello o ho with ⟨hv, hc⟩ | ⟨hv, hc⟩
  · rw [hc] at hlen hsat
    have hboth : litTrue model 1 = true ∧ litTrue model 2 = true := by
      simpa [satisfies] using hsat
    have hm : model = [true, true] := model_two model hlen hboth.1 hboth.2
    subst hm
    rw [hv] at hR
    refine ⟨_, 1, 2, _, hall, by rw [hv]; decide, by rw [hv]; decide,
      ⟨[true, true], by rw [hc]; decide⟩, ?_, hR, ?_, rfl, rfl⟩
    · intro m hm
      rw [hc] at hm
      simpa [satisfies] using hm
    · rcases perm_pair (ho 4 _ [("app-misc/hello@2.10", (1 : Int)),
          ("sys-libs/zlib@1.2.13", 2)]) with h4 | h4 <;> rw [h4]
      · have hs : decode [true, true] [("app-misc/hello@2.10", (1 : Int)),
            ("sys-libs/zlib@1.2.13", 2)] [] =
            [("app-misc/hello", "2.10"), ("sys-libs/zlib", "1.2.13")] := by decide
        rw [hs]
        rcases perm_pair (ho 5 _ [("app-misc/hello", "2.10"), ("sys-libs/zlib", "1.2.13")])
          with h5 | h5 <;> rw [h5]
        · exact List.Perm.of_eq (by decide)
        · exact (List.Perm.of_eq (by decide)).trans (List.Perm.swap _ _ _)
      · have hs : decode [true, true] [("sys-libs/zlib@1.2.13", (2 : Int)),
            ("app-misc/hello@2.10", 1)] [] =
            [("sys-libs/zlib", "1.2.13"), ("app-misc/hello", "2.10")] := by decide
        rw [hs]
        rcases perm_pair (ho 5 _ [("sys-libs/zlib", "1.2.13"), ("app-misc/hello", "2.10")])
          with h5 | h5 <;> rw [h5]
        · exact (List.Perm.of_eq (by decide)).trans (List.Perm.swap _ _ _)
        · exact List.Perm.of_eq (by decide)
  · rw [hc] at hlen hsat
    have hboth : litTrue model 2 = true ∧ litTrue model 1 = true := by
      simpa [satisfies] using hsat
    have hm : model = [true, true] := model_two model hlen hboth.2 hboth.1
    subst hm
    rw [hv] at hR
    refine ⟨_, 2, 1, _, hall, by rw [hv]; decide, by rw [hv]; decide,
      ⟨[true, true], by rw [hc]; decide⟩, ?_, hR, ?_, rfl, rfl⟩
    · intro m hm
      rw [hc] at hm
      simpa [satisfies] using hm
    · rcases perm_pair (ho 4 _ [("sys-libs/zlib@1.2.13", (1 : Int)),
          ("app-misc/hello@2.10", 2)]) with h4 | h4 <;> rw [h4]
      · have hs : decode [true, true] [("sys-libs/zlib@1.2.13", (1 : Int)),
            ("app-misc/hello@2.10", 2)] [] =
            [("sys-libs/zlib", "1.2.13"), ("app-misc/hello", "2.10")] := by decide
        rw [hs]
        rcases perm_pair (ho 5 _ [("sys-libs/zlib", "1.2.13"), ("app-misc/hello", "2.10")])
          with h5 | h5 <;> rw [h5]
        · exact (List.Perm.of_eq (by decide)).trans (List.Perm.swap _ _ _)
        · exact List.Perm.of_eq (by decide)
      · have hs : decode [true, true] [("app-misc/hello@2.10", (2 : Int)),
            ("sys-libs/zlib@1.2.13", 1)] [] =
            [("app-misc/hello", "2.10"), ("sys-libs/zlib", "1.2.13")] := by decide
        rw [hs]
        rcases perm_pair (ho 5 _ [("app-misc/hello", "2.10"), ("sys-libs/zlib", "1.2.13")])
          with h5 | h5 <;> rw [h5]
        · exact List.Perm.of_eq (by decide)
        · exact (List.Perm.of_eq (by decide)).trans (List.Perm.swap _ _ _)

/-- C3 at insertion order, the exhaustive engine and recursion bound 2. -/
theorem Resolve_hello_witness :
    ∃ all h z result,
      collectAll NewMockRepository.toRepository (0 + 2) ["app-misc/hello"] [] =
        some (Except.ok all) ∧
      mapGet (encode MapOrder.insertion ["app-misc/hello"] all).1.vars "app-misc/hello@2.10" =
        some h ∧
      mapGet (encode MapOrder.insertion ["app-misc/hello"] all).1.vars "sys-libs/zlib@1.2.13" =
        some z ∧
      (∃ m, satisfies m (encode MapOrder.insertion ["app-misc/hello"] all).1.clauses = true) ∧
      (∀ m, satisfies m (encode MapOrder.insertion ["app-misc/hello"] all).1.clauses = true →
        litTrue m h = true ∧ litTrue m z = true) ∧
      Resolve NewMockRepository.toRepository exhaustive MapOrder.insertion (0 + 2)
        ["app-misc/hello"] = some (Except.ok result) ∧
      result.Perm [("app-misc/hello", NewMockRepository.hello),
        ("sys-libs/zlib", NewMockRepository.zlib)] ∧
      NewMockRepository.hello.Version = "2.10" ∧ NewMockRepository.zlib.Version = "1.2.13" :=
  Resolve_hello exhaustive MapOrder.insertion 0 MapOrder.insertion_valid exhaustive_sound
    exhaustive_decides

/-! ## Scenario S3: a dependency missing from the repository (C4) -/

/-- C4, as stated, fails: with only `app-misc/hello` in the repository, depending on
`sys-libs/zlib` without a version, `Resolve` returns no error but the map holding
`app-misc/hello`; the dependency is skipped and never reaches the simple-constraint
encoding. -/
theorem Resolve_missing_dependency_counterexample :
    Resolve missingDepRepository.toRepository exhaustive MapOrder.insertion 1
        ["app-misc/hello"] = some (Except.ok missingDepRepository.packages) ∧
      (encode MapOrder.insertion ["app-misc/hello"] missingDepRepository.packages).2 =
        [LogEvent.skippingUnresolved "sys-libs/zlib"] := by
  decide

/-- C4, amended: with only `app-misc/hello` in the repository, depending on `sys-libs/zlib`
without a version, in every iteration order and with every sound engine that reaches a
verdict, the constraint loop skips the dependency (it logs the skip and no `AddConstraint`
error) and `Resolve` succeeds with the map that holds `app-misc/hello` alone. -/
theorem Resolve_missing_dependency (engine : Engine) (o : MapOrder) (fuel : Nat)
    (ho : o.Valid) (he : engine.Sound) (hd : engine.Decides) :
    collectAll missingDepRepository.toRepository (fuel + 1) ["app-misc/hello"] [] =
        some (Except.ok missingDepRepository.packages) ∧
      (encode o ["app-misc/hello"] missingDepRepository.packages).2 =
        [LogEvent.skippingUnresolved "sys-libs/zlib"] ∧
      Resolve missingDepRepository.toRepository engine o (fuel + 1) ["app-misc/hello"] =
        some (Except.ok missingDepRepository.packages) := by
  have hall : collectAll missingDepRepository.toRepository (fuel + 1) ["app-misc/hello"] [] =
      some (Except.ok missingDepRepository.packages) := rfl
  obtain ⟨model, hans, hR⟩ := Resolve_sat_of_collected missingDepRepository.toRepository
    engine o (fuel + 1) ["app-misc/hello"] _ ho he hd hall
  have hp : missingDepRepository.packages = [("app-misc/hello",
      (NewPackage "app-misc/hello" "2.10" "0").AddDependency
        { Kind := ConstraintTypeVersion, Name := "sys-libs/zlib" })] := rfl
  have h1 := List.perm_singleton.1 (ho 1 _ missingDepRepository.packages)
  have h2 := List.perm_singleton.1 (ho 2 _ missingDepRepository.packages)
  have henc : encode o ["app-misc/hello"] missingDepRepository.packages =
      encode MapOrder.insertion ["app-misc/hello"] missingDepRepository.packages := by
    unfold encode
    rw [h1, h2]
    rfl
  have hlog : (encode o ["app-misc/hello"] missingDepRepository.packages).2 =
      [LogEvent.skippingUnresolved "sys-libs/zlib"] := by
    rw [henc]
    decide
  have hvars : (encode o ["app-misc/hello"] missingDepRepository.packages).1.vars =
      [("app-misc/hello@2.10", 1)] := by
    rw [henc]
    decide
  have hcl : (encode o ["app-misc/hello"] missingDepRepository.packages).1.clauses = [[1]] := by
    rw [henc]
    decide
  have hsound := he (encode o ["app-misc/hello"] missingDepRepository.packages).1.clauses
  rw [hans, hcl] at hsound
  obtain ⟨hlen, hsat⟩ := hsound
  have hm : model = [true] := by
    match model, hlen with
    | [a], _ =>
      simp [satisfies, litTrue] at hsat
      rw [hsat]
  subst hm
  refine ⟨hall, hlog, ?_⟩
  rw [hR, hvars]
  have h4 := List.perm_singleton.1 (ho 4 _ [("app-misc/hello@2.10", (1 : Int))])
  rw [h4]
  have hs : decode [true] [("app-misc/hello@2.10", (1 : Int))] [] =
      [("app-misc/hello", "2.10")] := by decide
  rw [hs]
  have h5 := List.perm_singleton.1 (ho 5 _ [("app-misc/hello", "2.10")])
  rw [h5]
  decide

/-- C4 amended, at insertion order, the exhaustive engine and recursion bound 1. -/
theorem Resolve_missing_dependency_witness :
    collectAll missingDepRepository.toRepository (0 + 1) ["app-misc/hello"] [] =
        some (Except.ok missingDepRepository.packages) ∧
      (encode MapOrder.insertion ["app-misc/hello"] missingDepRepository.packages).2 =
        [LogEvent.skippingUnresolved "sys-libs/zlib"] ∧
      Resolve missingDepRepository.toRepository exhaustive MapOrder.insertion (0 + 1)
        ["app-misc/hello"] = some (Except.ok missingDepRepository.packages) :=
  Resolve_missing_dependency exhaustive MapOrder.insertion 0 MapOrder.insertion_valid
    exhaustive_sound exhaustive_decides

/-! ## Errors of `AddConstraint` during the constraint loop (C5) -/

/-- C5, as stated, fails: `app-misc/hello` declares a slot dependency on the slot `9`, which
no package provides; `AddConstraint` returns the no-provider error, which is logged, and
`Resolve` still returns the package map. -/
theorem Resolve_AddConstraint_error_counterexample :
    collectAll slotDepRepository.toRepository 2 ["app-misc/hello"] [] =
        some (Except.ok slotDepRepository.packages) ∧
      (encode MapOrder.insertion ["app-misc/hello"] slotDepRepository.packages).2 =
        [LogEvent.failedToAddConstraint (Error.noProvider "9")] ∧
      Resolve slotDepRepository.toRepository exhaustive MapOrder.insertion 2
        ["app-misc/hello"] = some (Except.ok slotDepRepository.packages) := by
  decide

theorem feedDeps_append (o : MapOrder) (allPackages : List (String × Package))
    (pre post : List Constraint) (acc : GophersatAdapter × List LogEvent) :
    feedDeps o allPackages (pre ++ post) acc =
      feedDeps o allPackages post (feedDeps o allPackages pre acc) := by
  induction pre generalizing acc with
  | nil => rfl
  | cons dep rest ih =>
    obtain ⟨g, log⟩ := acc
    simp only [List.cons_append, feedDeps]
    split
    · exact ih _
    · split
      · exact ih _
      · exact ih _

theorem feedConstraints_append (o : MapOrder) (packages : List String)
    (allPackages l1 l2 : List (String × Package)) (acc : GophersatAdapter × List LogEvent) :
    feedConstraints o packages allPackages (l1 ++ l2) acc =
      feedConstraints o packages allPackages l2
        (feedConstraints o packages allPackages l1 acc) := by
  induction l1 generalizing acc with
  | nil => rfl
  | cons x rest ih =>
    obtain ⟨g, log⟩ := acc
    obtain ⟨k, p⟩ := x
    simp only [List.cons_append, feedConstraints]
    exact ih _

theorem feedDeps_error_step (o : MapOrder) (allPackages : List (String × Package))
    (dep : Constraint) (rest : List Constraint) (g : GophersatAdapter) (log : List LogEvent)
    (err : Error) (hin : (mapGet allPackages dep.Name).isSome = true)
    (herr : (g.AddConstraint o dep).2 = some err) :
    feedDeps o allPackages (dep :: rest) (g, log) =
      feedDeps o allPackages rest
        ((g.AddConstraint o dep).1, log ++ [LogEvent.failedToAddConstraint err]) := by
  cases hm : mapGet allPackages dep.Name with
  | none => rw [hm] at hin; cases hin
  | some q =>
    simp only [feedDeps, hm]
    generalize g.AddConstraint o dep = r at herr
    obtain ⟨g2, e2⟩ := r
    simp only at herr
    subst herr
    rfl

/-- C5, amended: an error that `AddConstraint` returns while the dependencies are fed to the
encoder is only logged, and the loop goes on with the next dependency from the state that
the failing call left: the loop over a list of dependencies that starts with a failing
one is the loop over the rest after the log entry, the loop over two lists of dependencies
one after the other is the loop over the second started from the result of the first,
whatever errors the first met, and so is the loop over the packages.  `Resolve` does not
abort: when the requested packages were collected and the engine reaches a verdict it
returns a package map, and the only errors it ever returns are a failed load of a requested
package and the solver timeout. -/
theorem Resolve_AddConstraint_error_logged (r : Repository) (engine : Engine) (o : MapOrder)
    (fuel : Nat) (packages : List String) (ho : o.Valid) (he : engine.Sound) :
    (∀ (allPackages : List (String × Package)) (dep : Constraint) (rest : List Constraint)
        (g : GophersatAdapter) (log : List LogEvent) (err : Error),
      (mapGet allPackages dep.Name).isSome = true → (g.AddConstraint o dep).2 = some err →
      feedDeps o allPackages (dep :: rest) (g, log) =
        feedDeps o allPackages rest
          ((g.AddConstraint o dep).1, log ++ [LogEvent.failedToAddConstraint err])) ∧
    (∀ (allPackages : List (String × Package)) (pre post : List Constraint)
        (acc : GophersatAdapter × List LogEvent),
      feedDeps o allPackages (pre ++ post) acc =
        feedDeps o allPackages post (feedDeps o allPackages pre acc)) ∧
    (∀ (allPackages l1 l2 : List (String × Package))
        (acc : GophersatAdapter × List LogEvent),
      feedConstraints o packages allPackages (l1 ++ l2) acc =
        feedConstraints o packages allPackages l2
          (feedConstraints o packages allPackages l1 acc)) ∧
    (∀ all, collectAll r fuel packages [] = some (Except.ok all) →
      (∃ err, LogEvent.failedToAddConstraint err ∈ (encode o packages all).2) →
      engine.Decides → ∃ result, Resolve r engine o fuel packages = some (Except.ok result)) ∧
    (∀ err, Resolve r engine o fuel packages = some (Except.error err) →
      (∃ name cause, err = Error.failedToLoad name cause) ∨ err = Error.solverTimeout) := by
  refine ⟨feedDeps_error_step o, feedDeps_append o, feedConstraints_append o packages, ?_,
    fun err h => Resolve_error_cases r engine o fuel packages ho he err h⟩
  intro all hall _ hd
  obtain ⟨model, _, hR⟩ := Resolve_sat_of_collected r engine o fuel packages all ho he hd hall
  exact ⟨_, hR⟩

/-- C5 amended, at the repository whose package depends first on an unprovided slot and
then on `sys-libs/zlib`: the error of the first dependency is logged, the clause of the
second dependency is emitted after it, and `Resolve` returns a map. -/
theorem Resolve_AddConstraint_error_logged_witness :
    (encode MapOrder.insertion ["app-misc/hello"] slotThenVersionRepository.packages).2 =
        [LogEvent.failedToAddConstraint (Error.noProvider "9")] ∧
      (encode MapOrder.insertion ["app-misc/hello"]
        slotThenVersionRepository.packages).1.clauses = [[1], [2]] ∧
      ∃ result, Resolve slotThenVersionRepository.toRepository exhaustive MapOrder.insertion 2
        ["app-misc/hello"] = some (Except.ok result) :=
  ⟨by decide, by decide,
    (Resolve_AddConstraint_error_logged slotThenVersionRepository.toRepository exhaustive
      MapOrder.insertion 2 ["app-misc/hello"] MapOrder.insertion_valid
      exhaustive_sound).2.2.2.1
      slotThenVersionRepository.packages (by decide)
      ⟨Error.noProvider "9", by decide⟩ exhaustive_decides⟩

/-! ## Scenario S2: the conflicting request on the mock repository (C1) -/

/-- C1: the code at the request `app-misc/hello`, `conflict/example` on the mock repository.
No registered version of `sys-libs/zlib` satisfies `< 1.2.0`, so no clause is emitted for
that dependency: the CNF is the three unit clauses of the three packages, it is
satisfiable, and `Resolve` returns the map of all three packages; with no iteration order
and no sound engine does `Resolve` return the no-solution error. -/
theorem Resolve_conflict_scenario :
    (encode MapOrder.insertion ["app-misc/hello", "conflict/example"]
        NewMockRepository.packages).1.clauses = [[1], [2], [3]] ∧
      satisfies [true, true, true] [[1], [2], [3]] = true ∧
      Resolve NewMockRepository.toRepository exhaustive MapOrder.insertion 2
        ["app-misc/hello", "conflict/example"] = some (Except.ok NewMockRepository.packages) ∧
      ∀ (engine : Engine) (o : MapOrder) (fuel : Nat), engine.Sound → o.Valid →
        Resolve NewMockRepository.toRepository engine o fuel
          ["app-misc/hello", "conflict/example"] ≠ some (Except.error Error.noSolution) := by
  refine ⟨by decide, by decide, by decide, ?_⟩
  intro engine o fuel he ho h
  rcases Resolve_error_cases _ engine o fuel _ ho he _ h with ⟨_, _, h'⟩ | h' <;> cases h'

/-! ## Parsing without an operator prefix (C11) -/

theorem hasPrefix_of_head_ne (s : String) (c : Char) (rest : List Char)
    (h : s.data.head? ≠ some c) : HasPrefix s (String.mk (c :: rest)) = false := by
  unfold HasPrefix
  cases hs : s.data with
  | nil => simp [List.isPrefixOf]
  | cons x xs =>
    rw [hs] at h
    have hx : ¬ c = x := fun e => h (by simp [e])
    simp [List.isPrefixOf, hx]

/-- C11: `ParseVersionConstraint` never returns an error; on the empty string it returns the
null constraint; on a non-empty string whose first character is none of `>`, `<`, `=` it
returns the equality constraint on the whole, unchanged string, in every iteration order. -/
theorem ParseVersionConstraint_unprefixed (o : MapOrder) (ho : o.Valid) (s : String) :
    (∃ vc, ParseVersionConstraint o s = Except.ok vc) ∧
    ParseVersionConstraint o "" = Except.ok none ∧
    (s ≠ "" → s.data.head? ≠ some '>' → s.data.head? ≠ some '<' → s.data.head? ≠ some '=' →
      ParseVersionConstraint o s = Except.ok (some { Operator := OpEqual, Version := s })) := by
  refine ⟨?_, by simp [ParseVersionConstraint], ?_⟩
  · unfold ParseVersionConstraint
    split_ifs
    · exact ⟨_, rfl⟩
    · split <;> exact ⟨_, rfl⟩
  · intro hne hg hl he
    have hnone : parseLoop s (o.visit 0 operators) = none := by
      apply parseLoop_none
      intro e hE
      have := (ho 0 _ operators).mem_iff.1 hE
      simp only [operators, List.mem_cons, List.mem_singleton, List.not_mem_nil, or_false] at this
      rcases this with rfl | rfl | rfl | rfl | rfl
      · exact hasPrefix_of_head_ne s '=' [] he
      · exact hasPrefix_of_head_ne s '>' [] hg
      · exact hasPrefix_of_head_ne s '>' ['='] hg
      · exact hasPrefix_of_head_ne s '<' [] hl
      · exact hasPrefix_of_head_ne s '<' ['='] hl
    simp [ParseVersionConstraint, hne, hnone]

/-- C11 at the string `1.2.13` in insertion order. -/
theorem ParseVersionConstraint_unprefixed_witness :
    ParseVersionConstraint MapOrder.insertion "1.2.13" =
      Except.ok (some { Operator := OpEqual, Version := "1.2.13" }) :=
  (ParseVersionConstraint_unprefixed MapOrder.insertion MapOrder.insertion_valid "1.2.13").2.2
    (by decide) (by decide) (by decide) (by decide)

/-! ## Tokenization (C12, C13) -/

/-- C12: the code at the version `1.2.3_alpha4-r5`.  The letter `r` of the revision suffix is
a run of letters, so it is a token of its own: the list has seven tokens, not the six of
the comment in `CompareVersions`. -/
theorem splitVersion_revision_example :
    splitVersion "1.2.3_alpha4-r5" =
        [Token.int 1, Token.int 2, Token.int 3, Token.str "alpha", Token.int 4,
          Token.str "r", Token.int 5] ∧
      splitVersion "1.2.3_alpha4-r5" ≠
        [Token.int 1, Token.int 2, Token.int 3, Token.str "alpha", Token.int 4, Token.int 5] := by
  decide

theorem findAllAux_nil (n : Nat) : findAllAux n [] = [] := by
  cases n <;> rfl

theorem splitVersion_digits (a : String) (hne : a.data ≠ []) (hd : a.data.all isDigit = true) :
    splitVersion a =
      [if (decimalValue a.data : Int) ≤ maxInt then Token.int (decimalValue a.data)
        else Token.str a] := by
  obtain ⟨data⟩ := a
  cases data with
  | nil => exact absurd rfl hne
  | cons c cs =>
    simp only [List.all_cons, Bool.and_eq_true] at hd
    obtain ⟨hc, hcs⟩ := hd
    have htake : cs.takeWhile isDigit = cs :=
      List.takeWhile_eq_self_iff.2 (fun x hx => List.all_eq_true.1 hcs x hx)
    have hdrop : cs.dropWhile isDigit = [] :=
      List.dropWhile_eq_nil_iff.2 (fun x hx => List.all_eq_true.1 hcs x hx)
    have hm : c ≠ '-' := by
      rintro rfl
      revert hc
      decide
    have hp : c ≠ '+' := by
      rintro rfl
      revert hc
      decide
    have hall : (c :: cs).all isDigit = true := by
      simp [hc, hcs]
    simp only [splitVersion, FindAllString, List.length_cons, findAllAux, hc, if_true, htake,
      hdrop, findAllAux_nil, List.map_cons, List.map_nil, Atoi, hm, hp, if_false, hall,
      true_and]
    split_ifs <;> rfl

/-- C13: the code at two runs of digits.  A run whose value exceeds the largest `int` is not
converted by `Atoi` and stays a string token, which compares below every integer token:
9223372036854775808 compares below 1.  For runs whose values fit an `int` the sign of
`CompareVersions` is the sign of the difference of the values. -/
theorem CompareVersions_digit_runs :
    CompareVersions "9223372036854775808" "1" = -1 ∧
      decimalValue "1".data < decimalValue "9223372036854775808".data ∧
      splitVersion "9223372036854775808" = [Token.str "9223372036854775808"] ∧
      ∀ a b : String, a.data ≠ [] → a.data.all isDigit = true → b.data ≠ [] →
        b.data.all isDigit = true → (decimalValue a.data : Int) ≤ maxInt →
        (decimalValue b.data : Int) ≤ maxInt →
        SameSign (CompareVersions a b) ((decimalValue a.data : Int) - decimalValue b.data) := by
  refine ⟨by decide, by decide, by decide, ?_⟩
  intro a b ha1 ha2 hb1 hb2 hva hvb
  have hcv : CompareVersions a b = compareTokens (splitVersion a) (splitVersion b) := rfl
  rw [hcv, splitVersion_digits a ha1 ha2, splitVersion_digits b hb1 hb2, if_pos hva, if_pos hvb,
    compareTokens_cons]
  simp only
  have hra : (0 : Int) ≤ decimalValue a.data ∧ (decimalValue a.data : Int) ≤ maxInt :=
    ⟨Int.natCast_nonneg _, hva⟩
  have hrb : (0 : Int) ≤ decimalValue b.data ∧ (decimalValue b.data : Int) ≤ maxInt :=
    ⟨Int.natCast_nonneg _, hvb⟩
  split_ifs with h
  · rw [wrapInt_sub _ _ hra hrb]
    exact sameSign_of (fun h => h) (fun h => h) (fun h => h)
  · have h0 : compareTokens [] [] = 0 := by decide
    rw [h0]
    push_neg at h
    apply sameSign_of <;> intro h' <;> omega

/-! ## The exactly-one encoding (C17, C18) -/

theorem map_getD_range (l : List Int) (f : Int → List Int) :
    (List.range l.length).map (fun j => f (l.getD j 0)) = l.map f := by
  apply List.ext_getElem
  · simp
  · intro n h1 h2
    simp only [List.length_map, List.length_range] at h1
    simp [List.getD_eq_getElem?_getD, List.getElem?_eq_getElem h1]

theorem pairs_eq_byIndex (vars : List Int) :
    exactlyOne.pairs vars = (List.range vars.length).flatMap fun i =>
      (List.range' (i + 1) (vars.length - (i + 1))).map fun j =>
        [negInt (vars.getD i 0), negInt (vars.getD j 0)] := by
  induction vars with
  | nil => rfl
  | cons v rest ih =>
    simp only [exactlyOne.pairs, List.length_cons, List.range_succ_eq_map, List.flatMap_cons,
      List.flatMap_map]
    congr 1
    · have h1 : rest.length + 1 - (0 + 1) = rest.length := by omega
      rw [h1, List.range'_eq_map_range, List.map_map]
      rw [← map_getD_range rest (fun w => [negInt v, negInt w])]
      apply List.map_congr_left
      intro j _
      simp [Nat.add_comm 1 j]
    · rw [ih]
      apply List.flatMap_congr
      intro i _
      have h1 : rest.length + 1 - (i.succ + 1) = rest.length - (i + 1) := by omega
      have h2 : List.range' (i.succ + 1) (rest.length - (i + 1)) =
          (List.range' (i + 1) (rest.length - (i + 1))).map (1 + ·) := by
        rw [List.map_add_range']
        congr 1
        omega
      rw [h1, h2, List.map_map]
      apply List.map_congr_left
      intro j _
      simp [Nat.add_comm 1 j]

theorem pairs_length (vars : List Int) :
    2 * (exactlyOne.pairs vars).length = vars.length * (vars.length - 1) := by
  induction vars with
  | nil => rfl
  | cons v rest ih =>
    simp only [exactlyOne.pairs, List.length_append, List.length_map, List.length_cons,
      Nat.add_sub_cancel]
    rw [Nat.mul_add, ih]
    cases rest.length with
    | zero => rfl
    | succ m =>
      simp only [Nat.add_sub_cancel]
      ring

theorem negInt_of_ne (x : Int) (h : x ≠ minInt) : negInt x = -x := by
  simp [negInt, h]

theorem negInt_of_pos (x : Int) (h : 0 < x) : negInt x = -x := by
  apply negInt_of_ne
  intro e
  rw [e] at h
  exact absurd h (by decide)

theorem negInt_eq_wrapInt (x : Int) (h1 : minInt ≤ x) (h2 : x ≤ maxInt) :
    negInt x = wrapInt (-x) := by
  unfold negInt wrapInt
  unfold minInt at h1
  unfold maxInt at h2
  split_ifs with h
  · rw [h]
    decide
  · unfold minInt at h
    omega

/-- C17: `exactlyOne(vars)` is the clause `vars` followed by the clauses
`[-vars[i], -vars[j]]` for the index pairs `i < j` in lexicographic order, so it has
`1 + n(n-1)/2` clauses; a single variable gives the unit clause alone, and the variables
3, 5, 7 give `[3,5,7]`, `[-3,-5]`, `[-3,-7]`, `[-5,-7]`.  The minus sign is that of Go on a
64-bit `int`: the wrapped negation, which is the negation except at the least `int`, where
it is the least `int` again. -/
theorem exactlyOne_clauses :
    (∀ vars : List Int, exactlyOne vars = exactlyOneByIndex vars ∧
      (exactlyOne vars).head? = some vars ∧
      (exactlyOne vars).length = 1 + vars.length * (vars.length - 1) / 2) ∧
    (∀ v : Int, exactlyOne [v] = [[v]]) ∧
    exactlyOne [3, 5, 7] = [[3, 5, 7], [-3, -5], [-3, -7], [-5, -7]] ∧
    (∀ x : Int, minInt ≤ x → x ≤ maxInt → negInt x = wrapInt (-x)) ∧
    (∀ x : Int, x ≠ minInt → negInt x = -x) ∧
    exactlyOne [maxInt, minInt] = [[maxInt, minInt], [-maxInt, minInt]] := by
  refine ⟨fun vars => ⟨?_, rfl, ?_⟩, fun v => rfl, by decide, negInt_eq_wrapInt, negInt_of_ne,
    by decide⟩
  · unfold exactlyOne exactlyOneByIndex
    rw [pairs_eq_byIndex]
  · have h := pairs_length vars
    unfold exactlyOne
    simp only [List.length_cons]
    omega

theorem litTrue_neg (model : List Bool) (v : Int) (hv : 0 < v) :
    litTrue model (-v) = !litTrue model v := by
  have h1 : ¬ (-v > 0) := by omega
  have h2 : -v < 0 := by omega
  simp [litTrue, h1, h2, hv]

theorem pairs_satisfied_iff (model : List Bool) (vars : List Int) (hd : vars.Nodup)
    (hp : ∀ v ∈ vars, 0 < v) :
    (∀ c ∈ exactlyOne.pairs vars, c.any (litTrue model) = true) ↔
      ∀ v ∈ vars, ∀ w ∈ vars, litTrue model v = true → litTrue model w = true → v = w := by
  induction vars with
  | nil => simp [exactlyOne.pairs]
  | cons x rest ih =>
    have hx : 0 < x := hp x (List.mem_cons_self _ _)
    have hrest : ∀ v ∈ rest, 0 < v := fun v hv => hp v (List.mem_cons_of_mem _ hv)
    obtain ⟨hxr, hdr⟩ := List.nodup_cons.1 hd
    have ihh := ih hdr hrest
    have hpair : ∀ w ∈ rest, ([negInt x, negInt w].any (litTrue model) = true ↔
        ¬ (litTrue model x = true ∧ litTrue model w = true)) := by
      intro w hw
      rw [negInt_of_pos x hx, negInt_of_pos w (hrest w hw)]
      simp only [List.any_cons, List.any_nil, Bool.or_false, Bool.or_eq_true,
        litTrue_neg model x hx, litTrue_neg model w (hrest w hw), Bool.not_eq_true']
      cases litTrue model x <;> cases litTrue model w <;> simp
    have hsplit : exactlyOne.pairs (x :: rest) =
        rest.map (fun w => [negInt x, negInt w]) ++ exactlyOne.pairs rest := rfl
    rw [hsplit]
    constructor
    · intro h v hv w hw tv tw
      have h1 : ∀ u ∈ rest, [negInt x, negInt u].any (litTrue model) = true := fun u hu =>
        h _ (List.mem_append_left _ (List.mem_map.2 ⟨u, hu, rfl⟩))
      have h2 : ∀ c ∈ exactlyOne.pairs rest, c.any (litTrue model) = true := fun c hc =>
        h c (List.mem_append_right _ hc)
      rcases List.mem_cons.1 hv with rfl | hv' <;> rcases List.mem_cons.1 hw with rfl | hw'
      · rfl
      · exact absurd ⟨tv, tw⟩ ((hpair w hw').1 (h1 w hw'))
      · exact absurd ⟨tw, tv⟩ ((hpair v hv').1 (h1 v hv'))
      · exact ihh.1 h2 v hv' w hw' tv tw
    · intro h c hc
      rcases List.mem_append.1 hc with h1 | h1
      · obtain ⟨w, hw, rfl⟩ := List.mem_map.1 h1
        rw [hpair w hw]
        rintro ⟨tx, tw⟩
        have := h x (List.mem_cons_self _ _) w (List.mem_cons_of_mem _ hw) tx tw
        exact hxr (this ▸ hw)
      · exact ihh.2 (fun v hv w hw => h v (List.mem_cons_of_mem _ hv) w
          (List.mem_cons_of_mem _ hw)) c h1

/-- C18: for pairwise distinct positive variable ids and every truth assignment, the
assignment satisfies every clause of `exactlyOne(vars)` iff exactly one variable of `vars`
is true under it. -/
theorem exactlyOne_satisfied_iff (vars : List Int) (model : List Bool) (hd : vars.Nodup)
    (hp : ∀ v ∈ vars, 0 < v) :
    satisfies model (exactlyOne vars) = true ↔
      ∃! v, v ∈ vars ∧ litTrue model v = true := by
  unfold satisfies exactlyOne
  rw [List.all_cons, Bool.and_eq_true, List.all_eq_true, List.any_eq_true,
    pairs_satisfied_iff model vars hd hp]
  constructor
  · rintro ⟨⟨v, hv, tv⟩, huniq⟩
    exact ⟨v, ⟨hv, tv⟩, fun w ⟨hw, tw⟩ => huniq w hw v hv tw tv⟩
  · rintro ⟨v, ⟨hv, tv⟩, huniq⟩
    refine ⟨⟨v, hv, tv⟩, fun a ha b hb ta tb => ?_⟩
    rw [huniq a ⟨ha, ta⟩, huniq b ⟨hb, tb⟩]

/-- C18 at the variables 1, 2, 3 and the assignment that sets only variable 2 true. -/
theorem exactlyOne_satisfied_iff_witness :
    satisfies [false, true, false] (exactlyOne [1, 2, 3]) = true ∧
      ∃! v, v ∈ [(1 : Int), 2, 3] ∧ litTrue [false, true, false] v = true :=
  ⟨by decide,
    (exactlyOne_satisfied_iff [1, 2, 3] [false, true, false] (by decide) (by decide)).1
      (by decide)⟩

/-! ## Well-formedness of the reachable encoder states -/

/-! ## Lemmas: the variable table -/

theorem mapGet_none_iff {κ ν : Type} [DecidableEq κ] (m : List (κ × ν)) (k : κ) :
    mapGet m k = none ↔ k ∉ m.map Prod.fst := by
  induction m with
  | nil => simp [mapGet]
  | cons e rest ih =>
    obtain ⟨k', v'⟩ := e
    by_cases h : k' = k
    · simp [mapGet, h]
    · have h' : ¬ k = k' := fun e => h e.symm
      simp [mapGet, h, h', ih]

theorem mapSet_of_none {κ ν : Type} [DecidableEq κ] (m : List (κ × ν)) (k : κ) (v : ν)
    (h : mapGet m k = none) : mapSet m k v = m ++ [(k, v)] := by
  induction m with
  | nil => rfl
  | cons e rest ih =>
    obtain ⟨k', v'⟩ := e
    by_cases hk : k' = k
    · simp [mapGet, hk] at h
    · simp only [mapGet, hk, if_false] at h
      simp [mapSet, hk, ih h]

theorem mapGet_of_mem_nodup {κ ν : Type} [DecidableEq κ] (m : List (κ × ν)) (k : κ) (v : ν)
    (hn : (m.map Prod.fst).Nodup) (h : (k, v) ∈ m) : mapGet m k = some v := by
  induction m with
  | nil => cases h
  | cons e rest ih =>
    obtain ⟨k', v'⟩ := e
    simp only [List.map_cons, List.nodup_cons] at hn
    rcases List.mem_cons.1 h with h' | h'
    · cases h'
      simp [mapGet]
    · have hk : k' ≠ k := by
        rintro rfl
        exact hn.1 (List.mem_map.2 ⟨(k', v), h', rfl⟩)
      simp only [mapGet, hk, if_false]
      exact ih hn.2 h'

theorem mapGet_iff_mem {κ ν : Type} [DecidableEq κ] (m : List (κ × ν)) (k : κ) (v : ν)
    (hn : (m.map Prod.fst).Nodup) : mapGet m k = some v ↔ (k, v) ∈ m :=
  ⟨mapGet_mem m k v, mapGet_of_mem_nodup m k v hn⟩

theorem mem_ids_iff (n : Nat) (id : Int) :
    id ∈ (List.range n).map (fun (i : Nat) => (i : Int) + 1) ↔ 1 ≤ id ∧ id ≤ n := by
  simp only [List.mem_map, List.mem_range]
  constructor
  · rintro ⟨i, hi, rfl⟩
    omega
  · rintro ⟨h1, h2⟩
    exact ⟨(id - 1).toNat, by omega, by omega⟩

theorem ids_nodup (n : Nat) : ((List.range n).map fun (i : Nat) => (i : Int) + 1).Nodup := by
  apply List.Nodup.map _ (List.nodup_range n)
  intro a b h
  simp only at h
  omega

theorem Wf_id_range (g : GophersatAdapter) (hg : g.Wf) (k : String) (id : Int)
    (h : mapGet g.vars k = some id) : 1 ≤ id ∧ id ≤ g.vars.length := by
  have hm : id ∈ g.vars.map Prod.snd := List.mem_map.2 ⟨(k, id), mapGet_mem _ _ _ h, rfl⟩
  rw [hg.idsRange] at hm
  exact (mem_ids_iff _ _).1 hm

theorem NewGophersatAdapter_wf : NewGophersatAdapter.Wf :=
  ⟨List.nodup_nil, rfl, rfl, fun _ h => (by cases h), fun _ h => (by cases h),
    fun k => ⟨fun h => (by cases h), fun ⟨_, h, _⟩ => (by cases h)⟩⟩

theorem getVarID_wf (g : GophersatAdapter) (key : String) (hg : g.Wf) :
    (g.getVarID key).1.Wf := by
  unfold GophersatAdapter.getVarID
  cases h : mapGet g.vars key with
  | some id => exact hg
  | none =>
    have hkey : key ∉ g.vars.map Prod.fst := (mapGet_none_iff _ _).1 h
    have hv : mapSet g.vars key ((g.vars.length : Int) + 1) =
        g.vars ++ [(key, (g.vars.length : Int) + 1)] := mapSet_of_none _ _ _ h
    have hid : mapGet g.varNames ((g.vars.length : Int) + 1) = none := by
      rw [mapGet_none_iff, hg.names, List.map_map]
      have : (Prod.fst ∘ fun e : String × Int => (e.2, e.1)) = Prod.snd := rfl
      rw [this, hg.idsRange, mem_ids_iff]
      omega
    have hn : mapSet g.varNames ((g.vars.length : Int) + 1) key =
        g.varNames ++ [((g.vars.length : Int) + 1, key)] := mapSet_of_none _ _ _ hid
    have hmono : ∀ k id, mapGet g.vars k = some id →
        mapGet (g.vars ++ [(key, (g.vars.length : Int) + 1)]) k = some id := by
      intro k id hk
      have hne : k ≠ key := by
        rintro rfl
        rw [h] at hk
        cases hk
      rw [← hv, mapGet_mapSet_ne _ _ _ _ hne]
      exact hk
    simp only [hv, hn]
    refine ⟨?_, ?_, ?_, ?_, ?_, hg.added⟩
    · simp only [List.map_append, List.map_cons, List.map_nil]
      refine List.Nodup.append hg.keysNodup (List.nodup_singleton _) ?_
      intro a ha hb
      rw [List.mem_singleton.1 hb] at ha
      exact hkey ha
    · simp only [List.map_append, List.map_cons, List.map_nil, List.length_append,
        List.length_singleton, List.range_succ, hg.idsRange]
    · simp only [List.map_append, List.map_cons, List.map_nil, hg.names]
    · intro c hc l hl
      obtain ⟨h0, k, hk⟩ := hg.lits c hc l hl
      exact ⟨h0, k, hmono k _ hk⟩
    · intro e he q hq
      obtain ⟨h1, h2⟩ := hg.pkgs e he q hq
      refine ⟨h1, ?_⟩
      cases h3 : mapGet g.vars (q.Name ++ "@" ++ q.Version) with
      | none => rw [h3] at h2; cases h2
      | some id => rw [hmono _ id h3]; rfl

theorem addClause_wf (g : GophersatAdapter) (clause : List Int) (hg : g.Wf)
    (hc : ∀ l ∈ clause, l ≠ 0 ∧ ∃ k, mapGet g.vars k = some (l.natAbs : Int)) :
    (g.addClause clause).Wf := by
  unfold GophersatAdapter.addClause
  simp only
  split_ifs with h
  · exact hg
  · refine ⟨hg.keysNodup, hg.idsRange, hg.names, ?_, hg.pkgs, ?_⟩
    · intro c hcm l hl
      rcases List.mem_append.1 hcm with h1 | h1
      · exact hg.lits c h1 l hl
      · rw [List.mem_singleton.1 h1] at hl
        exact hc l hl
    · intro k
      simp only [List.mem_append, List.mem_singleton]
      constructor
      · rintro (h1 | h1)
        · obtain ⟨c, hcm, hs⟩ := (hg.added k).1 h1
          exact ⟨c, Or.inl hcm, hs⟩
        · exact ⟨clause, Or.inr rfl, h1.symm⟩
      · rintro ⟨c, h1 | h1, hs⟩
        · exact Or.inl ((hg.added k).2 ⟨c, h1, hs⟩)
        · rw [h1] at hs
          exact Or.inr hs.symm

theorem getVarID_with_packages (g : GophersatAdapter) (pk : List (String × List Package))
    (key : String) :
    (({ g with packages := pk } : GophersatAdapter).getVarID key).1 =
      { (g.getVarID key).1 with packages := pk } := by
  unfold GophersatAdapter.getVarID
  cases mapGet g.vars key <;> rfl

theorem Wf_with_packages (g : GophersatAdapter) (pk : List (String × List Package))
    (hg : g.Wf)
    (hpk : ∀ e ∈ pk, ∀ q ∈ e.2,
      q.Name = e.1 ∧ (mapGet g.vars (q.Name ++ "@" ++ q.Version)).isSome = true) :
    ({ g with packages := pk } : GophersatAdapter).Wf :=
  ⟨hg.keysNodup, hg.idsRange, hg.names, hg.lits, hpk, hg.added⟩

theorem AddPackage_wf (g : GophersatAdapter) (p : Package) (hg : g.Wf) :
    (g.AddPackage p).Wf := by
  have hstep : ∀ (g1 : GophersatAdapter) (l : List Package), g1.Wf →
      mapGet g1.packages p.Name = some l →
      (({ g1 with packages := mapSet g1.packages p.Name (l ++ [p]) } :
        GophersatAdapter).getVarID (p.Name ++ "@" ++ p.Version)).1.Wf := by
    intro g1 l hg1 hl
    rw [getVarID_with_packages]
    have hw := getVarID_wf g1 (p.Name ++ "@" ++ p.Version) hg1
    have hp : (g1.getVarID (p.Name ++ "@" ++ p.Version)).1.packages = g1.packages :=
      (getVarID_fields g1 _).2.1
    apply Wf_with_packages _ _ hw
    intro e he q hq
    rcases mem_mapSet _ _ _ _ he with h | h
    · exact hw.pkgs e (by rw [hp]; exact h) q hq
    · rw [h] at hq ⊢
      rcases List.mem_append.1 hq with h' | h'
      · exact hw.pkgs (p.Name, l) (by rw [hp]; exact mapGet_mem _ _ _ hl) q h'
      · rw [List.mem_singleton.1 h']
        exact ⟨rfl, by rw [getVarID_spec]; rfl⟩
  unfold GophersatAdapter.AddPackage
  cases h : mapGet g.packages p.Name with
  | some l =>
    simp only [h, Option.getD_some]
    split_ifs
    · exact hg
    · exact hstep g l hg h
  | none =>
    have hg1 : ({ g with packages := mapSet g.packages p.Name [] } : GophersatAdapter).Wf := by
      apply Wf_with_packages _ _ hg
      intro e he q hq
      rcases mem_mapSet _ _ _ _ he with h1 | h1
      · exact hg.pkgs e h1 q hq
      · rw [h1] at hq
        cases hq
    have hl1 : mapGet ({ g with packages := mapSet g.packages p.Name [] } :
        GophersatAdapter).packages p.Name = some [] := mapGet_mapSet_self _ _ _
    simp only [hl1, Option.getD_some, List.any_nil, Bool.false_eq_true, if_false]
    exact hstep _ [] hg1 hl1

theorem collectVarIDs_registered (keep : Package → Bool) (g : GophersatAdapter)
    (l : List Package) (vs : List Int)
    (hl : ∀ p ∈ l, (mapGet g.vars (p.Name ++ "@" ++ p.Version)).isSome = true) :
    collectVarIDs keep l (g, vs) =
      (g, vs ++ (l.filter keep).map fun p =>
        (mapGet g.vars (p.Name ++ "@" ++ p.Version)).getD 0) := by
  induction l generalizing vs with
  | nil => simp [collectVarIDs]
  | cons p rest ih =>
    have hrest := fun q hq => hl q (List.mem_cons_of_mem _ hq)
    have hp := hl p (List.mem_cons_self _ _)
    cases hm : mapGet g.vars (p.Name ++ "@" ++ p.Version) with
    | none => rw [hm] at hp; cases hp
    | some id =>
      have hget : g.getVarID (p.Name ++ "@" ++ p.Version) = (g, id) := by
        simp [GophersatAdapter.getVarID, hm]
      by_cases hk : keep p = true
      · simp only [collectVarIDs, hk, if_true, hget, ih _ hrest, List.filter_cons_of_pos hk,
          List.map_cons, hm, Option.getD_some, List.append_assoc, List.singleton_append]
      · simp only [collectVarIDs, hk, ih _ hrest]
        rw [List.filter_cons_of_neg hk]
        simp

theorem versionClause_eq (g : GophersatAdapter) (hg : g.Wf) (name : String)
    (vc : Option VersionConstraint) :
    (((mapGet g.packages name).getD []).filter fun p =>
        VersionConstraint.Satisfies vc p.Version).map (fun p =>
          (mapGet g.vars (p.Name ++ "@" ++ p.Version)).getD 0) =
      g.versionClause name vc := by
  unfold GophersatAdapter.versionClause GophersatAdapter.GetPackageVersions
  have hnames : ∀ p ∈ (mapGet g.packages name).getD [], p.Name = name := by
    intro p hp
    cases hm : mapGet g.packages name with
    | none => rw [hm] at hp; cases hp
    | some l =>
      rw [hm] at hp
      exact (hg.pkgs (name, l) (mapGet_mem _ _ _ hm) p hp).1
  generalize (mapGet g.packages name).getD [] = l at hnames
  induction l with
  | nil => rfl
  | cons p rest ih =>
    have hp := hnames p (List.mem_cons_self _ _)
    have ihh := ih fun q hq => hnames q (List.mem_cons_of_mem _ hq)
    by_cases hs : VersionConstraint.Satisfies vc p.Version = true
    · simp only [List.filter_cons, List.map_cons, hs, if_true]
      rw [ihh]
      simp [GophersatAdapter.varOf, hp]
    · simp only [List.filter_cons, List.map_cons, hs, Bool.false_eq_true, if_false]
      exact ihh

theorem registered_keys (g : GophersatAdapter) (hg : g.Wf) (name : String) :
    ∀ p ∈ (mapGet g.packages name).getD [],
      (mapGet g.vars (p.Name ++ "@" ++ p.Version)).isSome = true := by
  intro p hp
  cases hm : mapGet g.packages name with
  | none => rw [hm] at hp; cases hp
  | some l =>
    rw [hm] at hp
    exact (hg.pkgs (name, l) (mapGet_mem _ _ _ hm) p hp).2

theorem versionClause_lits (g : GophersatAdapter) (hg : g.Wf) (name : String)
    (vc : Option VersionConstraint) :
    ∀ l ∈ g.versionClause name vc, ∃ v ∈ g.GetPackageVersions name,
      VersionConstraint.Satisfies vc v = true ∧
      mapGet g.vars (name ++ "@" ++ v) = some l ∧ 0 < l := by
  intro l hl
  unfold GophersatAdapter.versionClause at hl
  obtain ⟨v, hv, rfl⟩ := List.mem_map.1 hl
  obtain ⟨hv1, hv2⟩ := List.mem_filter.1 hv
  refine ⟨v, hv1, hv2, ?_⟩
  unfold GophersatAdapter.GetPackageVersions at hv1
  obtain ⟨p, hp, rfl⟩ := List.mem_map.1 hv1
  have hsome := registered_keys g hg name p hp
  have hname : p.Name = name := by
    cases hm : mapGet g.packages name with
    | none => rw [hm] at hp; cases hp
    | some l =>
      rw [hm] at hp
      exact (hg.pkgs (name, l) (mapGet_mem _ _ _ hm) p hp).1
  rw [hname] at hsome
  unfold GophersatAdapter.varOf
  cases hm : mapGet g.vars (name ++ "@" ++ p.Version) with
  | none => rw [hm] at hsome; cases hsome
  | some id =>
    have := (Wf_id_range g hg _ id hm).1
    exact ⟨rfl, by simp only [Option.getD_some]; omega⟩

theorem lit_of_id (g : GophersatAdapter) (hg : g.Wf) (k : String) (l : Int)
    (h : mapGet g.vars k = some l) :
    0 < l ∧ l ≠ 0 ∧ ∃ k', mapGet g.vars k' = some (l.natAbs : Int) := by
  have hr := (Wf_id_range g hg k l h).1
  have habs : (l.natAbs : Int) = l := by omega
  exact ⟨by omega, by omega, k, by rw [habs]; exact h⟩

theorem addVersionConstraint_eq (g : GophersatAdapter) (hg : g.Wf) (c : Constraint)
    (vc : VersionConstraint) (hv : c.Version = some vc) :
    g.addVersionConstraint c =
      (if g.versionClause c.Name (some vc) = [] then g
        else g.addClause (g.versionClause c.Name (some vc)), none) := by
  unfold GophersatAdapter.addVersionConstraint
  rw [hv]
  simp only
  rw [collectVarIDs_registered _ g _ [] (registered_keys g hg c.Name), List.nil_append,
    versionClause_eq g hg c.Name (some vc)]
  simp only [List.length_eq_zero]
  split_ifs <;> rfl

theorem addSimpleConstraint_eq (g : GophersatAdapter) (hg : g.Wf) (name : String) :
    g.addSimpleConstraint name =
      if g.GetPackageVersions name = [] then (g, some (Error.notFoundInRepository name))
      else (g.addClause (g.versionClause name none), none) := by
  have hclause := versionClause_eq g hg name none
  have hkeys := registered_keys g hg name
  unfold GophersatAdapter.addSimpleConstraint
  unfold GophersatAdapter.GetPackageVersions
  cases hm : mapGet g.packages name with
  | none => simp
  | some l =>
    cases l with
    | nil => simp
    | cons v vs =>
      rw [hm] at hclause hkeys
      simp only [Option.getD_some] at hclause hkeys
      simp only [Option.getD_some, List.map_cons, reduceCtorEq, if_false]
      rw [collectVarIDs_registered _ g _ [] hkeys, List.nil_append]
      have hf : (v :: vs).filter (fun _ => true) =
          (v :: vs).filter (fun p => VersionConstraint.Satisfies none p.Version) := rfl
      rw [hf, hclause]

theorem slotVars_mem (g : GophersatAdapter) (o : MapOrder) (ho : o.Valid) (hg : g.Wf)
    (slot : String) (l : Int) :
    l ∈ ((o.visit 3 g.packages).flatMap fun entry =>
        (entry.2.filter fun p => p.Slot.Name = slot).map fun p =>
          (mapGet g.vars (p.Name ++ "@" ++ p.Version)).getD 0) ↔
      ∃ p ∈ g.slotProviders slot, mapGet g.vars (p.Name ++ "@" ++ p.Version) = some l := by
  simp only [GophersatAdapter.slotProviders, List.mem_flatMap, List.mem_map, List.mem_filter]
  constructor
  · rintro ⟨e, he, p, ⟨hp, hs⟩, hval⟩
    have he' : e ∈ g.packages := (ho 3 _ g.packages).mem_iff.1 he
    refine ⟨p, ⟨e, he', hp, hs⟩, ?_⟩
    have hsome := (hg.pkgs e he' p hp).2
    cases hm : mapGet g.vars (p.Name ++ "@" ++ p.Version) with
    | none => rw [hm] at hsome; cases hsome
    | some id =>
      rw [hm] at hval
      exact congrArg some hval
  · rintro ⟨p, ⟨e, he, hp, hs⟩, hval⟩
    exact ⟨e, (ho 3 _ g.packages).mem_iff.2 he, p, ⟨hp, hs⟩, by rw [hval]; rfl⟩

theorem addSlotConstraint_wf (g : GophersatAdapter) (o : MapOrder) (ho : o.Valid)
    (c : Constraint) (hg : g.Wf) : (g.addSlotConstraint o c).1.Wf := by
  unfold GophersatAdapter.addSlotConstraint
  simp only
  split_ifs
  · exact hg
  · apply addClause_wf _ _ hg
    intro l hl
    obtain ⟨p, _, hval⟩ := (slotVars_mem g o ho hg c.Slot l).1 hl
    exact (lit_of_id g hg _ l hval).2

theorem AddConstraint_wf (g : GophersatAdapter) (o : MapOrder) (ho : o.Valid)
    (c : Constraint) (hg : g.Wf) : (g.AddConstraint o c).1.Wf := by
  unfold GophersatAdapter.AddConstraint
  split_ifs
  · cases hv : c.Version with
    | none =>
      have h : g.addVersionConstraint c = g.addSimpleConstraint c.Name := by
        simp [GophersatAdapter.addVersionConstraint, hv]
      rw [h, addSimpleConstraint_eq g hg]
      split_ifs
      · exact hg
      · apply addClause_wf _ _ hg
        intro l hl
        obtain ⟨v, _, _, hval, _⟩ := versionClause_lits g hg c.Name none l hl
        exact (lit_of_id g hg _ l hval).2
    | some vc =>
      rw [addVersionConstraint_eq g hg c vc hv]
      simp only
      split_ifs
      · exact hg
      · apply addClause_wf _ _ hg
        intro l hl
        obtain ⟨v, _, _, hval, _⟩ := versionClause_lits g hg c.Name (some vc) l hl
        exact (lit_of_id g hg _ l hval).2
  · exact addSlotConstraint_wf g o ho c hg
  · unfold GophersatAdapter.addUseFlagConstraint
    split_ifs
    · have hw := getVarID_wf g ("USE_" ++ c.Flag) hg
      apply addClause_wf _ _ hw
      intro l hl
      rw [List.mem_singleton.1 hl]
      exact (lit_of_id _ hw _ _ (getVarID_spec g _)).2
    · exact hg
  · exact hg

theorem pairs_mem (vars : List Int) (c : List Int) (hc : c ∈ exactlyOne.pairs vars) :
    ∃ v ∈ vars, ∃ w ∈ vars, c = [negInt v, negInt w] := by
  induction vars with
  | nil => cases hc
  | cons x rest ih =>
    simp only [exactlyOne.pairs] at hc
    rcases List.mem_append.1 hc with h | h
    · obtain ⟨w, hw, rfl⟩ := List.mem_map.1 h
      exact ⟨x, List.mem_cons_self _ _, w, List.mem_cons_of_mem _ hw, rfl⟩
    · obtain ⟨v, hv, w, hw, rfl⟩ := ih h
      exact ⟨v, List.mem_cons_of_mem _ hv, w, List.mem_cons_of_mem _ hw, rfl⟩

theorem foldl_addClause_wf (cs : List (List Int)) (g : GophersatAdapter) (hg : g.Wf)
    (hcs : ∀ c ∈ cs, ∀ l ∈ c, l ≠ 0 ∧ ∃ k, mapGet g.vars k = some (l.natAbs : Int)) :
    (cs.foldl (fun acc clause => acc.addClause clause) g).Wf := by
  induction cs generalizing g with
  | nil => exact hg
  | cons c rest ih =>
    simp only [List.foldl_cons]
    apply ih _ (addClause_wf g c hg (hcs c (List.mem_cons_self _ _)))
    intro c' hc' l hl
    rw [(addClause_fields g c).1]
    exact hcs c' (List.mem_cons_of_mem _ hc') l hl

theorem AddExactlyOneConstraint_wf (g : GophersatAdapter) (pkgName : String)
    (versions : List String) (hg : g.Wf) :
    (g.AddExactlyOneConstraint pkgName versions).Wf := by
  unfold GophersatAdapter.AddExactlyOneConstraint
  have hvars : ∀ v ∈ versions.filterMap (fun version =>
      mapGet g.vars (pkgName ++ "@" ++ version)),
      0 < v ∧ v ≠ 0 ∧ ∃ k', mapGet g.vars k' = some (v.natAbs : Int) := by
    intro v hv
    obtain ⟨version, _, hval⟩ := List.mem_filterMap.1 hv
    exact lit_of_id g hg _ v hval
  generalize versions.filterMap (fun version =>
    mapGet g.vars (pkgName ++ "@" ++ version)) = vs at hvars
  have hneg : ∀ v ∈ vs,
      negInt v ≠ 0 ∧ ∃ k, mapGet g.vars k = some ((negInt v).natAbs : Int) := by
    intro v hv
    obtain ⟨h1, h2, k, hk⟩ := hvars v hv
    rw [negInt_of_pos v h1]
    refine ⟨by omega, k, ?_⟩
    rw [Int.natAbs_neg]
    exact hk
  match vs, hvars, hneg with
  | [], _, _ => exact hg
  | [v], hvars, _ =>
    apply addClause_wf _ _ hg
    intro l hl
    rw [List.mem_singleton.1 hl]
    exact (hvars v (List.mem_singleton.2 rfl)).2
  | v :: w :: rest, hvars, hneg =>
    apply foldl_addClause_wf _ _ hg
    intro c hc l hl
    unfold exactlyOne at hc
    rcases List.mem_cons.1 hc with h | h
    · rw [h] at hl
      exact (hvars l hl).2
    · obtain ⟨a, ha, b, hb, rfl⟩ := pairs_mem _ c h
      simp only [List.mem_cons, List.mem_singleton, List.not_mem_nil, or_false] at hl
      rcases hl with rfl | rfl
      · exact hneg a ha
      · exact hneg b hb

theorem Reachable_wf (g : GophersatAdapter) (h : g.Reachable) : g.Wf := by
  induction h with
  | new => exact NewGophersatAdapter_wf
  | addPackage g p _ ih => exact AddPackage_wf g p ih
  | addConstraint g o c ho _ ih => exact AddConstraint_wf g o ho c ih
  | addExactlyOne g n vs _ ih => exact AddExactlyOneConstraint_wf g n vs ih

theorem sort_eq_iff_perm (a b : List Int) :
    a.insertionSort (· ≤ ·) = b.insertionSort (· ≤ ·) ↔ a.Perm b := by
  constructor
  · intro h
    have h1 := List.perm_insertionSort (· ≤ ·) a
    rw [h] at h1
    exact h1.symm.trans (List.perm_insertionSort _ b)
  · intro h
    apply List.eq_of_perm_of_sorted _ (List.sorted_insertionSort _ a)
      (List.sorted_insertionSort _ b)
    exact ((List.perm_insertionSort _ a).trans h).trans (List.perm_insertionSort _ b).symm

theorem addClause_clauses (g : GophersatAdapter) (hg : g.Wf) (clause : List Int) :
    ((∃ c ∈ g.clauses, c.Perm clause) → (g.addClause clause).clauses = g.clauses) ∧
    ((¬ ∃ c ∈ g.clauses, c.Perm clause) →
      (g.addClause clause).clauses = g.clauses ++ [clause]) ∧
    (∃ c ∈ (g.addClause clause).clauses, c.Perm clause) := by
  have hiff : clause.insertionSort (· ≤ ·) ∈ g.addedClauses ↔
      ∃ c ∈ g.clauses, c.Perm clause := by
    rw [hg.added]
    constructor
    · rintro ⟨c, hc, hs⟩
      exact ⟨c, hc, (sort_eq_iff_perm c clause).1 hs⟩
    · rintro ⟨c, hc, hp⟩
      exact ⟨c, hc, (sort_eq_iff_perm c clause).2 hp⟩
  unfold GophersatAdapter.addClause
  simp only
  by_cases h : clause.insertionSort (· ≤ ·) ∈ g.addedClauses
  · simp only [h, if_true]
    exact ⟨fun _ => trivial, fun hn => absurd (hiff.1 h) hn, hiff.1 h⟩
  · simp only [h, if_false]
    exact ⟨fun hp => absurd (hiff.2 hp) h, fun _ => trivial,
      ⟨clause, List.mem_append_right _ (List.mem_singleton.2 rfl), List.Perm.refl _⟩⟩

/-! ## What `AddConstraint` emits in a reachable state (C14, C15, C16) -/

/-- C14: in a reachable encoder state, `AddConstraint` of a version constraint on `N` with a
non-null `VC` returns no error and leaves the variable table unchanged; the clause it
builds is the list of the positive ids of `N@v` for the registered versions `v` of `N` that
satisfy `VC`, in registration order; when no version satisfies, the clause list is
unchanged; otherwise the clause list gains exactly that clause, unless a permutation of it
is already stored. -/
theorem AddConstraint_version (g : GophersatAdapter) (hr : g.Reachable) (o : MapOrder)
    (c : Constraint) (vc : VersionConstraint) (hk : c.Kind = ConstraintTypeVersion)
    (hv : c.Version = some vc) :
    (g.AddConstraint o c).2 = none ∧
    (g.AddConstraint o c).1.vars = g.vars ∧
    (g.AddConstraint o c).1.varNames = g.varNames ∧
    (∀ l ∈ g.versionClause c.Name (some vc), ∃ v ∈ g.GetPackageVersions c.Name,
      VersionConstraint.Satisfies (some vc) v = true ∧
      mapGet g.vars (c.Name ++ "@" ++ v) = some l ∧ 0 < l) ∧
    ((∀ v ∈ g.GetPackageVersions c.Name, VersionConstraint.Satisfies (some vc) v = false) →
      (g.AddConstraint o c).1.clauses = g.clauses) ∧
    ((∃ v ∈ g.GetPackageVersions c.Name, VersionConstraint.Satisfies (some vc) v = true) →
      ((∃ c' ∈ g.clauses, c'.Perm (g.versionClause c.Name (some vc))) →
        (g.AddConstraint o c).1.clauses = g.clauses) ∧
      ((¬ ∃ c' ∈ g.clauses, c'.Perm (g.versionClause c.Name (some vc))) →
        (g.AddConstraint o c).1.clauses =
          g.clauses ++ [g.versionClause c.Name (some vc)])) := by
  have hg := Reachable_wf g hr
  have heq : g.AddConstraint o c =
      (if g.versionClause c.Name (some vc) = [] then g
        else g.addClause (g.versionClause c.Name (some vc)), none) := by
    rw [← addVersionConstraint_eq g hg c vc hv]
    simp [GophersatAdapter.AddConstraint, hk]
  have hnil : g.versionClause c.Name (some vc) = [] ↔
      ∀ v ∈ g.GetPackageVersions c.Name,
        VersionConstraint.Satisfies (some vc) v = false := by
    unfold GophersatAdapter.versionClause
    rw [List.map_eq_nil_iff, List.filter_eq_nil_iff]
    simp
  obtain ⟨a1, a2, _⟩ := addClause_clauses g hg (g.versionClause c.Name (some vc))
  obtain ⟨f1, _⟩ := addClause_fields g (g.versionClause c.Name (some vc))
  have fn : (g.addClause (g.versionClause c.Name (some vc))).varNames = g.varNames := by
    unfold GophersatAdapter.addClause
    simp only
    split_ifs <;> rfl
  rw [heq]
  refine ⟨rfl, ?_, ?_, versionClause_lits g hg c.Name (some vc), ?_, ?_⟩
  · simp only
    split_ifs
    · rfl
    · exact f1
  · simp only
    split_ifs
    · rfl
    · exact fn
  · intro hno
    simp only [hnil.2 hno, if_true]
  · rintro ⟨v, hv1, hv2⟩
    have hne : ¬ g.versionClause c.Name (some vc) = [] := by
      intro h
      have := hnil.1 h v hv1
      rw [hv2] at this
      cases this
    simp only [hne, if_false]
    exact ⟨a1, a2⟩

/-- C14 at the example encoder and the constraint `>= 1.2.13` on `sys-libs/zlib`. -/
theorem AddConstraint_version_witness :
    (exampleEncoder.AddConstraint MapOrder.insertion
      { Kind := ConstraintTypeVersion, Name := "sys-libs/zlib",
        Version := some { Operator := OpGreaterEqual, Version := "1.2.13" } }).2 = none ∧
    exampleEncoder.versionClause "sys-libs/zlib"
      (some { Operator := OpGreaterEqual, Version := "1.2.13" }) = [2] :=
  ⟨(AddConstraint_version exampleEncoder
      (GophersatAdapter.Reachable.addExactlyOne _ _ _
        (GophersatAdapter.Reachable.addPackage _ _
          (GophersatAdapter.Reachable.addPackage _ _ GophersatAdapter.Reachable.new)))
      MapOrder.insertion
      { Kind := ConstraintTypeVersion, Name := "sys-libs/zlib",
        Version := some { Operator := OpGreaterEqual, Version := "1.2.13" } }
      { Operator := OpGreaterEqual, Version := "1.2.13" } rfl rfl).1,
    by decide⟩

theorem versionClause_none (g : GophersatAdapter) (name : String) :
    g.versionClause name none = (g.GetPackageVersions name).map fun v => g.varOf name v := by
  unfold GophersatAdapter.versionClause
  congr 1
  apply List.filter_eq_self.2
  intro v _
  rfl

/-- C15: in a reachable encoder state, `AddConstraint` of a version constraint on `N` with a
null version constraint hands to `addClause` the clause of the positive ids of all the
registered versions of `N`, in registration order, and returns no error, when `N` has a
registered version; otherwise it returns the error "not found in repository" for `N` and
leaves the variable table and the clause list unchanged. -/
theorem AddConstraint_simple (g : GophersatAdapter) (hr : g.Reachable) (o : MapOrder)
    (c : Constraint) (hk : c.Kind = ConstraintTypeVersion) (hv : c.Version = none) :
    (g.GetPackageVersions c.Name ≠ [] →
      (g.AddConstraint o c).2 = none ∧
      (g.AddConstraint o c).1 =
        g.addClause ((g.GetPackageVersions c.Name).map fun v => g.varOf c.Name v) ∧
      (∀ v ∈ g.GetPackageVersions c.Name,
        mapGet g.vars (c.Name ++ "@" ++ v) = some (g.varOf c.Name v) ∧
        0 < g.varOf c.Name v) ∧
      (∃ c' ∈ (g.AddConstraint o c).1.clauses,
        c'.Perm ((g.GetPackageVersions c.Name).map fun v => g.varOf c.Name v)) ∧
      (g.AddConstraint o c).1.vars = g.vars) ∧
    (g.GetPackageVersions c.Name = [] →
      (g.AddConstraint o c).2 = some (Error.notFoundInRepository c.Name) ∧
      (g.AddConstraint o c).1.vars = g.vars ∧
      (g.AddConstraint o c).1.clauses = g.clauses) := by
  have hg := Reachable_wf g hr
  have heq : g.AddConstraint o c =
      if g.GetPackageVersions c.Name = [] then (g, some (Error.notFoundInRepository c.Name))
      else (g.addClause ((g.GetPackageVersions c.Name).map fun v => g.varOf c.Name v),
        none) := by
    rw [← versionClause_none, ← addSimpleConstraint_eq g hg c.Name]
    simp [GophersatAdapter.AddConstraint, GophersatAdapter.addVersionConstraint, hk, hv]
  rw [heq]
  constructor
  · intro hne
    rw [if_neg hne]
    refine ⟨rfl, rfl, ?_,
      (addClause_clauses g hg _).2.2, (addClause_fields g _).1⟩
    intro v hvm
    have hmem : g.varOf c.Name v ∈ g.versionClause c.Name none := by
      rw [versionClause_none]
      exact List.mem_map.2 ⟨v, hvm, rfl⟩
    obtain ⟨w, _, _, _, hpos⟩ := versionClause_lits g hg c.Name none _ hmem
    refine ⟨?_, hpos⟩
    unfold GophersatAdapter.varOf at hpos ⊢
    cases hm : mapGet g.vars (c.Name ++ "@" ++ v) with
    | none => rw [hm] at hpos; simp at hpos
    | some id => simp
  · intro he
    rw [if_pos he]
    exact ⟨rfl, rfl, rfl⟩

/-- C15 at the example encoder: the null constraint on `sys-libs/zlib` returns no error. -/
theorem AddConstraint_simple_witness :
    (exampleEncoder.AddConstraint MapOrder.insertion
      { Kind := ConstraintTypeVersion, Name := "sys-libs/zlib", Version := none }).2 = none ∧
    exampleEncoder.GetPackageVersions "sys-libs/zlib" = ["1.2.11", "1.2.13"] :=
  ⟨((AddConstraint_simple exampleEncoder
      (GophersatAdapter.Reachable.addExactlyOne _ _ _
        (GophersatAdapter.Reachable.addPackage _ _
          (GophersatAdapter.Reachable.addPackage _ _ GophersatAdapter.Reachable.new)))
      MapOrder.insertion
      { Kind := ConstraintTypeVersion, Name := "sys-libs/zlib", Version := none }
      rfl rfl).1 (by decide)).1, by decide⟩

theorem slotProviders_key (g : GophersatAdapter) (hg : g.Wf) (slot : String) :
    ∀ p ∈ g.slotProviders slot,
      ∃ l, mapGet g.vars (p.Name ++ "@" ++ p.Version) = some l := by
  intro p hp
  simp only [GophersatAdapter.slotProviders, List.mem_flatMap, List.mem_filter] at hp
  obtain ⟨e, he, hpe, _⟩ := hp
  have hsome := (hg.pkgs e he p hpe).2
  cases hm : mapGet g.vars (p.Name ++ "@" ++ p.Version) with
  | none => rw [hm] at hsome; cases hsome
  | some l => exact ⟨l, rfl⟩

/-- C16: in a reachable encoder state, `AddConstraint` of a slot constraint with slot name
`S` returns no error and hands to `addClause` one non-empty clause whose literals are
exactly the positive ids of the registered packages with `Slot.Name = S`, when such a
package exists; otherwise it returns the error "no provider" for `S` and leaves the
encoder state unchanged. -/
theorem AddConstraint_slot (g : GophersatAdapter) (hr : g.Reachable) (o : MapOrder)
    (ho : o.Valid) (c : Constraint) (hk : c.Kind = ConstraintTypeSlot) :
    (g.slotProviders c.Slot ≠ [] →
      (g.AddConstraint o c).2 = none ∧
      ∃ clause, (g.AddConstraint o c).1 = g.addClause clause ∧ clause ≠ [] ∧
        (∀ l, l ∈ clause ↔
          ∃ p ∈ g.slotProviders c.Slot,
            mapGet g.vars (p.Name ++ "@" ++ p.Version) = some l) ∧
        (∀ l ∈ clause, 0 < l) ∧
        (∃ c' ∈ (g.AddConstraint o c).1.clauses, c'.Perm clause) ∧
        (g.AddConstraint o c).1.vars = g.vars) ∧
    (g.slotProviders c.Slot = [] →
      (g.AddConstraint o c).2 = some (Error.noProvider c.Slot) ∧
      (g.AddConstraint o c).1 = g) := by
  have hg := Reachable_wf g hr
  have heq : g.AddConstraint o c = g.addSlotConstraint o c := by
    have h1 : ¬ c.Kind = ConstraintTypeVersion := by rw [hk]; decide
    unfold GophersatAdapter.AddConstraint
    rw [if_neg h1, if_pos hk]
  rw [heq]
  unfold GophersatAdapter.addSlotConstraint
  simp only
  have hmem := slotVars_mem g o ho hg c.Slot
  constructor
  · intro hne
    obtain ⟨p, hp⟩ := List.exists_mem_of_ne_nil _ hne
    obtain ⟨l, hl⟩ := slotProviders_key g hg c.Slot p hp
    have hin := (hmem l).2 ⟨p, hp, hl⟩
    have hlen : ¬ (((o.visit 3 g.packages).flatMap fun entry =>
        (entry.2.filter fun p => p.Slot.Name = c.Slot).map fun p =>
          (mapGet g.vars (p.Name ++ "@" ++ p.Version)).getD 0).length = 0) := by
      intro h0
      rw [List.length_eq_zero] at h0
      rw [h0] at hin
      cases hin
    rw [if_neg hlen]
    refine ⟨rfl, _, rfl, ?_, hmem, ?_, (addClause_clauses g hg _).2.2,
      (addClause_fields g _).1⟩
    · intro h0
      rw [h0] at hin
      cases hin
    · intro l2 hl2
      obtain ⟨q, _, hq⟩ := (hmem l2).1 hl2
      have := (Wf_id_range g hg _ _ hq).1
      omega
  · intro he
    have hlen : ((o.visit 3 g.packages).flatMap fun entry =>
        (entry.2.filter fun p => p.Slot.Name = c.Slot).map fun p =>
          (mapGet g.vars (p.Name ++ "@" ++ p.Version)).getD 0).length = 0 := by
      rw [List.length_eq_zero]
      apply List.eq_nil_iff_forall_not_mem.2
      intro l hl
      obtain ⟨q, hq, _⟩ := (hmem l).1 hl
      rw [he] at hq
      cases hq
    rw [if_pos hlen]
    exact ⟨rfl, rfl⟩

/-- C16 at the example encoder: both registered packages have slot 0, and the slot
constraint on slot 0 returns no error. -/
theorem AddConstraint_slot_witness :
    (exampleEncoder.AddConstraint MapOrder.insertion
      { Kind := ConstraintTypeSlot, Name := "", Slot := "0" }).2 = none ∧
    (exampleEncoder.slotProviders "0").length = 2 :=
  ⟨((AddConstraint_slot exampleEncoder
      (GophersatAdapter.Reachable.addExactlyOne _ _ _
        (GophersatAdapter.Reachable.addPackage _ _
          (GophersatAdapter.Reachable.addPackage _ _ GophersatAdapter.Reachable.new)))
      MapOrder.insertion MapOrder.insertion_valid
      { Kind := ConstraintTypeSlot, Name := "", Slot := "0" } rfl).1 (by decide)).1, by decide⟩

/-! ## Invariants of the reachable encoder states (C19, C20) -/

/-- C19: in every encoder state reachable from `NewGophersatAdapter` by `AddPackage`,
`AddConstraint` and `AddExactlyOneConstraint`, every literal of every stored clause is
nonzero and its absolute value is the id of a key of the variable table. -/
theorem Reachable_literals (g : GophersatAdapter) (hr : g.Reachable) :
    ∀ c ∈ g.clauses, ∀ l ∈ c,
      l ≠ 0 ∧ ∃ key, mapGet g.vars key = some (l.natAbs : Int) :=
  (Reachable_wf g hr).lits

/-- C19 at the example encoder, whose second clause holds the negative literals -1, -2. -/
theorem Reachable_literals_witness :
    exampleEncoder.clauses = [[1, 2], [-1, -2]] ∧
    ((-2 : Int) ≠ 0 ∧
      ∃ key, mapGet exampleEncoder.vars key = some (((-2 : Int).natAbs : Nat) : Int)) :=
  ⟨by decide, Reachable_literals exampleEncoder
      (GophersatAdapter.Reachable.addExactlyOne _ _ _
        (GophersatAdapter.Reachable.addPackage _ _
          (GophersatAdapter.Reachable.addPackage _ _ GophersatAdapter.Reachable.new)))
      [-1, -2] (by decide) (-2) (by decide)⟩

/-- C20: in every reachable encoder state the maps `vars` and `varNames` are mutually
inverse, no key occurs twice, and the allocated ids are exactly 1, ..., n for n the number
of keys. -/
theorem Reachable_table (g : GophersatAdapter) (hr : g.Reachable) :
    (∀ key id, mapGet g.vars key = some id ↔ mapGet g.varNames id = some key) ∧
    (g.vars.map Prod.fst).Nodup ∧ (g.varNames.map Prod.fst).Nodup ∧
    g.varNames.length = g.vars.length ∧
    (∀ id : Int, (∃ key, mapGet g.vars key = some id) ↔
      1 ≤ id ∧ id ≤ (g.vars.length : Int)) := by
  have hg := Reachable_wf g hr
  have hids : (g.vars.map Prod.snd).Nodup := by
    rw [hg.idsRange]
    exact ids_nodup _
  have hnk : (g.varNames.map Prod.fst).Nodup := by
    rw [hg.names, List.map_map]
    exact hids
  refine ⟨?_, hg.keysNodup, hnk, ?_, ?_⟩
  · intro key id
    rw [mapGet_iff_mem _ _ _ hg.keysNodup, mapGet_iff_mem _ _ _ hnk, hg.names, List.mem_map]
    constructor
    · intro h
      exact ⟨(key, id), h, rfl⟩
    · rintro ⟨⟨k2, i2⟩, h, he⟩
      simp only [Prod.mk.injEq] at he
      rw [← he.1, ← he.2]
      exact h
  · rw [hg.names, List.length_map]
  · intro id
    constructor
    · rintro ⟨key, h⟩
      exact Wf_id_range g hg key id h
    · intro h
      have hmem : id ∈ g.vars.map Prod.snd := by
        rw [hg.idsRange]
        exact (mem_ids_iff _ _).2 h
      obtain ⟨⟨k, i⟩, hki, rfl⟩ := List.mem_map.1 hmem
      exact ⟨k, (mapGet_iff_mem _ _ _ hg.keysNodup).2 hki⟩

/-- C20 at the example encoder: the key of id 2 is `sys-libs/zlib@1.2.13`, both ways. -/
theorem Reachable_table_witness :
    (mapGet exampleEncoder.vars "sys-libs/zlib@1.2.13" = some 2 ↔
      mapGet exampleEncoder.varNames 2 = some "sys-libs/zlib@1.2.13") ∧
    mapGet exampleEncoder.vars "sys-libs/zlib@1.2.13" = some 2 ∧
    exampleEncoder.vars.length = 2 :=
  ⟨(Reachable_table exampleEncoder
      (GophersatAdapter.Reachable.addExactlyOne _ _ _
        (GophersatAdapter.Reachable.addPackage _ _
          (GophersatAdapter.Reachable.addPackage _ _ GophersatAdapter.Reachable.new)))).1
      "sys-libs/zlib@1.2.13" 2, by decide, by decide⟩

/-! ## Slot conflicts between packages (C27) -/

/-- C27: `p.ConflictsWith(q)` is true iff the names differ, the slot names are equal and the
subslots differ; the relation is symmetric and no package conflicts with itself. -/
theorem ConflictsWith_iff :
    (∀ p q : Package, p.ConflictsWith q = true ↔
      (p.Name ≠ q.Name ∧ p.Slot.Name = q.Slot.Name ∧ p.Slot.Subslot ≠ q.Slot.Subslot)) ∧
    (∀ p q : Package, p.ConflictsWith q = q.ConflictsWith p) ∧
    ∀ p : Package, p.ConflictsWith p = false := by
  have h1 : ∀ p q : Package, p.ConflictsWith q = true ↔
      (p.Name ≠ q.Name ∧ p.Slot.Name = q.Slot.Name ∧ p.Slot.Subslot ≠ q.Slot.Subslot) := by
    intro p q
    unfold Package.ConflictsWith
    by_cases hn : p.Name = q.Name
    · simp [hn]
    · simp [hn]
  refine ⟨h1, ?_, ?_⟩
  · intro p q
    rw [Bool.eq_iff_iff, h1, h1]
    constructor
    · rintro ⟨a, b, c⟩
      exact ⟨fun e => a e.symm, b.symm, fun e => c e.symm⟩
    · rintro ⟨a, b, c⟩
      exact ⟨fun e => a e.symm, b.symm, fun e => c e.symm⟩
  · intro p
    simp [Package.ConflictsWith]

/-! ## Frame of `getVarID` (C21) -/

/-- C21: when the key is in the table, `getVarID` returns its id and changes nothing; when
it is not, `getVarID` returns `len(vars) + 1`, appends the entry of the key with that id to
`vars`, stores the key under that id in `varNames` and changes nothing else; in both cases
the id of every other key is unchanged, and a second call returns the same id and changes
nothing. -/
theorem getVarID_frame (g : GophersatAdapter) (key : String) :
    (∀ id, mapGet g.vars key = some id → g.getVarID key = (g, id)) ∧
    (mapGet g.vars key = none →
      (g.getVarID key).2 = (g.vars.length : Int) + 1 ∧
      (g.getVarID key).1.vars = g.vars ++ [(key, (g.vars.length : Int) + 1)] ∧
      mapGet (g.getVarID key).1.varNames ((g.vars.length : Int) + 1) = some key ∧
      (∀ id, id ≠ (g.vars.length : Int) + 1 →
        mapGet (g.getVarID key).1.varNames id = mapGet g.varNames id) ∧
      (g.getVarID key).1.clauses = g.clauses ∧
      (g.getVarID key).1.packages = g.packages ∧
      (g.getVarID key).1.addedClauses = g.addedClauses) ∧
    (∀ k, k ≠ key → mapGet (g.getVarID key).1.vars k = mapGet g.vars k) ∧
    (g.getVarID key).1.getVarID key = ((g.getVarID key).1, (g.getVarID key).2) := by
  refine ⟨?_, ?_, ?_, ?_⟩
  · intro id h
    simp [GophersatAdapter.getVarID, h]
  · intro h
    have e : g.getVarID key =
        ({ g with vars := mapSet g.vars key ((g.vars.length : Int) + 1),
                  varNames := mapSet g.varNames ((g.vars.length : Int) + 1) key },
          (g.vars.length : Int) + 1) := by
      simp [GophersatAdapter.getVarID, h]
    rw [e]
    refine ⟨rfl, mapSet_of_none _ _ _ h, mapGet_mapSet_self _ _ _, ?_, rfl, rfl, rfl⟩
    intro id hid
    exact mapGet_mapSet_ne _ _ _ _ hid
  · intro k hk
    unfold GophersatAdapter.getVarID
    cases h : mapGet g.vars key with
    | none => simp [mapGet_mapSet_ne _ _ _ _ hk]
    | some id => simp
  · have h := getVarID_spec g key
    generalize g.getVarID key = r at h ⊢
    obtain ⟨g2, id⟩ := r
    simp only at h
    simp [GophersatAdapter.getVarID, h]

/-! ## Registering a version twice (C23) -/

/-- C23: when a version `p.Version` is already registered under the name `p.Name`,
`AddPackage p` leaves the whole encoder state unchanged; after `AddPackage p` that version is
registered, so a second `AddPackage p` changes nothing. -/
theorem AddPackage_again (g : GophersatAdapter) (p : Package) :
    (g.Registered p.Name p.Version → g.AddPackage p = g) ∧
    (g.AddPackage p).Registered p.Name p.Version ∧
    (g.AddPackage p).AddPackage p = g.AddPackage p := by
  have h1 : ∀ g : GophersatAdapter, g.Registered p.Name p.Version → g.AddPackage p = g := by
    intro g hr
    obtain ⟨l, hl, q, hq, hv⟩ := hr
    have hany : l.any (fun q => decide (q.Version = p.Version)) = true :=
      List.any_eq_true.2 ⟨q, hq, by simp [hv]⟩
    simp [GophersatAdapter.AddPackage, hl, hany]
  have h2 : (g.AddPackage p).Registered p.Name p.Version := by
    unfold GophersatAdapter.AddPackage
    cases hm : mapGet g.packages p.Name with
    | none =>
      simp only [mapGet_mapSet_self, Option.getD_some, List.any_nil, Bool.false_eq_true,
        if_false, List.nil_append]
      refine ⟨[p], ?_, p, List.mem_singleton.2 rfl, rfl⟩
      rw [(getVarID_fields _ _).2.1]
      exact mapGet_mapSet_self _ _ _
    | some l =>
      simp only
      by_cases hany : l.any (fun q => decide (q.Version = p.Version)) = true
      · simp only [hm, Option.getD_some, hany, if_true]
        obtain ⟨q, hq, hv⟩ := List.any_eq_true.1 hany
        exact ⟨l, hm, q, hq, by simpa using hv⟩
      · simp only [hm, Option.getD_some, hany, Bool.false_eq_true, if_false]
        refine ⟨l ++ [p], ?_, p, List.mem_append_right _ (List.mem_singleton.2 rfl), rfl⟩
        rw [(getVarID_fields _ _).2.1]
        exact mapGet_mapSet_self _ _ _
  exact ⟨h1 g, h2, h1 _ h2⟩

/-! ## De-duplication of clauses (C22) -/

theorem Dedup_congr (g g2 : GophersatAdapter) (hg : g.Dedup) (h1 : g2.clauses = g.clauses)
    (h2 : g2.addedClauses = g.addedClauses) : g2.Dedup :=
  ⟨by rw [h1]; exact hg.pairwise, by rw [h1, h2]; exact hg.added⟩

theorem addClause_dedup (g : GophersatAdapter) (hg : g.Dedup) (clause : List Int) :
    (g.addClause clause).Dedup := by
  unfold GophersatAdapter.addClause
  simp only
  by_cases h : clause.insertionSort (· ≤ ·) ∈ g.addedClauses
  · rw [if_pos h]
    exact hg
  · rw [if_neg h]
    constructor
    · simp only
      rw [List.pairwise_append]
      refine ⟨hg.pairwise, List.pairwise_singleton _ _, ?_⟩
      intro a ha b hb hp
      rw [List.mem_singleton.1 hb] at hp
      exact h ((hg.added _).2 ⟨a, ha, (sort_eq_iff_perm a clause).2 hp⟩)
    · intro k
      simp only [List.mem_append, List.mem_singleton]
      constructor
      · rintro (hk | hk)
        · obtain ⟨c, hc, hs⟩ := (hg.added k).1 hk
          exact ⟨c, Or.inl hc, hs⟩
        · exact ⟨clause, Or.inr rfl, hk.symm⟩
      · rintro ⟨c, hc | hc, hs⟩
        · exact Or.inl ((hg.added k).2 ⟨c, hc, hs⟩)
        · rw [hc] at hs
          exact Or.inr hs.symm

theorem addClause_sorted_mem (g : GophersatAdapter) (clause : List Int) :
    clause.insertionSort (· ≤ ·) ∈ (g.addClause clause).addedClauses := by
  unfold GophersatAdapter.addClause
  simp only
  by_cases h : clause.insertionSort (· ≤ ·) ∈ g.addedClauses
  · rw [if_pos h]
    exact h
  · rw [if_neg h]
    exact List.mem_append_right _ (List.mem_singleton.2 rfl)

theorem getVarID_dedup (g : GophersatAdapter) (hg : g.Dedup) (key : String) :
    (g.getVarID key).1.Dedup :=
  Dedup_congr g _ hg (getVarID_fields g key).1 (getVarID_fields g key).2.2

theorem collectVarIDs_dedup (keep : Package → Bool) (l : List Package) (g : GophersatAdapter)
    (vs : List Int) (hg : g.Dedup) : (collectVarIDs keep l (g, vs)).1.Dedup := by
  induction l generalizing g vs with
  | nil => exact hg
  | cons p rest ih =>
    simp only [collectVarIDs]
    split_ifs
    · exact ih _ _ (getVarID_dedup g hg _)
    · exact ih _ _ hg

theorem AddPackage_dedup (g : GophersatAdapter) (hg : g.Dedup) (p : Package) :
    (g.AddPackage p).Dedup := by
  unfold GophersatAdapter.AddPackage
  simp only
  split_ifs
  · split
    · exact hg
    · exact Dedup_congr g _ hg rfl rfl
  · apply getVarID_dedup
    split
    · exact Dedup_congr g _ hg rfl rfl
    · exact Dedup_congr g _ hg rfl rfl

theorem AddConstraint_dedup (g : GophersatAdapter) (hg : g.Dedup) (o : MapOrder)
    (c : Constraint) : (g.AddConstraint o c).1.Dedup := by
  unfold GophersatAdapter.AddConstraint
  split_ifs
  · unfold GophersatAdapter.addVersionConstraint
    split
    · unfold GophersatAdapter.addSimpleConstraint
      split
      · exact addClause_dedup _ (collectVarIDs_dedup _ _ _ _ hg) _
      · exact hg
    · simp only
      split_ifs
      · exact collectVarIDs_dedup _ _ _ _ hg
      · exact addClause_dedup _ (collectVarIDs_dedup _ _ _ _ hg) _
  · unfold GophersatAdapter.addSlotConstraint
    simp only
    split_ifs
    · exact hg
    · exact addClause_dedup _ hg _
  · unfold GophersatAdapter.addUseFlagConstraint
    split_ifs
    · exact addClause_dedup _ (getVarID_dedup g hg _) _
    · exact hg
  · exact hg

theorem foldl_addClause_dedup (cs : List (List Int)) (g : GophersatAdapter) (hg : g.Dedup) :
    (cs.foldl (fun acc clause => acc.addClause clause) g).Dedup := by
  induction cs generalizing g with
  | nil => exact hg
  | cons c rest ih => exact ih _ (addClause_dedup g hg c)

theorem AddExactlyOneConstraint_dedup (g : GophersatAdapter) (hg : g.Dedup)
    (pkgName : String) (versions : List String) :
    (g.AddExactlyOneConstraint pkgName versions).Dedup := by
  unfold GophersatAdapter.AddExactlyOneConstraint
  simp only
  split
  · exact hg
  · exact addClause_dedup g hg _
  · exact foldl_addClause_dedup _ g hg

theorem Reachable_dedup (g : GophersatAdapter) (h : g.Reachable) : g.Dedup := by
  induction h with
  | new => exact ⟨List.Pairwise.nil, fun k => by simp [NewGophersatAdapter]⟩
  | addPackage g p _ ih => exact AddPackage_dedup g ih p
  | addConstraint g o c _ _ ih => exact AddConstraint_dedup g ih o c
  | addExactlyOne g n vs _ ih => exact AddExactlyOneConstraint_dedup g ih n vs

/-- C22: in a reachable encoder state, after `addClause c` a call of `addClause` on any
permutation of `c` (also on `c` itself) leaves the encoder state, and so its clause list,
unchanged; and no two stored clauses are permutations of one another. -/
theorem addClause_permutation (g : GophersatAdapter) (hr : g.Reachable) :
    (∀ c c2 : List Int, c2.Perm c →
      (g.addClause c).addClause c2 = g.addClause c ∧
      ((g.addClause c).addClause c2).clauses = (g.addClause c).clauses) ∧
    (g.clauses.Pairwise fun a b => ¬ a.Perm b) ∧
    ∀ c : List Int, (g.addClause c).clauses.Pairwise fun a b => ¬ a.Perm b := by
  refine ⟨?_, (Reachable_dedup g hr).pairwise,
    fun c => (addClause_dedup g (Reachable_dedup g hr) c).pairwise⟩
  intro c c2 hp
  have hmem := addClause_sorted_mem g c
  rw [← (sort_eq_iff_perm c2 c).2 hp] at hmem
  have h : (g.addClause c).addClause c2 = g.addClause c := by
    generalize g.addClause c = g2 at hmem
    unfold GophersatAdapter.addClause
    simp only
    rw [if_pos hmem]
  exact ⟨h, by rw [h]⟩

/-- C22 at the example encoder: adding the permutation `[2, 1]` after `[1, 2]` changes
nothing, and the two stored clauses are not permutations of one another. -/
theorem addClause_permutation_witness :
    (exampleEncoder.addClause [1, 2]).addClause [2, 1] = exampleEncoder.addClause [1, 2] ∧
    (exampleEncoder.clauses.Pairwise fun a b => ¬ a.Perm b) ∧
    exampleEncoder.clauses = [[1, 2], [-1, -2]] :=
  ⟨((addClause_permutation exampleEncoder
      (GophersatAdapter.Reachable.addExactlyOne _ _ _
        (GophersatAdapter.Reachable.addPackage _ _
          (GophersatAdapter.Reachable.addPackage _ _ GophersatAdapter.Reachable.new)))).1
      [1, 2] [2, 1] (List.Perm.swap (1 : Int) 2 [])).1,
    (addClause_permutation exampleEncoder
      (GophersatAdapter.Reachable.addExactlyOne _ _ _
        (GophersatAdapter.Reachable.addPackage _ _
          (GophersatAdapter.Reachable.addPackage _ _ GophersatAdapter.Reachable.new)))).2.1,
    by decide⟩

/-! ## Decoding the model (C24, C25) -/

theorem splitChars_ne_nil (sep : Char) (cs : List Char) : splitChars sep cs ≠ [] := by
  cases cs with
  | nil => simp [splitChars]
  | cons c rest =>
    simp only [splitChars]
    split_ifs
    · simp
    · split <;> simp

theorem splitChars_single (sep : Char) (cs b : List Char) (h : splitChars sep cs = [b]) :
    cs = b ∧ sep ∉ b := by
  induction cs generalizing b with
  | nil =>
    simp only [splitChars, List.cons.injEq, and_true] at h
    subst h
    exact ⟨rfl, List.not_mem_nil _⟩
  | cons c rest ih =>
    simp only [splitChars] at h
    by_cases hc : c = sep
    · rw [if_pos hc] at h
      simp only [List.cons.injEq] at h
      exact absurd h.2 (splitChars_ne_nil sep rest)
    · rw [if_neg hc] at h
      cases hs : splitChars sep rest with
      | nil => exact absurd hs (splitChars_ne_nil sep rest)
      | cons p ps =>
        rw [hs] at h
        simp only [List.cons.injEq] at h
        obtain ⟨h1, h2⟩ := h
        subst h2
        subst h1
        obtain ⟨i1, i2⟩ := ih p hs
        refine ⟨by rw [i1], ?_⟩
        intro hm
        rcases List.mem_cons.1 hm with e | e
        · exact hc e.symm
        · exact i2 e

theorem splitChars_two (sep : Char) (cs a b : List Char) (h : splitChars sep cs = [a, b]) :
    cs = a ++ sep :: b ∧ sep ∉ a ∧ sep ∉ b := by
  induction cs generalizing a with
  | nil => simp [splitChars] at h
  | cons c rest ih =>
    simp only [splitChars] at h
    by_cases hc : c = sep
    · rw [if_pos hc] at h
      simp only [List.cons.injEq] at h
      obtain ⟨h1, h2⟩ := h
      subst h1
      obtain ⟨i1, i2⟩ := splitChars_single sep rest b h2
      exact ⟨by rw [hc, i1]; rfl, List.not_mem_nil _, i2⟩
    · rw [if_neg hc] at h
      cases hs : splitChars sep rest with
      | nil => exact absurd hs (splitChars_ne_nil sep rest)
      | cons p ps =>
        rw [hs] at h
        simp only [List.cons.injEq] at h
        obtain ⟨h1, h2⟩ := h
        subst h2
        subst h1
        obtain ⟨i1, i2, i3⟩ := ih p hs
        refine ⟨by rw [i1]; rfl, ?_, i3⟩
        intro hm
        rcases List.mem_cons.1 hm with e | e
        · exact hc e.symm
        · exact i2 e

theorem Split_two (key n v : String) (h : Split key '@' = [n, v]) :
    key = n ++ "@" ++ v ∧ noAt n ∧ noAt v := by
  unfold Split at h
  cases hs : splitChars '@' key.data with
  | nil => exact absurd hs (splitChars_ne_nil _ _)
  | cons a t =>
    rw [hs] at h
    cases t with
    | nil => simp at h
    | cons b t2 =>
      cases t2 with
      | cons _ _ => simp at h
      | nil =>
        simp only [List.map_cons, List.map_nil, List.cons.injEq, and_true] at h
        obtain ⟨h1, h2⟩ := h
        obtain ⟨i1, i2, i3⟩ := splitChars_two '@' key.data a b hs
        subst h1
        subst h2
        refine ⟨?_, i2, i3⟩
        apply String.ext
        simp [i1]

theorem decode_sound (model : List Bool) (total l : List (String × Int))
    (solution : List (String × String)) (hl : ∀ e ∈ l, e ∈ total)
    (hsol : ∀ n v, mapGet solution n = some v → ∃ id, (n ++ "@" ++ v, id) ∈ total ∧
      id ≤ (model.length : Int) ∧ model.getD (id - 1).toNat false = true) :
    ∀ n v, mapGet (decode model l solution) n = some v → ∃ id, (n ++ "@" ++ v, id) ∈ total ∧
      id ≤ (model.length : Int) ∧ model.getD (id - 1).toNat false = true := by
  induction l generalizing solution with
  | nil => exact hsol
  | cons e rest ih =>
    obtain ⟨key, varID⟩ := e
    have hrest : ∀ e ∈ rest, e ∈ total := fun e he => hl e (List.mem_cons_of_mem _ he)
    simp only [decode]
    split_ifs with htrue
    · split
      · rename_i p0 p1 hsplit
        apply ih _ hrest
        intro n v hnv
        by_cases hn : n = p0
        · subst hn
          rw [mapGet_mapSet_self] at hnv
          simp only [Option.some.injEq] at hnv
          subst hnv
          obtain ⟨hk, _, _⟩ := Split_two key _ _ hsplit
          refine ⟨varID, ?_, htrue⟩
          rw [← hk]
          exact hl _ (List.mem_cons_self _ _)
        · rw [mapGet_mapSet_ne _ _ _ _ hn] at hnv
          exact hsol n v hnv
      · exact ih _ hrest hsol
    · exact ih _ hrest hsol

/-- C24: for every variable table whose ids are at least 1 (the ids that `getVarID` gives;
an id below 1 makes `model[varID-1]` fail), every model and every legal order of visiting
the table: when the engine answers Sat with the model, `Solve` returns the status Sat, no
error and a map in which every entry `name -> version` comes from a table key
`name@version` whose variable is true in the model, and in which the name part of every
table key `name@version` with exactly one `@` (none in `name`, none in `version`) whose
variable is true in the model is present. -/
theorem Solve_decodes (g : GophersatAdapter) (engine : Engine) (o : MapOrder)
    (model : List Bool) (ho : o.Valid) (hid : ∀ e ∈ g.vars, 1 ≤ e.2)
    (hs : engine g.clauses = Answer.Sat model) :
    (g.Solve engine o).1 = Status.StatusSat ∧ (g.Solve engine o).2.2 = none ∧
    (∀ name version, mapGet (g.Solve engine o).2.1 name = some version →
      ∃ id, (name ++ "@" ++ version, id) ∈ g.vars ∧ 1 ≤ id ∧
        id ≤ (model.length : Int) ∧ model.getD (id - 1).toNat false = true) ∧
    (∀ name version id, noAt name → noAt version →
      (name ++ "@" ++ version, id) ∈ g.vars →
      id ≤ (model.length : Int) → model.getD (id - 1).toNat false = true →
      (mapGet (g.Solve engine o).2.1 name).isSome = true) := by
  have hsolve : g.Solve engine o =
      (Status.StatusSat, decode model (o.visit 4 g.vars) [], none) := by
    simp [GophersatAdapter.Solve, hs]
  rw [hsolve]
  refine ⟨rfl, rfl, ?_, ?_⟩
  · intro name version hnv
    obtain ⟨id, hmem, htrue⟩ := decode_sound model g.vars (o.visit 4 g.vars) []
      (fun e he => (ho 4 _ g.vars).mem_iff.1 he) (fun n v h => by simp [mapGet] at h)
      name version hnv
    exact ⟨id, hmem, hid _ hmem, htrue⟩
  · intro name version id hn hv hmem hle htrue
    exact decode_adds model _ [] _ name version id ((ho 4 _ g.vars).mem_iff.2 hmem)
      ⟨hle, htrue⟩ (Split_key name version hn hv)

/-- C24 at the example encoder with the reference engine: the ids of the table are 1 and 2,
the model sets only the variable of version 1.2.11, and the decoded map is the single entry
of that version. -/
theorem Solve_decodes_witness :
    (exampleEncoder.Solve exhaustive MapOrder.insertion).1 = Status.StatusSat ∧
    exampleEncoder.vars.map Prod.snd = [1, 2] ∧
    exhaustive exampleEncoder.clauses = Answer.Sat [true, false] ∧
    (exampleEncoder.Solve exhaustive MapOrder.insertion).2.1 =
      [("sys-libs/zlib", "1.2.11")] :=
  ⟨(Solve_decodes exampleEncoder exhaustive MapOrder.insertion [true, false]
      MapOrder.insertion_valid (by decide) (by decide)).1, by decide, by decide, by decide⟩

theorem decode_noAt (model : List Bool) (l : List (String × Int))
    (solution : List (String × String)) (h : ∀ e ∈ l, noAt e.1) :
    decode model l solution = solution := by
  induction l generalizing solution with
  | nil => rfl
  | cons e rest ih =>
    obtain ⟨key, varID⟩ := e
    have hrest : ∀ e ∈ rest, noAt e.1 := fun e he => h e (List.mem_cons_of_mem _ he)
    have hkey : Split key '@' = [key] := by
      unfold Split
      rw [splitChars_noSep '@' _ (h (key, varID) (List.mem_cons_self _ _))]
      rfl
    simp only [decode, hkey]
    split_ifs
    · exact ih _ hrest
    · exact ih _ hrest

theorem getVarID_keys (g : GophersatAdapter) (key : String) :
    ∀ e ∈ (g.getVarID key).1.vars, e ∈ g.vars ∨ e.1 = key := by
  intro e he
  unfold GophersatAdapter.getVarID at he
  cases h : mapGet g.vars key with
  | some id =>
    rw [h] at he
    exact Or.inl he
  | none =>
    rw [h] at he
    simp only [mapSet_of_none _ _ _ h, List.mem_append, List.mem_singleton] at he
    rcases he with he | he
    · exact Or.inl he
    · exact Or.inr (by rw [he])

theorem useFlag_keys (o : MapOrder) (cs : List Constraint) (g : GophersatAdapter)
    (hcs : ∀ c ∈ cs, c.Kind = ConstraintTypeUseFlag ∧ noAt c.Flag)
    (hg : ∀ e ∈ g.vars, noAt e.1) :
    ∀ e ∈ (cs.foldl (fun g c => (g.AddConstraint o c).1) g).vars, noAt e.1 := by
  induction cs generalizing g with
  | nil => exact hg
  | cons c rest ih =>
    simp only [List.foldl_cons]
    apply ih _ (fun c2 h2 => hcs c2 (List.mem_cons_of_mem _ h2))
    obtain ⟨hk, hf⟩ := hcs c (List.mem_cons_self _ _)
    have h1 : ¬ c.Kind = ConstraintTypeVersion := by rw [hk]; decide
    have h2 : ¬ c.Kind = ConstraintTypeSlot := by rw [hk]; decide
    unfold GophersatAdapter.AddConstraint
    rw [if_neg h1, if_neg h2, if_pos hk]
    unfold GophersatAdapter.addUseFlagConstraint
    split_ifs
    · simp only
      rw [(addClause_fields _ _).1]
      intro e he
      rcases getVarID_keys g _ e he with h | h
      · exact hg e h
      · rw [h]
        intro hat
        have hd : ("USE_" ++ c.Flag).data = 'U' :: 'S' :: 'E' :: '_' :: c.Flag.data := by
          simp
        rw [hd] at hat
        simp only [List.mem_cons] at hat
        rcases hat with h | h | h | h | h
        · exact absurd h (by decide)
        · exact absurd h (by decide)
        · exact absurd h (by decide)
        · exact absurd h (by decide)
        · exact hf h
    · exact hg

/-- C25: a required USE flag `a@b` alone makes `Solve` return the entry `USE_a -> b`, so the
variable of a flag with one `@` is not projected out; when no flag contains `@`, the map
decoded by `Solve` in a state built from USE-flag constraints only is empty, for every
engine and every legal order of visiting the table. -/
theorem Solve_useFlag_projection :
    ((NewGophersatAdapter.AddConstraint MapOrder.insertion
        { Kind := ConstraintTypeUseFlag, Name := "", Flag := "a@b", Required := true }).1.Solve
      exhaustive MapOrder.insertion) = (Status.StatusSat, [("USE_a", "b")], none) ∧
    (NewGophersatAdapter.AddConstraint MapOrder.insertion
        { Kind := ConstraintTypeUseFlag, Name := "", Flag := "a@b", Required := true }).1.packages
      = [] ∧
    ∀ (o : MapOrder) (engine : Engine) (cs : List Constraint), o.Valid →
      (∀ c ∈ cs, c.Kind = ConstraintTypeUseFlag ∧ noAt c.Flag) →
      ((cs.foldl (fun g c => (g.AddConstraint o c).1) NewGophersatAdapter).Solve
        engine o).2.1 = [] := by
  refine ⟨by decide, by decide, ?_⟩
  intro o engine cs ho hcs
  have hkeys := useFlag_keys o cs NewGophersatAdapter hcs (fun e he => by cases he)
  unfold GophersatAdapter.Solve
  split
  · simp only
    apply decode_noAt
    intro e he
    exact hkeys e ((ho 4 _ _).mem_iff.1 he)
  · rfl
  · rfl

/-! ## Positive clauses of the states that `Resolve` builds (C28) -/

theorem ResolveReachable_inv (g : GophersatAdapter) (h : g.ResolveReachable) : g.Inv := by
  induction h with
  | new => exact NewGophersatAdapter_inv
  | addPackage g p _ ih => exact (AddPackage_inv g p ih).1
  | addConstraint g o c ho _ ih => exact (AddConstraint_inv g o c ho ih).1

theorem feedDeps_reachable (o : MapOrder) (ho : o.Valid)
    (allPackages : List (String × Package)) (deps : List Constraint) (g : GophersatAdapter)
    (log : List LogEvent) (hg : g.ResolveReachable) :
    (feedDeps o allPackages deps (g, log)).1.ResolveReachable := by
  induction deps generalizing g log with
  | nil => exact hg
  | cons dep rest ih =>
    simp only [feedDeps]
    split
    · exact ih _ _ hg
    · have hstep := GophersatAdapter.ResolveReachable.addConstraint g o dep ho hg
      split
      · rename_i heq
        rw [heq] at hstep
        exact ih _ _ hstep
      · rename_i heq
        rw [heq] at hstep
        exact ih _ _ hstep

theorem feedConstraints_reachable (o : MapOrder) (ho : o.Valid) (packages : List String)
    (allPackages l : List (String × Package)) (g : GophersatAdapter) (log : List LogEvent)
    (hg : g.ResolveReachable) :
    (feedConstraints o packages allPackages l (g, log)).1.ResolveReachable := by
  induction l generalizing g log with
  | nil => exact hg
  | cons x rest ih =>
    obtain ⟨k, p⟩ := x
    simp only [feedConstraints]
    apply ih
    apply feedDeps_reachable o ho
    split_ifs
    · exact GophersatAdapter.ResolveReachable.addConstraint g o _ ho hg
    · exact hg

theorem register_reachable (l : List (String × Package)) (g : GophersatAdapter)
    (hg : g.ResolveReachable) :
    (l.foldl (fun g e => g.AddPackage e.2) g).ResolveReachable := by
  induction l generalizing g with
  | nil => exact hg
  | cons x rest ih =>
    exact ih _ (GophersatAdapter.ResolveReachable.addPackage g x.2 hg)

theorem encode_reachable (o : MapOrder) (ho : o.Valid) (packages : List String)
    (allPackages : List (String × Package)) :
    (encode o packages allPackages).1.ResolveReachable := by
  unfold encode
  exact feedConstraints_reachable o ho packages allPackages _ _ []
    (register_reachable _ _ GophersatAdapter.ResolveReachable.new)

/-- C28: in every encoder state reachable from `NewGophersatAdapter` by `AddPackage` and
`AddConstraint` only, every stored clause is non-empty and holds positive literals only, and
the assignment that sets every variable true satisfies the clauses; the state that
`Resolve` builds is such a state, for every request list and every collected package map,
so its CNF is satisfied by the all-true assignment. -/
theorem ResolveReachable_positive (g : GophersatAdapter) (hr : g.ResolveReachable) :
    (∀ c ∈ g.clauses, c ≠ [] ∧ ∀ l ∈ c, 0 < l) ∧
    satisfies (List.replicate (nbVars g.clauses) true) g.clauses = true ∧
    ∀ (o : MapOrder) (packages : List String) (allPackages : List (String × Package)),
      o.Valid →
      (encode o packages allPackages).1.ResolveReachable ∧
      satisfies (List.replicate (nbVars (encode o packages allPackages).1.clauses) true)
        (encode o packages allPackages).1.clauses = true := by
  have hpos := (ResolveReachable_inv g hr).positive
  refine ⟨hpos, positive_satisfiable _ hpos, ?_⟩
  intro o packages allPackages ho
  have hr2 := encode_reachable o ho packages allPackages
  exact ⟨hr2, positive_satisfiable _ (ResolveReachable_inv _ hr2).positive⟩

/-- C28 at the state that registers `sys-libs/zlib` 1.2.13 and adds the constraint
`>= 1.2.13` on it: the only clause is the unit clause of variable 1. -/
theorem ResolveReachable_positive_witness :
    ((NewGophersatAdapter.AddPackage NewMockRepository.zlib).AddConstraint MapOrder.insertion
      { Kind := ConstraintTypeVersion, Name := "sys-libs/zlib",
        Version := NewVersionConstraint OpGreaterEqual "1.2.13" }).1.clauses = [[1]] ∧
    ∀ c ∈ ((NewGophersatAdapter.AddPackage NewMockRepository.zlib).AddConstraint
        MapOrder.insertion
        { Kind := ConstraintTypeVersion, Name := "sys-libs/zlib",
          Version := NewVersionConstraint OpGreaterEqual "1.2.13" }).1.clauses,
      c ≠ [] ∧ ∀ l ∈ c, 0 < l :=
  ⟨by decide, (ResolveReachable_positive _
    (GophersatAdapter.ResolveReachable.addConstraint _ MapOrder.insertion
      { Kind := ConstraintTypeVersion, Name := "sys-libs/zlib",
        Version := NewVersionConstraint OpGreaterEqual "1.2.13" } MapOrder.insertion_valid
      (GophersatAdapter.ResolveReachable.addPackage _ NewMockRepository.zlib
        GophersatAdapter.ResolveReachable.new))).1⟩

/-! ## Collecting the dependency closure (C26) -/

theorem filter_length_le {α : Type} (l : List α) (p q : α → Bool)
    (h : ∀ x ∈ l, p x = true → q x = true) : (l.filter p).length ≤ (l.filter q).length := by
  rw [← List.countP_eq_length_filter, ← List.countP_eq_length_filter]
  exact List.countP_mono_left h

theorem filter_length_lt {α : Type} (l : List α) (p q : α → Bool)
    (h : ∀ x ∈ l, p x = true → q x = true) (a : α) (ha : a ∈ l) (hq : q a = true)
    (hp : p a = false) : (l.filter p).length < (l.filter q).length := by
  induction l with
  | nil => cases ha
  | cons x rest ih =>
    have hmono := filter_length_le rest p q (fun y hy => h y (List.mem_cons_of_mem _ hy))
    have hx := h x (List.mem_cons_self _ _)
    rcases List.mem_cons.1 ha with e | e
    · subst e
      simp only [List.filter_cons, hp, hq, if_true, Bool.false_eq_true, if_false,
        List.length_cons]
      omega
    · have hr := ih (fun y hy => h y (List.mem_cons_of_mem _ hy)) e
      cases hpx : p x with
      | false =>
        cases hqx : q x with
        | false =>
          simp only [List.filter_cons, hpx, hqx, Bool.false_eq_true, if_false]
          exact hr
        | true =>
          simp only [List.filter_cons, hpx, hqx, Bool.false_eq_true, if_false, if_true,
            List.length_cons]
          omega
      | true =>
        simp only [List.filter_cons, hpx, hx hpx, if_true, List.length_cons]
        omega

theorem unvisited_le (names : List String) (a b : List (String × Package))
    (h : ∀ k p, mapGet a k = some p → mapGet b k = some p) :
    unvisited names b ≤ unvisited names a := by
  apply filter_length_le
  intro x _ hx
  cases ha : mapGet a x with
  | none => rfl
  | some p =>
    rw [h x p ha] at hx
    cases hx

theorem unvisited_lt (names : List String) (all : List (String × Package)) (k : String)
    (p : Package) (hk : k ∈ names) (hnone : mapGet all k = none) :
    unvisited names (mapSet all k p) < unvisited names all := by
  apply filter_length_lt _ _ _ _ k hk
  · rw [hnone]
    rfl
  · rw [mapGet_mapSet_self]
    rfl
  · intro x _ hx
    by_cases hxk : x = k
    · subst hxk
      rw [mapGet_mapSet_self] at hx
      cases hx
    · rw [mapGet_mapSet_ne _ _ _ _ hxk] at hx
      exact hx

theorem unvisited_le_length (names : List String) (all : List (String × Package)) :
    unvisited names all ≤ names.length :=
  List.length_filter_le _ _

theorem mock_finite (m : MockRepository) :
    ∀ n p, m.toRepository.LoadPackage n = Except.ok p → n ∈ m.packages.map Prod.fst := by
  intro n p h
  simp only [MockRepository.toRepository, MockRepository.LoadPackage] at h
  cases hg : mapGet m.packages n with
  | none => rw [hg] at h; cases h
  | some q => exact List.mem_map.2 ⟨(n, q), mapGet_mem _ _ _ hg, rfl⟩

theorem collectDependencies_closure (r : Repository) (names : List String)
    (hfin : ∀ n p, r.LoadPackage n = Except.ok p → n ∈ names)
    (hname : ∀ n p, r.LoadPackage n = Except.ok p → p.Name = n) (fuel : Nat) :
    ∀ (pkg : Package) (all : List (String × Package)),
      r.LoadPackage pkg.Name = Except.ok pkg → unvisited names all < fuel →
      ∃ res, collectDependencies r fuel pkg all = some (res, none) ∧
        (∀ k p, mapGet all k = some p → mapGet res k = some p) ∧
        (mapGet res pkg.Name).isSome = true ∧
        ∀ k, (mapGet res k).isSome = true → mapGet all k = none →
          Relation.ReflTransGen (DepEdge r) pkg.Name k ∧
          ∀ c, DepEdge r k c → (mapGet res c).isSome = true := by
  induction fuel with
  | zero =>
    intro pkg all _ h
    exact absurd h (Nat.not_lt_zero _)
  | succ fuel ih =>
    intro pkg all hpkg hfuel
    simp only [collectDependencies]
    cases hget : mapGet all pkg.Name with
    | some q =>
      refine ⟨all, rfl, fun _ _ h => h, by rw [hget]; rfl, ?_⟩
      intro k hs hn
      rw [hn] at hs
      cases hs
    | none =>
      simp only
      have hloop : ∀ (deps : List Constraint) (a : List (String × Package)),
          unvisited names a < fuel →
          ∃ b, deps.foldl (fun (acc : Option (List (String × Package))) (dep : Constraint) =>
            match acc with
            | none => none
            | some all =>
              match r.LoadPackage dep.Name with
              | Except.error _ => some all
              | Except.ok depPkg =>
                match collectDependencies r fuel depPkg all with
                | none => none
                | some (all', _) => some all') (some a) = some b ∧
            (∀ k p, mapGet a k = some p → mapGet b k = some p) ∧
            (∀ d ∈ deps, ∀ q, r.LoadPackage d.Name = Except.ok q →
              (mapGet b d.Name).isSome = true) ∧
            ∀ k, (mapGet b k).isSome = true → mapGet a k = none →
              (∃ d ∈ deps, ∃ q, r.LoadPackage d.Name = Except.ok q ∧
                Relation.ReflTransGen (DepEdge r) d.Name k) ∧
              ∀ c, DepEdge r k c → (mapGet b c).isSome = true := by
        intro deps
        induction deps with
        | nil =>
          intro a _
          refine ⟨a, rfl, fun _ _ h => h, (fun _ h => by cases h), ?_⟩
          intro k hs hn
          rw [hn] at hs
          cases hs
        | cons dep rest ihd =>
          intro a ha
          simp only [List.foldl_cons]
          cases hld : r.LoadPackage dep.Name with
          | error e =>
            simp only
            obtain ⟨b, hb, m1, m2, m3⟩ := ihd a ha
            refine ⟨b, hb, m1, ?_, ?_⟩
            · intro d hd q hq
              rcases List.mem_cons.1 hd with e1 | e1
              · subst e1
                rw [hld] at hq
                cases hq
              · exact m2 d e1 q hq
            · intro k hs hn
              obtain ⟨⟨d, hd, q, hq, hreach⟩, hsucc⟩ := m3 k hs hn
              exact ⟨⟨d, List.mem_cons_of_mem _ hd, q, hq, hreach⟩, hsucc⟩
          | ok depPkg =>
            simp only
            have hdn : depPkg.Name = dep.Name := hname _ _ hld
            obtain ⟨a2, ha2, n1, n2, n3⟩ := ih depPkg a (by rw [hdn]; exact hld) ha
            rw [ha2]
            simp only
            have ha2lt : unvisited names a2 < fuel :=
              Nat.lt_of_le_of_lt (unvisited_le names a a2 n1) ha
            obtain ⟨b, hb, m1, m2, m3⟩ := ihd a2 ha2lt
            refine ⟨b, hb, fun k p h => m1 k p (n1 k p h), ?_, ?_⟩
            · intro d hd q hq
              rcases List.mem_cons.1 hd with e1 | e1
              · subst e1
                rw [hdn] at n2
                cases hv : mapGet a2 d.Name with
                | none => rw [hv] at n2; cases n2
                | some v => rw [m1 _ _ hv]; rfl
              · exact m2 d e1 q hq
            · intro k hs hn
              cases hk2 : mapGet a2 k with
              | none =>
                obtain ⟨⟨d, hd, q, hq, hreach⟩, hsucc⟩ := m3 k hs hk2
                exact ⟨⟨d, List.mem_cons_of_mem _ hd, q, hq, hreach⟩, hsucc⟩
              | some v =>
                obtain ⟨hreach, hsucc⟩ := n3 k (by rw [hk2]; rfl) hn
                rw [hdn] at hreach
                refine ⟨⟨dep, List.mem_cons_self _ _, depPkg, hld, hreach⟩, ?_⟩
                intro c hc
                have := hsucc c hc
                cases hv : mapGet a2 c with
                | none => rw [hv] at this; cases this
                | some w => rw [m1 _ _ hv]; rfl
      have hin : pkg.Name ∈ names := hfin _ _ hpkg
      have hlt : unvisited names (mapSet all pkg.Name pkg) < fuel := by
        have := unvisited_lt names all pkg.Name pkg hin hget
        omega
      obtain ⟨b, hb, m1, m2, m3⟩ := hloop pkg.Deps _ hlt
      have hroot : mapGet b pkg.Name = some pkg := m1 _ _ (mapGet_mapSet_self _ _ _)
      refine ⟨b, ?_, ?_, by rw [hroot]; rfl, ?_⟩
      · split
        · rename_i heq
          exact absurd (hb.symm.trans heq) (by simp)
        · rename_i b2 heq
          have hbb := hb.symm.trans heq
          simp only [Option.some.injEq] at hbb
          rw [hbb]
      · intro k p hk
        apply m1
        have hkn : k ≠ pkg.Name := by
          rintro rfl
          rw [hget] at hk
          cases hk
        rw [mapGet_mapSet_ne _ _ _ _ hkn]
        exact hk
      · intro k hs hn
        by_cases hkn : k = pkg.Name
        · subst hkn
          refine ⟨Relation.ReflTransGen.refl, ?_⟩
          intro c hc
          obtain ⟨p, d, q, hp, hd, hdc, hq⟩ := hc
          rw [hpkg] at hp
          cases hp
          rw [← hdc]
          rw [← hdc] at hq
          exact m2 d hd q hq
        · have hn1 : mapGet (mapSet all pkg.Name pkg) k = none := by
            rw [mapGet_mapSet_ne _ _ _ _ hkn]
            exact hn
          obtain ⟨⟨d, hd, q, hq, hreach⟩, hsucc⟩ := m3 k hs hn1
          refine ⟨?_, hsucc⟩
          exact Relation.ReflTransGen.head ⟨pkg, d, q, hpkg, hd, rfl, hq⟩ hreach

/-- C26: for a repository with finitely many loadable names, each loading a package of
that name, and a root package loaded from it, `collectDependencies` on the empty map
returns with every recursion bound above the number of names, also on cyclic dependency
graphs; it returns no error and a map whose keys are exactly the names reachable from the
root through dependency edges to loadable names, each key holding the package the
repository loads for it. -/
theorem collectDependencies_reachable (r : Repository) (names : List String)
    (hfin : ∀ n p, r.LoadPackage n = Except.ok p → n ∈ names)
    (hname : ∀ n p, r.LoadPackage n = Except.ok p → p.Name = n)
    (n : String) (root : Package) (hroot : r.LoadPackage n = Except.ok root)
    (fuel : Nat) (hfuel : names.length < fuel) :
    ∃ res, collectDependencies r fuel root [] = some (res, none) ∧
      (∀ k, (mapGet res k).isSome = true ↔
        Relation.ReflTransGen (DepEdge r) root.Name k) ∧
      ∀ k p, mapGet res k = some p → p.Name = k ∧ r.LoadPackage k = Except.ok p := by
  have hrn : root.Name = n := hname _ _ hroot
  have hload : r.LoadPackage root.Name = Except.ok root := by rw [hrn]; exact hroot
  obtain ⟨res, hres, _, h2, h3⟩ := collectDependencies_closure r names hfin hname fuel root []
    hload (Nat.lt_of_le_of_lt (unvisited_le_length names []) hfuel)
  refine ⟨res, hres, ?_, ?_⟩
  · intro k
    constructor
    · intro hs
      exact (h3 k hs rfl).1
    · intro hreach
      induction hreach with
      | refl => exact h2
      | tail _ hedge ihr => exact (h3 _ ihr rfl).2 _ hedge
  · intro k p hk
    obtain ⟨s1, _, _, _⟩ := collectDependencies_spec r hname fuel root [] (res, none)
      (fun _ _ h => by simp [mapGet] at h) hload hres
    exact ⟨hname _ _ (s1 k p hk), s1 k p hk⟩

/-- C26 at the cyclic repository: from `app/a` the collected map holds `app/a` and `app/b`;
the dependency `app/missing` is skipped. -/
theorem collectDependencies_reachable_witness :
    (∃ res, collectDependencies cyclicRepository.toRepository 3
        (((NewPackage "app/a" "1" "0").AddDependency
          { Kind := ConstraintTypeVersion, Name := "app/b" }).AddDependency
          { Kind := ConstraintTypeVersion, Name := "app/missing" }) [] = some (res, none) ∧
      (∀ k, (mapGet res k).isSome = true ↔
        Relation.ReflTransGen (DepEdge cyclicRepository.toRepository) "app/a" k) ∧
      ∀ k p, mapGet res k = some p →
        p.Name = k ∧ cyclicRepository.toRepository.LoadPackage k = Except.ok p) ∧
    (collectDependencies cyclicRepository.toRepository 3
        (((NewPackage "app/a" "1" "0").AddDependency
          { Kind := ConstraintTypeVersion, Name := "app/b" }).AddDependency
          { Kind := ConstraintTypeVersion, Name := "app/missing" }) []).map
      (fun x => x.1.map Prod.fst) = some ["app/a", "app/b"] :=
  ⟨collectDependencies_reachable cyclicRepository.toRepository
      (cyclicRepository.packages.map Prod.fst) (mock_finite cyclicRepository)
      (mock_names cyclicRepository (by decide)) "app/a" _ rfl 3 (by decide),
    by decide⟩

/-! ## Parsing dependency atoms (C29) -/

theorem starRun_all {α : Type} (p : Char → Bool) (cs : List Char)
    (k : List Char → Option α) (x : α) (hp : ∀ c ∈ cs, p c = true) (hk : k [] = some x) :
    starRun p cs k = some x := by
  induction cs with
  | nil => exact hk
  | cons c rest ih =>
    have hr := ih (fun d hd => hp d (List.mem_cons_of_mem _ hd))
    simp only [starRun, hp c (List.mem_cons_self _ _), if_true, hr]

theorem matchHere_atom (cs : List Char) (hne : cs ≠ [])
    (hcs : ∀ c ∈ cs, c ≠ ' ' ∧ c ≠ '!') :
    matchHere depPattern cs = some ([], [(2, cs)]) := by
  cases cs with
  | nil => exact absurd rfl hne
  | cons c t =>
    have hc := hcs c (List.mem_cons_self _ _)
    have h1 : (c == '!') = false := by simp [hc.2]
    have h2 : (c != '!' && c != ' ') = true := by simp [hc.1, hc.2]
    have hall : ∀ d ∈ t, (d != '!' && d != ' ') = true := by
      intro d hd
      have := hcs d (List.mem_cons_of_mem _ hd)
      simp [this.1, this.2]
    simp only [matchHere, depPattern, Regex.run, h1, h2, if_true, Bool.false_eq_true, if_false]
    rw [starRun_all _ t _ ([], [(2, c :: t)]) hall]
    simp [versionPattern, operatorPattern, Regex.run, mapSet]

theorem FindAllStringSubmatch_atom (atom : String) (hne : atom ≠ "")
    (hcs : ∀ c ∈ atom.data, c ≠ ' ' ∧ c ≠ '!') :
    FindAllStringSubmatch atom = [[atom, "", atom, "", ""]] := by
  obtain ⟨cs⟩ := atom
  have hne2 : cs ≠ [] := by
    intro h
    apply hne
    rw [h]
  have hpos : 0 < cs.length := List.length_pos.2 hne2
  simp only [FindAllStringSubmatch, findAllSubmatch, matchHere_atom cs hne2 hcs]
  simp [hpos, findAllSubmatch, matchHere, depPattern, Regex.run, mapGet, List.range,
    List.range.loop]
  cases h : cs.length with
  | zero => omega
  | succ n => simp [findAllSubmatch, matchHere, depPattern, Regex.run]

theorem parseDependencies_atom (atom : String) (hne : atom ≠ "")
    (hcs : ∀ c ∈ atom.data, c ≠ ' ' ∧ c ≠ '!') :
    parseDependencies atom = [{ Kind := ConstraintTypeVersion, Name := atom }] := by
  unfold parseDependencies
  rw [FindAllStringSubmatch_atom atom hne hcs]
  simp [hne]

/-- C29: on the atom `sys-libs/zlib>=1.2.13` the function `parseDependencies` returns one
constraint whose name is the whole atom and whose version constraint is null, although the
tail of the pattern alone splits `>=1.2.13` into the operator and the version; the same
holds for every atom `name ++ op ++ version` of the claim, because the greedy name group
`[^! ]+` takes the operator and the version too; for every non-empty atom without a space
and without `!`, so for a name alone, it returns one constraint with that name and a null
version constraint. -/
theorem parseDependencies_operator_atoms :
    parseDependencies "sys-libs/zlib>=1.2.13" =
      [{ Kind := ConstraintTypeVersion, Name := "sys-libs/zlib>=1.2.13" }] ∧
    matchHere versionPattern ">=1.2.13".data =
      some ([], [(3, ">=".data), (4, "1.2.13".data)]) ∧
    (∀ name op version : String, op ∈ [">=", "<=", ">", "<", "="] →
      name ≠ "" → version ≠ "" →
      (∀ c ∈ name.data ++ version.data, c ≠ ' ' ∧ c ≠ '!' ∧ c ≠ '<' ∧ c ≠ '>' ∧ c ≠ '=') →
      parseDependencies (name ++ op ++ version) =
        [{ Kind := ConstraintTypeVersion, Name := name ++ op ++ version }]) ∧
    ∀ atom : String, atom ≠ "" → (∀ c ∈ atom.data, c ≠ ' ' ∧ c ≠ '!') →
      parseDependencies atom = [{ Kind := ConstraintTypeVersion, Name := atom }] := by
  refine ⟨by decide, by decide, ?_, parseDependencies_atom⟩
  intro name op version hop hn _ hcs
  apply parseDependencies_atom
  · intro h
    apply hn
    have hd := congrArg String.data h
    simp only [String.data_append] at hd
    apply String.ext
    have : name.data = [] := by
      cases hx : name.data with
      | nil => rfl
      | cons a b => rw [hx] at hd; simp at hd
    rw [this]
  · intro c hc
    simp only [String.data_append, List.mem_append] at hc
    rcases hc with (hc | hc) | hc
    · have := hcs c (List.mem_append_left _ hc)
      exact ⟨this.1, this.2.1⟩
    · simp only [List.mem_cons, List.mem_singleton, List.not_mem_nil, or_false] at hop
      rcases hop with rfl | rfl | rfl | rfl | rfl <;>
        simp only [List.mem_cons, List.mem_singleton, List.not_mem_nil, or_false] at hc <;>
        rcases hc with rfl | rfl <;> decide
    · have := hcs c (List.mem_append_right _ hc)
      exact ⟨this.1, this.2.1⟩

end Gportage
